import Mathlib

set_option linter.unusedVariables false

/-!
# A shallow embedding of the `glorious-dev` binary arithmetic coder

This file embeds the two C implementations of the arithmetic coder that ship
in the repository —

* `src/glorious/c/src/arithmetic_coding.c` (ring buffer + running popcount), and
* `src/compression/c/src/arithmetic_coding.c` (unpack-and-scan context)

— as executable Lean functions over `Nat`, and proves the testable properties
stated in the specification against them.

Modelling conventions:

* C unsigned integers are modelled as `Nat` with an explicit `% 2^w` wherever
  the C computation can wrap (`uint8_t` accumulators and buffer bytes are
  reduced `% 256`, `uint32_t` casts and arithmetic `% 4294967296`, `size_t`
  and `uint64_t` arithmetic `% 2^64`).  Where a C subtraction `a - b` is
  dominated by a branch condition guaranteeing `b ≤ a`, plain truncated `Nat`
  subtraction coincides with the C value and is used directly.
* Byte buffers are `List Nat` (each element one byte); the in-place context
  ring buffer and the caller-supplied decode output buffer are total maps
  `Nat → Nat` from byte index to byte value (the C arrays are zero-initialised
  with `memset`, modelled by the constant-zero map).
* The loops whose iteration counts are not structural (the renormalization
  `while (1)` loops, `output_following_bits`) are fueled structural
  recursions.  The fuel is chosen so that it is exact on every state
  satisfying the coder's invariants (proved below); the C loops do not
  terminate on the remaining states, where the fueled functions return the
  state at fuel exhaustion.
* The compression variant's `arithmetic_coding.h` is not in the repository
  (only the `.c` files are).  Its constants and field widths are taken from
  the specification, which makes them normative: `PRECISION = 31`,
  `FIXED_SCALE = 2^16` (§6.3) and an 8-bit output accumulator (§4.1), matching
  the glorious header that is present.
-/

/-- `PRECISION` from `arithmetic_coding.h`. -/
def PRECISION : Nat := 31

/-- `FIXED_SCALE = (1 << 16)` from `arithmetic_coding.h`. -/
def FIXED_SCALE : Nat := 1 <<< 16

/-- `MAX_CONTEXT_BYTES = 256 * 1000` from `arithmetic_coding.h`. -/
def MAX_CONTEXT_BYTES : Nat := 256 * 1000

/-- `TOTAL_FREQUENCY = 1U << PRECISION`, computed at the top of both coders. -/
def TOTAL_FREQUENCY : Nat := 1 <<< PRECISION

/-- `HALF = 1U << (PRECISION - 1)`. -/
def HALF : Nat := 1 <<< (PRECISION - 1)

/-- `QUARTER = 1U << (PRECISION - 2)`. -/
def QUARTER : Nat := 1 <<< (PRECISION - 2)

/-- `THREE_QUARTER = 3U << (PRECISION - 2)`. -/
def THREE_QUARTER : Nat := 3 <<< (PRECISION - 2)

/-- Modulus of `uint8_t` arithmetic. -/
def U8 : Nat := 256

/-- Modulus of `uint32_t` arithmetic. -/
def U32 : Nat := 4294967296

/-- Modulus of 64-bit (`uint64_t` / LP64 `size_t`) arithmetic. -/
def U64 : Nat := 18446744073709551616

theorem PRECISION_eq : PRECISION = 31 := rfl
theorem FIXED_SCALE_eq : FIXED_SCALE = 65536 := rfl
theorem TOTAL_FREQUENCY_eq : TOTAL_FREQUENCY = 2147483648 := rfl
theorem HALF_eq : HALF = 1073741824 := rfl
theorem QUARTER_eq : QUARTER = 536870912 := rfl
theorem THREE_QUARTER_eq : THREE_QUARTER = 1610612736 := rfl
theorem U8_eq : U8 = 256 := rfl
theorem U32_eq : U32 = 4294967296 := rfl
theorem U64_eq : U64 = 18446744073709551616 := rfl

/-- The `ArithmeticCoder` state struct (`arithmetic_coding.h`).  The glorious
header declares `low`, `high`, `value` as `uint32_t`, `output` as a growable
byte array, `output_size`/`output_capacity`/`bits_to_follow`/
`context_capacity`/`context_index`/`count_ones` as `size_t`, and `bit_buffer`,
`bit_count` as `uint8_t`.  `output` is modelled as the list of bytes pushed so
far (capacity bookkeeping is allocation detail with no observable effect);
`context_buffer` as a byte map. The compression variant's header is absent
from the repository; its `.c` file uses the same fields apart from
`count_ones`, which it does not have (its functions never touch `count_ones`,
so the shared state type is harmless). -/
structure Coder where
  low : Nat
  high : Nat
  value : Nat
  output : List Nat
  bitsToFollow : Nat
  bitBuffer : Nat
  bitCount : Nat
  contextBuffer : Nat → Nat
  contextCapacity : Nat
  contextIndex : Nat
  countOnes : Nat

/-- Bit `i` of a packed byte list, MSB-first (reads past the end give 0,
matching both C `read_bit`s and the test harness's bit printer). -/
def bitOfBytes (bs : List Nat) (i : Nat) : Nat :=
  ((bs.getD (i / 8) 0) >>> (7 - i % 8)) &&& 1

/-- Bit `i` of a byte map, MSB-first. -/
def bitOfMap (m : Nat → Nat) (i : Nat) : Nat :=
  ((m (i / 8)) >>> (7 - i % 8)) &&& 1

namespace Glorious

/-- `read_bit` (glorious): read one bit at `bit_index` from `encoded`
(length `encoded_length` bytes); past the end return 0 and leave the
index unchanged.  Returns `(bit, new bit_index)`. -/
def read_bit (encoded : List Nat) (bit_index : Nat) (encoded_length : Nat) :
    Nat × Nat :=
  let current_bit := bit_index
  let byte_pos := current_bit >>> 3
  if byte_pos ≥ encoded_length then
    (0, bit_index)
  else
    let current_byte := encoded.getD byte_pos 0
    let shift := 7 - (current_bit &&& 7)
    (((current_byte >>> shift) &&& 1), current_bit + 1)

end Glorious

/-- `output_bit`: push one bit into the 8-bit accumulator, flushing a byte
when it fills.  The glorious and compression sources are identical
(`bit_buffer & 0xFF` in the compression push is the `uint8_t` reduction). -/
def output_bit (coder : Coder) (bit : Nat) : Coder :=
  let bb := ((coder.bitBuffer <<< 1) ||| (bit &&& 1)) % U8
  let bc := coder.bitCount + 1
  if bc = 8 then
    { coder with output := coder.output ++ [bb], bitBuffer := 0, bitCount := 0 }
  else
    { coder with bitBuffer := bb, bitCount := bc }

/-- `flush_output`: if the accumulator holds `n > 0` bits, left-shift by
`8 - n` (zero padding on the right) and push the final byte.  Identical in
both sources. -/
def flush_output (coder : Coder) : Coder :=
  if 0 < coder.bitCount then
    { coder with
        output := coder.output ++ [(coder.bitBuffer <<< (8 - coder.bitCount)) % U8],
        bitBuffer := 0, bitCount := 0 }
  else
    coder

namespace Glorious

/-- `clamp_probability_fixed` (glorious): branchless clamp of `p1_fixed` into
`[1, FIXED_SCALE - 1]` using all-ones/all-zero `uint32_t` masks.  NB: this
helper is defined in the glorious source but never called by its coder. -/
def clamp_probability_fixed (p1_fixed : Nat) : Nat :=
  let mask_low : Nat := if p1_fixed < 1 then U32 - 1 else 0
  let mask_high : Nat := if p1_fixed ≥ FIXED_SCALE then U32 - 1 else 0
  (p1_fixed &&& ((U32 - 1) ^^^ (mask_low ||| mask_high))) |||
    (1 &&& mask_low) ||| ((FIXED_SCALE - 1) &&& mask_high)

/-- The inner `for` loop of the glorious `output_following_bits`: push
`n` copies of `bit` into the accumulator without checking for a full byte. -/
def push_run (bit : Nat) : Nat → Coder → Coder
  | 0, coder => coder
  | n + 1, coder =>
      push_run bit n
        { coder with
            bitBuffer := ((coder.bitBuffer <<< 1) ||| (bit &&& 1)) % U8,
            bitCount := coder.bitCount + 1 }

/-- The `while (count > 0)` loop of the glorious `output_following_bits`:
write `min count (8 - bit_count)` copies of `bit`, flush the byte if the
accumulator filled, repeat.  If `bit_count > 7` the batch size is 0 and the
C loop never progresses; the coder's accumulator invariant (`bit_count ≤ 7`
between calls, proved below) makes that unreachable, and the embedding
returns the state unchanged there.  The loop is written with a structural
fuel argument so that it computes by kernel reduction; every executed
iteration removes at least one pending bit from `count`, so `count` units of
fuel are exact. -/
def ofb_go (bit : Nat) : Nat → Nat → Coder → Coder
  | 0, _, coder => coder
  | fuel + 1, count, coder =>
      if count = 0 then coder
      else
        let btw := if count < 8 - coder.bitCount then count else 8 - coder.bitCount
        let c1 := push_run bit btw coder
        let c2 :=
          if c1.bitCount = 8 then
            { c1 with output := c1.output ++ [c1.bitBuffer], bitBuffer := 0, bitCount := 0 }
          else c1
        if btw = 0 then c2
        else ofb_go bit fuel (count - btw) c2

/-- `output_following_bits` (glorious): emit `bits_to_follow` copies of `bit`
and reset `bits_to_follow` to zero. -/
def output_following_bits (coder : Coder) (bit : Nat) : Coder :=
  if coder.bitsToFollow = 0 then coder
  else { ofb_go bit coder.bitsToFollow coder.bitsToFollow coder with bitsToFollow := 0 }

/-- `update_context_ring_buffer` (glorious): overwrite the bit at
`context_index`, update the running popcount by
`(uint32_t)new_bit - (uint32_t)old_bit` added into the `size_t` counter
(the C code's unsigned arithmetic, wrap included), and advance the index
circularly. -/
def update_context_ring_buffer (coder : Coder) (new_bit : Nat) : Coder :=
  if 0 < coder.contextCapacity then
    let byte_pos := coder.contextIndex >>> 3
    let bit_pos := 7 - (coder.contextIndex &&& 7)
    let old_bit := ((coder.contextBuffer byte_pos) >>> bit_pos) &&& 1
    let mask := 1 <<< bit_pos
    let new_byte :=
      (((coder.contextBuffer byte_pos) &&& ((U32 - 1) ^^^ mask)) |||
        ((new_bit &&& 1) <<< bit_pos)) % U8
    let delta := ((new_bit % U32) + (U32 - old_bit)) % U32
    let idx :=
      if coder.contextIndex + 1 ≥ coder.contextCapacity then
        coder.contextIndex + 1 - coder.contextCapacity
      else coder.contextIndex + 1
    { coder with
        contextBuffer := fun j => if j = byte_pos then new_byte else coder.contextBuffer j,
        countOnes := (coder.countOnes + delta) % U64,
        contextIndex := idx }
  else coder

/-- The renormalization `while (1)` loop of the glorious encoder, one fuel
unit per iteration.  Each executed iteration strictly increases `high - low`
(it becomes `2*(high - low) + 1`), and every iterating case requires
`high - low < HALF`, so under the coder's range invariant
(`low ≤ high < TOTAL_FREQUENCY`, proved to be preserved below) the loop exits
after at most `PRECISION` iterations; `TOTAL_FREQUENCY` units of fuel are
therefore exact there (see `encode_renorm_normal`).  On invariant-violating
states the C loop can run forever; the fueled function then returns the state
at fuel exhaustion. -/
def encode_renorm_go : Nat → Coder → Coder
  | 0, c => c
  | fuel + 1, c =>
      if c.high < HALF then
        let c1 := output_following_bits (output_bit c 0) 1
        encode_renorm_go fuel { c1 with low := (c.low <<< 1) % U32, high := ((c.high <<< 1) ||| 1) % U32 }
      else if HALF ≤ c.low then
        let c1 := output_following_bits (output_bit c 1) 0
        encode_renorm_go fuel
          { c1 with low := ((c.low - HALF) <<< 1) % U32, high := (((c.high - HALF) <<< 1) ||| 1) % U32 }
      else if QUARTER ≤ c.low ∧ c.high < THREE_QUARTER then
        encode_renorm_go fuel
          { c with bitsToFollow := c.bitsToFollow + 1,
                   low := ((c.low - QUARTER) <<< 1) % U32,
                   high := (((c.high - QUARTER) <<< 1) ||| 1) % U32 }
      else c

/-- The glorious encoder's renormalization loop. -/
def encode_renorm (c : Coder) : Coder := encode_renorm_go TOTAL_FREQUENCY c

end Glorious

namespace Glorious

/-- The coder state both glorious entry points build before their main loop:
`low = 0`, `high = TOTAL_FREQUENCY - 1`, cleared accumulator and pending
count, zeroed context ring of `context_length` bits. -/
def init_coder (context_length : Nat) : Coder where
  low := 0
  high := TOTAL_FREQUENCY - 1
  value := 0
  output := []
  bitsToFollow := 0
  bitBuffer := 0
  bitCount := 0
  contextBuffer := fun _ => 0
  contextCapacity := context_length
  contextIndex := 0
  countOnes := 0

/-- One iteration of the glorious `arithmetic_encode` main loop (body of
`for (i = 0; i < length; i++)`).  The predictor is abstract
(`ProbabilityFunction`): it receives the `ContextContent` snapshot, i.e. the
`int count_ones` field (the low 32 bits of the `size_t` counter — the LP64
narrowing conversion) and `size_t context_length`, and returns a `uint32_t`. -/
def encode_step (get_probability_fixed : Nat → Nat → Nat) (context_length : Nat)
    (sequence : List Nat) (c : Coder) (i : Nat) : Coder :=
  let byte := sequence.getD (i >>> 3) 0
  let bit := (byte >>> (7 - (i &&& 7))) &&& 1
  let p1_fixed := (get_probability_fixed (c.countOnes % U32) context_length) % U32
  let p0_fixed := (FIXED_SCALE + (U32 - p1_fixed)) % U32
  let scaled_p0_raw := ((p0_fixed * TOTAL_FREQUENCY) / FIXED_SCALE) % U32
  let scaled_p0 :=
    if scaled_p0_raw ≥ TOTAL_FREQUENCY then TOTAL_FREQUENCY - 1 else scaled_p0_raw
  let range := ((c.high + (U32 - c.low)) % U32 + 1) % U32
  let c1 :=
    if bit = 0 then
      { c with high :=
          ((c.low + (range * scaled_p0) / TOTAL_FREQUENCY + (U64 - 1)) % U64) % U32 }
    else
      { c with low := (c.low + (range * scaled_p0) / TOTAL_FREQUENCY) % U32 }
  let c2 := encode_renorm c1
  update_context_ring_buffer c2 bit

/-- The glorious `arithmetic_encode` main loop: process input bits `0..length`. -/
def encode_loop (sequence : List Nat) (length : Nat) (context_length : Nat)
    (get_probability_fixed : Nat → Nat → Nat) : Coder :=
  (List.range length).foldl (encode_step get_probability_fixed context_length sequence)
    (init_coder context_length)

/-- The glorious final-bits block at the end of `arithmetic_encode`:
`bits_to_follow++`, emit the disambiguating bit and its complements, flush the
accumulator. -/
def encode_finish (c : Coder) : Coder :=
  let c1 := { c with bitsToFollow := c.bitsToFollow + 1 }
  let c2 :=
    if c1.low < QUARTER then output_following_bits (output_bit c1 0) 1
    else output_following_bits (output_bit c1 1) 0
  flush_output c2

/-- `arithmetic_encode` (glorious): the returned encoded byte buffer (the C
function also returns its length, which is the list length here). -/
def arithmetic_encode (sequence : List Nat) (length : Nat) (context_length : Nat)
    (get_probability_fixed : Nat → Nat → Nat) : List Nat :=
  (encode_finish (encode_loop sequence length context_length get_probability_fixed)).output

/-- The renormalization `while (1)` loop of the glorious decoder, threading
the input bit cursor; fueled like `encode_renorm_go` (same iteration bound:
the decoder's `value` plays no part in the loop conditions). -/
def decode_renorm_go (encoded : List Nat) (encoded_length : Nat) :
    Nat → Coder → Nat → Coder × Nat
  | 0, c, bit_index => (c, bit_index)
  | fuel + 1, c, bit_index =>
      if c.high < HALF then
        let rb := read_bit encoded bit_index encoded_length
        decode_renorm_go encoded encoded_length fuel
          { c with low := (c.low <<< 1) % U32, high := ((c.high <<< 1) ||| 1) % U32,
                   value := ((c.value <<< 1) ||| rb.1) % U32 } rb.2
      else if HALF ≤ c.low then
        let v1 := (c.value + (U32 - HALF)) % U32
        let rb := read_bit encoded bit_index encoded_length
        decode_renorm_go encoded encoded_length fuel
          { c with low := ((c.low - HALF) <<< 1) % U32, high := (((c.high - HALF) <<< 1) ||| 1) % U32,
                   value := ((v1 <<< 1) ||| rb.1) % U32 } rb.2
      else if QUARTER ≤ c.low ∧ c.high < THREE_QUARTER then
        let v1 := (c.value + (U32 - QUARTER)) % U32
        let rb := read_bit encoded bit_index encoded_length
        decode_renorm_go encoded encoded_length fuel
          { c with low := ((c.low - QUARTER) <<< 1) % U32, high := (((c.high - QUARTER) <<< 1) ||| 1) % U32,
                   value := ((v1 <<< 1) ||| rb.1) % U32 } rb.2
      else (c, bit_index)

/-- The glorious decoder's renormalization loop. -/
def decode_renorm (encoded : List Nat) (encoded_length : Nat) (c : Coder)
    (bit_index : Nat) : Coder × Nat :=
  decode_renorm_go encoded encoded_length TOTAL_FREQUENCY c bit_index

/-- One iteration of the glorious `arithmetic_decode` main loop.  The state is
(coder, decoded byte map, input bit cursor). -/
def decode_step (get_probability_fixed : Nat → Nat → Nat) (context_length : Nat)
    (encoded : List Nat) (encoded_length : Nat)
    (s : Coder × (Nat → Nat) × Nat) (i : Nat) : Coder × (Nat → Nat) × Nat :=
  let c := s.1
  let decoded := s.2.1
  let bit_index := s.2.2
  let p1_fixed := (get_probability_fixed (c.countOnes % U32) context_length) % U32
  let p0_fixed := (FIXED_SCALE + (U32 - p1_fixed)) % U32
  let scaled_p0_raw := ((p0_fixed * TOTAL_FREQUENCY) / FIXED_SCALE) % U32
  let scaled_p0 :=
    if scaled_p0_raw ≥ TOTAL_FREQUENCY then TOTAL_FREQUENCY - 1 else scaled_p0_raw
  let range := ((c.high + (U32 - c.low)) % U32 + 1) % U32
  let temp := ((((c.value + (U32 - c.low)) % U32 + 1) % U32) * TOTAL_FREQUENCY
                + (U64 - 1)) % U64
  let scaled_value := (temp / range) % U32
  let bit := if scaled_value < scaled_p0 then 0 else 1
  let decoded1 : Nat → Nat := fun j =>
    if j = i >>> 3 then
      if bit = 1 then ((decoded (i >>> 3)) ||| (1 <<< (7 - (i &&& 7)))) % U8
      else ((decoded (i >>> 3)) &&& ((U32 - 1) ^^^ (1 <<< (7 - (i &&& 7))))) % U8
    else decoded j
  let c1 := update_context_ring_buffer c bit
  let c2 :=
    if bit = 0 then
      { c1 with high :=
          ((c1.low + (range * scaled_p0) / TOTAL_FREQUENCY + (U64 - 1)) % U64) % U32 }
    else
      { c1 with low := (c1.low + (range * scaled_p0) / TOTAL_FREQUENCY) % U32 }
  let r := decode_renorm encoded encoded_length c2 bit_index
  (r.1, decoded1, r.2)

/-- The decoder's value-priming loop: shift in the first `PRECISION` bits of
the encoded stream (virtual zeros past the end).  State is (value, cursor). -/
def prime_loop (encoded : List Nat) (encoded_length : Nat) :
    Nat → Nat × Nat → Nat × Nat
  | 0, s => s
  | n + 1, s =>
      let rb := read_bit encoded s.2 encoded_length
      prime_loop encoded encoded_length n (((s.1 <<< 1) ||| rb.1) % U32, rb.2)

/-- `arithmetic_decode` (glorious): returns the decoded byte map (the caller's
preallocated buffer after the call). -/
def arithmetic_decode (encoded : List Nat) (encoded_length : Nat)
    (decoded : Nat → Nat) (decoded_length : Nat) (context_length : Nat)
    (get_probability_fixed : Nat → Nat → Nat) : Nat → Nat :=
  let c0 := init_coder context_length
  let pv := prime_loop encoded encoded_length PRECISION (0, 0)
  let c1 := { c0 with value := pv.1 }
  let s := (List.range decoded_length).foldl
    (decode_step get_probability_fixed context_length encoded encoded_length)
    (c1, decoded, pv.2)
  s.2.1

/-- `example_get_probability_fixed` (glorious `probability.c`): branchless
integer Laplace-smoothed model.  Arguments are the `ContextContent` fields
(`count_ones` as its 32-bit pattern, `context_length`); all locals are
`uint32_t`. -/
def example_get_probability_fixed (count_ones : Nat) (context_length : Nat) : Nat :=
  let cl := context_length % U32
  let co := count_ones % U32
  let numerator := (co + 1) % U32
  let denominator := (cl + 2) % U32
  let prob0 :=
    if cl = 0 then FIXED_SCALE / 2
    else ((numerator * FIXED_SCALE + denominator / 2) / denominator) % U32
  let clamp_low_mask : Nat := if prob0 < 1 then U32 - 1 else 0
  let clamp_low := clamp_low_mask &&& ((1 + (U32 - prob0)) % U32)
  let prob1 := (prob0 + clamp_low) % U32
  let clamp_high_mask : Nat := if prob1 ≥ FIXED_SCALE then U32 - 1 else 0
  let clamp_high := clamp_high_mask &&& ((FIXED_SCALE - 1 + (U32 - prob1)) % U32)
  (prob1 + clamp_high) % U32

end Glorious

namespace Compression

/-- `read_bit` (compression): same contract as the glorious one, written with
`/ 8` and `% 8`. -/
def read_bit (encoded : List Nat) (bit_index : Nat) (encoded_length : Nat) :
    Nat × Nat :=
  let byte_pos := bit_index / 8
  if byte_pos ≥ encoded_length then
    (0, bit_index)
  else
    (((encoded.getD byte_pos 0) >>> (7 - bit_index % 8)) &&& 1, bit_index + 1)

/-- `clamp_probability_fixed` (compression): branching clamp into
`[1, FIXED_SCALE - 1]`. -/
def clamp_probability_fixed (p1_fixed : Nat) : Nat :=
  if p1_fixed < 1 then 1
  else if p1_fixed > FIXED_SCALE - 1 then FIXED_SCALE - 1
  else p1_fixed

/-- `output_following_bits` (compression): `while (bits_to_follow > 0)
{ output_bit; bits_to_follow--; }`, fueled structurally by the initial
`bits_to_follow` value, which is exact. -/
def ofb_go (bit : Nat) : Nat → Coder → Coder
  | 0, c => c
  | fuel + 1, c =>
      if 0 < c.bitsToFollow then
        ofb_go bit fuel { output_bit c bit with bitsToFollow := c.bitsToFollow - 1 }
      else c

/-- `output_following_bits` (compression). -/
def output_following_bits (c : Coder) (bit : Nat) : Coder :=
  ofb_go bit c.bitsToFollow c

/-- `update_context_ring_buffer` (compression): no popcount bookkeeping,
index advanced with `% context_capacity`. -/
def update_context_ring_buffer (c : Coder) (new_bit : Nat) : Coder :=
  if c.contextCapacity = 0 then c
  else
    let byte_pos := c.contextIndex / 8
    let bit_pos := 7 - c.contextIndex % 8
    let new_byte :=
      if new_bit ≠ 0 then ((c.contextBuffer byte_pos) ||| (1 <<< bit_pos)) % U8
      else ((c.contextBuffer byte_pos) &&& ((U32 - 1) ^^^ (1 <<< bit_pos))) % U8
    { c with
        contextBuffer := fun j => if j = byte_pos then new_byte else c.contextBuffer j,
        contextIndex := (c.contextIndex + 1) % c.contextCapacity }

/-- `get_current_context_buffer` (compression): unpack the ring into a fresh
zeroed buffer, oldest bit first (`(context_index + i) % context_length`). -/
def get_current_context_buffer (c : Coder) (context_length : Nat) : Nat → Nat :=
  if context_length = 0 then fun _ => 0
  else
    (List.range context_length).foldl
      (fun buffer i =>
        let bit_pos := (c.contextIndex + i) % context_length
        let byte := bit_pos / 8
        let bit := 7 - bit_pos % 8
        let bit_value := ((c.contextBuffer byte) >>> bit) &&& 1
        let dest_byte := i / 8
        let dest_bit := 7 - i % 8
        fun j =>
          if j = dest_byte then ((buffer dest_byte) ||| (bit_value <<< dest_bit)) % U8
          else buffer j)
      (fun _ => 0)

/-- The renormalization loop of the compression encoder (identical interval
logic to the glorious one; only `output_following_bits` differs), fueled as
in `Glorious.encode_renorm_go`. -/
def encode_renorm_go : Nat → Coder → Coder
  | 0, c => c
  | fuel + 1, c =>
      if c.high < HALF then
        let c1 := output_following_bits (output_bit c 0) 1
        encode_renorm_go fuel { c1 with low := (c.low <<< 1) % U32, high := ((c.high <<< 1) ||| 1) % U32 }
      else if HALF ≤ c.low then
        let c1 := output_following_bits (output_bit c 1) 0
        encode_renorm_go fuel
          { c1 with low := ((c.low - HALF) <<< 1) % U32, high := (((c.high - HALF) <<< 1) ||| 1) % U32 }
      else if QUARTER ≤ c.low ∧ c.high < THREE_QUARTER then
        encode_renorm_go fuel
          { c with bitsToFollow := c.bitsToFollow + 1,
                   low := ((c.low - QUARTER) <<< 1) % U32,
                   high := (((c.high - QUARTER) <<< 1) ||| 1) % U32 }
      else c

/-- The compression encoder's renormalization loop. -/
def encode_renorm (c : Coder) : Coder := encode_renorm_go TOTAL_FREQUENCY c

/-- One iteration of the compression `arithmetic_encode` main loop.  The
predictor receives the unpacked context byte buffer and `context_length`, and
its `uint32_t` result is clamped by the coder. -/
def encode_step (get_probability_fixed : (Nat → Nat) → Nat → Nat)
    (context_length : Nat) (sequence : List Nat) (c : Coder) (i : Nat) : Coder :=
  let bit := ((sequence.getD (i / 8) 0) >>> (7 - i % 8)) &&& 1
  let current_context_buffer := get_current_context_buffer c context_length
  let p1_fixed :=
    clamp_probability_fixed
      ((get_probability_fixed current_context_buffer context_length) % U32)
  let p0_fixed := (FIXED_SCALE + (U32 - p1_fixed)) % U32
  let scaled_p0_raw := ((p0_fixed * TOTAL_FREQUENCY) / FIXED_SCALE) % U32
  let scaled_p0 :=
    if scaled_p0_raw ≥ TOTAL_FREQUENCY then TOTAL_FREQUENCY - 1 else scaled_p0_raw
  let range := ((c.high + (U32 - c.low)) % U32 + 1) % U32
  let c1 :=
    if bit = 0 then
      { c with high :=
          ((c.low + (range * scaled_p0) / TOTAL_FREQUENCY + (U64 - 1)) % U64) % U32 }
    else
      { c with low := (c.low + (range * scaled_p0) / TOTAL_FREQUENCY) % U32 }
  let c2 := encode_renorm c1
  update_context_ring_buffer c2 bit

/-- The compression `arithmetic_encode` main loop. -/
def encode_loop (sequence : List Nat) (length : Nat) (context_length : Nat)
    (get_probability_fixed : (Nat → Nat) → Nat → Nat) : Coder :=
  (List.range length).foldl (encode_step get_probability_fixed context_length sequence)
    (Glorious.init_coder context_length)

/-- The compression final-bits block (identical source text to the glorious
one). -/
def encode_finish (c : Coder) : Coder :=
  let c1 := { c with bitsToFollow := c.bitsToFollow + 1 }
  let c2 :=
    if c1.low < QUARTER then output_following_bits (output_bit c1 0) 1
    else output_following_bits (output_bit c1 1) 0
  flush_output c2

/-- `arithmetic_encode` (compression). -/
def arithmetic_encode (sequence : List Nat) (length : Nat) (context_length : Nat)
    (get_probability_fixed : (Nat → Nat) → Nat → Nat) : List Nat :=
  (encode_finish (encode_loop sequence length context_length get_probability_fixed)).output

/-- The renormalization loop of the compression decoder, fueled as in
`Glorious.decode_renorm_go`. -/
def decode_renorm_go (encoded : List Nat) (encoded_length : Nat) :
    Nat → Coder → Nat → Coder × Nat
  | 0, c, bit_index => (c, bit_index)
  | fuel + 1, c, bit_index =>
      if c.high < HALF then
        let rb := read_bit encoded bit_index encoded_length
        decode_renorm_go encoded encoded_length fuel
          { c with low := (c.low <<< 1) % U32, high := ((c.high <<< 1) ||| 1) % U32,
                   value := ((c.value <<< 1) ||| rb.1) % U32 } rb.2
      else if HALF ≤ c.low then
        let v1 := (c.value + (U32 - HALF)) % U32
        let rb := read_bit encoded bit_index encoded_length
        decode_renorm_go encoded encoded_length fuel
          { c with low := ((c.low - HALF) <<< 1) % U32, high := (((c.high - HALF) <<< 1) ||| 1) % U32,
                   value := ((v1 <<< 1) ||| rb.1) % U32 } rb.2
      else if QUARTER ≤ c.low ∧ c.high < THREE_QUARTER then
        let v1 := (c.value + (U32 - QUARTER)) % U32
        let rb := read_bit encoded bit_index encoded_length
        decode_renorm_go encoded encoded_length fuel
          { c with low := ((c.low - QUARTER) <<< 1) % U32, high := (((c.high - QUARTER) <<< 1) ||| 1) % U32,
                   value := ((v1 <<< 1) ||| rb.1) % U32 } rb.2
      else (c, bit_index)

/-- The compression decoder's renormalization loop. -/
def decode_renorm (encoded : List Nat) (encoded_length : Nat) (c : Coder)
    (bit_index : Nat) : Coder × Nat :=
  decode_renorm_go encoded encoded_length TOTAL_FREQUENCY c bit_index

/-- One iteration of the compression `arithmetic_decode` main loop. -/
def decode_step (get_probability_fixed : (Nat → Nat) → Nat → Nat)
    (context_length : Nat) (encoded : List Nat) (encoded_length : Nat)
    (s : Coder × (Nat → Nat) × Nat) (i : Nat) : Coder × (Nat → Nat) × Nat :=
  let c := s.1
  let decoded := s.2.1
  let bit_index := s.2.2
  let current_context_buffer := get_current_context_buffer c context_length
  let p1_fixed :=
    clamp_probability_fixed
      ((get_probability_fixed current_context_buffer context_length) % U32)
  let p0_fixed := (FIXED_SCALE + (U32 - p1_fixed)) % U32
  let scaled_p0_raw := ((p0_fixed * TOTAL_FREQUENCY) / FIXED_SCALE) % U32
  let scaled_p0 :=
    if scaled_p0_raw ≥ TOTAL_FREQUENCY then TOTAL_FREQUENCY - 1 else scaled_p0_raw
  let range := ((c.high + (U32 - c.low)) % U32 + 1) % U32
  let scaled_value :=
    (((((c.value + (U32 - c.low)) % U32 + 1) % U32) * TOTAL_FREQUENCY
        + (U64 - 1)) % U64) / range
  let bit := if scaled_value < scaled_p0 then 0 else 1
  let c1 :=
    if scaled_value < scaled_p0 then
      { c with high :=
          ((c.low + (range * scaled_p0) / TOTAL_FREQUENCY + (U64 - 1)) % U64) % U32 }
    else
      { c with low := (c.low + (range * scaled_p0) / TOTAL_FREQUENCY) % U32 }
  let decoded1 : Nat → Nat := fun j =>
    if j = i / 8 then
      if bit = 1 then ((decoded (i / 8)) ||| (1 <<< (7 - i % 8))) % U8
      else ((decoded (i / 8)) &&& ((U32 - 1) ^^^ (1 <<< (7 - i % 8)))) % U8
    else decoded j
  let c2 := update_context_ring_buffer c1 bit
  let r := decode_renorm encoded encoded_length c2 bit_index
  (r.1, decoded1, r.2)

/-- The compression decoder's value-priming loop. -/
def prime_loop (encoded : List Nat) (encoded_length : Nat) :
    Nat → Nat × Nat → Nat × Nat
  | 0, s => s
  | n + 1, s =>
      let rb := read_bit encoded s.2 encoded_length
      prime_loop encoded encoded_length n (((s.1 <<< 1) ||| rb.1) % U32, rb.2)

/-- `arithmetic_decode` (compression). -/
def arithmetic_decode (encoded : List Nat) (encoded_length : Nat)
    (decoded : Nat → Nat) (decoded_length : Nat) (context_length : Nat)
    (get_probability_fixed : (Nat → Nat) → Nat → Nat) : Nat → Nat :=
  let c0 := Glorious.init_coder context_length
  let pv := prime_loop encoded encoded_length PRECISION (0, 0)
  let c1 := { c0 with value := pv.1 }
  let s := (List.range decoded_length).foldl
    (decode_step get_probability_fixed context_length encoded encoded_length)
    (c1, decoded, pv.2)
  s.2.1

end Compression

/-- The interval-narrowing assignment appearing verbatim in all four coder
loops (glorious/compression x encode/decode): clamp-free scaling of `p0` and
the split of `[low, high]` at the cut point.  `bit = 0` narrows `high`,
anything else narrows `low`.  The step functions below are proved to factor
through it. -/
def narrow_interval (c : Coder) (p1 bit : Nat) : Coder :=
  let p1_fixed := p1 % U32
  let p0_fixed := (FIXED_SCALE + (U32 - p1_fixed)) % U32
  let scaled_p0_raw := ((p0_fixed * TOTAL_FREQUENCY) / FIXED_SCALE) % U32
  let scaled_p0 :=
    if scaled_p0_raw ≥ TOTAL_FREQUENCY then TOTAL_FREQUENCY - 1 else scaled_p0_raw
  let range := ((c.high + (U32 - c.low)) % U32 + 1) % U32
  if bit = 0 then
    { c with high :=
        ((c.low + (range * scaled_p0) / TOTAL_FREQUENCY + (U64 - 1)) % U64) % U32 }
  else
    { c with low := (c.low + (range * scaled_p0) / TOTAL_FREQUENCY) % U32 }

/-- The glorious decoder's bit decision: compare the scaled value window
against the scaled cut point. -/
def decision_bit (c : Coder) (p1 : Nat) : Nat :=
  let p1_fixed := p1 % U32
  let p0_fixed := (FIXED_SCALE + (U32 - p1_fixed)) % U32
  let scaled_p0_raw := ((p0_fixed * TOTAL_FREQUENCY) / FIXED_SCALE) % U32
  let scaled_p0 :=
    if scaled_p0_raw ≥ TOTAL_FREQUENCY then TOTAL_FREQUENCY - 1 else scaled_p0_raw
  let range := ((c.high + (U32 - c.low)) % U32 + 1) % U32
  let temp := ((((c.value + (U32 - c.low)) % U32 + 1) % U32) * TOTAL_FREQUENCY
                + (U64 - 1)) % U64
  let scaled_value := (temp / range) % U32
  if scaled_value < scaled_p0 then 0 else 1

/-- The compression decoder's bit decision: same comparison, but its
`scaled_value` is kept as a `uint64_t` (no truncation to 32 bits). -/
def decision_bit_c (c : Coder) (p1 : Nat) : Nat :=
  let p1_fixed := p1 % U32
  let p0_fixed := (FIXED_SCALE + (U32 - p1_fixed)) % U32
  let scaled_p0_raw := ((p0_fixed * TOTAL_FREQUENCY) / FIXED_SCALE) % U32
  let scaled_p0 :=
    if scaled_p0_raw ≥ TOTAL_FREQUENCY then TOTAL_FREQUENCY - 1 else scaled_p0_raw
  let range := ((c.high + (U32 - c.low)) % U32 + 1) % U32
  let temp := ((((c.value + (U32 - c.low)) % U32 + 1) % U32) * TOTAL_FREQUENCY
                + (U64 - 1)) % U64
  let scaled_value := temp / range
  if scaled_value < scaled_p0 then 0 else 1

/-- The negation of each renormalization condition: the state on which both
renormalization loops exit. -/
def RenormDone (c : Coder) : Prop :=
  ¬ (c.high < HALF) ∧ ¬ (HALF ≤ c.low) ∧ ¬ (QUARTER ≤ c.low ∧ c.high < THREE_QUARTER)

/-- One of the three renormalization conditions holds. -/
def RenormCond (c : Coder) : Prop :=
  c.high < HALF ∨ HALF ≤ c.low ∨ (QUARTER ≤ c.low ∧ c.high < THREE_QUARTER)

/-- The coder's range invariant: `0 ≤ low ≤ high < 2^PRECISION`. -/
def RangeInv (c : Coder) : Prop :=
  c.low ≤ c.high ∧ c.high < TOTAL_FREQUENCY

/-- The output accumulator invariant: fewer than 8 buffered bits, all held in
the low `bitCount` bits of `bitBuffer`. -/
def BufInv (c : Coder) : Prop :=
  c.bitCount ≤ 7 ∧ c.bitBuffer < 2 ^ c.bitCount

/-- The decoder's window invariant `low ≤ value ≤ high`. -/
def ValueInv (c : Coder) : Prop :=
  c.low ≤ c.value ∧ c.value ≤ c.high

/-- A conforming predictor for the glorious coder: pure (it is a Lean
function) and in-range, returning a fixed-point probability in
`[1, FIXED_SCALE - 1]` on every snapshot. -/
def ConformingG (pred : Nat → Nat → Nat) : Prop :=
  ∀ ones K, 1 ≤ pred ones K ∧ pred ones K ≤ FIXED_SCALE - 1

/-- Number of 1 bits among the first `K` bit positions (MSB-first) of a byte
map. -/
def ctx_ones (buf : Nat → Nat) (K : Nat) : Nat :=
  ∑ i ∈ Finset.range K, bitOfMap buf i

/-- Push a list of bits through `output_bit`, one at a time (the abstract
bit-at-a-time writer both `output_following_bits` implementations are proved
to coincide with). -/
def emit_list (c : Coder) (bits : List Nat) : Coder :=
  bits.foldl output_bit c

/-- The 8 bits of a byte, MSB first. -/
def byteToBits (b : Nat) : List Nat :=
  (List.range 8).map (fun k => (b >>> (7 - k)) &&& 1)

/-- All bits of a byte list, MSB first within each byte. -/
def bytesToBits : List Nat → List Nat
  | [] => []
  | b :: t => byteToBits b ++ bytesToBits t

/-- The `cnt` bits currently held in an output accumulator, oldest first. -/
def bufBits (buf : Nat) (cnt : Nat) : List Nat :=
  (List.range cnt).map (fun k => (buf >>> (cnt - 1 - k)) &&& 1)

/-- All bits an encoder state has pushed so far: the flushed bytes followed by
the partial accumulator. -/
def emit_bits (c : Coder) : List Nat :=
  bytesToBits c.output ++ bufBits c.bitBuffer c.bitCount

/-- The value of the first `n` bits of a bit stream read MSB-first, with
virtual zeros past the end of the list. -/
def stream_val (σ : List Nat) : Nat → Nat
  | 0 => 0
  | n + 1 => 2 * stream_val σ n + σ.getD n 0

namespace Glorious

/-- A single iteration of the glorious encoder's renormalization loop
(the identity when no condition applies). -/
def encode_renorm_iter (c : Coder) : Coder :=
  if c.high < HALF then
    let c1 := output_following_bits (output_bit c 0) 1
    { c1 with low := (c.low <<< 1) % U32, high := ((c.high <<< 1) ||| 1) % U32 }
  else if HALF ≤ c.low then
    let c1 := output_following_bits (output_bit c 1) 0
    { c1 with low := ((c.low - HALF) <<< 1) % U32, high := (((c.high - HALF) <<< 1) ||| 1) % U32 }
  else if QUARTER ≤ c.low ∧ c.high < THREE_QUARTER then
    { c with bitsToFollow := c.bitsToFollow + 1,
             low := ((c.low - QUARTER) <<< 1) % U32,
             high := (((c.high - QUARTER) <<< 1) ||| 1) % U32 }
  else c

/-- A single iteration of the glorious decoder's renormalization loop. -/
def decode_renorm_iter (encoded : List Nat) (encoded_length : Nat) (c : Coder)
    (bit_index : Nat) : Coder × Nat :=
  if c.high < HALF then
    let rb := read_bit encoded bit_index encoded_length
    ({ c with low := (c.low <<< 1) % U32, high := ((c.high <<< 1) ||| 1) % U32,
              value := ((c.value <<< 1) ||| rb.1) % U32 }, rb.2)
  else if HALF ≤ c.low then
    let v1 := (c.value + (U32 - HALF)) % U32
    let rb := read_bit encoded bit_index encoded_length
    ({ c with low := ((c.low - HALF) <<< 1) % U32, high := (((c.high - HALF) <<< 1) ||| 1) % U32,
              value := ((v1 <<< 1) ||| rb.1) % U32 }, rb.2)
  else if QUARTER ≤ c.low ∧ c.high < THREE_QUARTER then
    let v1 := (c.value + (U32 - QUARTER)) % U32
    let rb := read_bit encoded bit_index encoded_length
    ({ c with low := ((c.low - QUARTER) <<< 1) % U32, high := (((c.high - QUARTER) <<< 1) ||| 1) % U32,
              value := ((v1 <<< 1) ||| rb.1) % U32 }, rb.2)
  else (c, bit_index)

end Glorious

instance (c : Coder) : Decidable (RenormDone c) :=
  inferInstanceAs (Decidable (¬ (c.high < HALF) ∧ ¬ (HALF ≤ c.low) ∧
    ¬ (QUARTER ≤ c.low ∧ c.high < THREE_QUARTER)))

instance (c : Coder) : Decidable (RenormCond c) :=
  inferInstanceAs (Decidable (c.high < HALF ∨ HALF ≤ c.low ∨
    (QUARTER ≤ c.low ∧ c.high < THREE_QUARTER)))

instance (c : Coder) : Decidable (RangeInv c) :=
  inferInstanceAs (Decidable (c.low ≤ c.high ∧ c.high < TOTAL_FREQUENCY))

instance (c : Coder) : Decidable (BufInv c) :=
  inferInstanceAs (Decidable (c.bitCount ≤ 7 ∧ c.bitBuffer < 2 ^ c.bitCount))

instance (c : Coder) : Decidable (ValueInv c) :=
  inferInstanceAs (Decidable (c.low ≤ c.value ∧ c.value ≤ c.high))

/-- The value of a finite bit list read MSB-first. -/
def bitsVal (l : List Nat) : Nat :=
  l.foldl (fun a b => 2 * a + b) 0

/-- Number of logical bits an encoder state has pushed so far (flushed bytes
plus the partial accumulator). -/
def emitLen (c : Coder) : Nat :=
  8 * c.output.length + c.bitCount

/-- Total number of renormalization shifts the encoder has performed: every
shift either pushes a bit immediately or defers one through
`bits_to_follow`. -/
def shiftCount (c : Coder) : Nat :=
  emitLen c + c.bitsToFollow

/-- The accumulated scaling offset of an encoder state: writing the shift
history as binary digits (an emitted bit contributes itself, each pending
`bits_to_follow` shift contributes one half), `bstate` is that digit string's
value scaled by `TOTAL_FREQUENCY`.  The absolute position of the current
interval inside the stretched unit interval is `bstate c + c.low` to
`bstate c + c.high`. -/
def bstate (c : Coder) : Nat :=
  TOTAL_FREQUENCY * bitsVal (emit_bits c) * 2 ^ c.bitsToFollow
    + HALF * (2 ^ c.bitsToFollow - 1)

/-- The number the final bit stream `σ` encodes, viewed at the scale of state
`c`, stays inside `c`'s interval shifted by its accumulated offset. -/
def StreamBound (σ : List Nat) (c : Coder) : Prop :=
  bstate c + c.low ≤ stream_val σ (shiftCount c + 31) ∧
  stream_val σ (shiftCount c + 31) ≤ bstate c + c.high

/-- Decoder/encoder synchronization: the decoder state `cD` (with its input
cursor `cur`) tracks the encoder state `cE` against the final output bytes
`out` — same interval, the value window equal to the streamed number minus
the encoder's offset, and the cursor `PRECISION` bits ahead of the encoder's
shift count (saturated at the end of the stream). -/
def DSync (out : List Nat) (cE cD : Coder) (cur : Nat) : Prop :=
  cD.low = cE.low ∧ cD.high = cE.high ∧
  cD.value + bstate cE = stream_val (bytesToBits out) (shiftCount cE + 31) ∧
  cur = min (shiftCount cE + 31) (8 * out.length)

/-- The invariant carried through the joint renormalization of the two
coders: synchronization plus the encoder-side invariants that keep it
meaningful. -/
def RenSync (out : List Nat) (cE cD : Coder) (k : Nat) : Prop :=
  BufInv cE ∧ RangeInv cE ∧ StreamBound (bytesToBits out) cE ∧ DSync out cE cD k

/-- The glorious decoder's loop state after `i` iterations (the fold inside
`arithmetic_decode`, started from the value-primed initial coder). -/
def g_decode_state (g : Nat → Nat → Nat) (enc : List Nat) (L : Nat)
    (dec0 : Nat → Nat) (K i : Nat) : Coder × (Nat → Nat) × Nat :=
  (List.range i).foldl (Glorious.decode_step g K enc L)
    ({ Glorious.init_coder K with
        value := (Glorious.prime_loop enc L PRECISION (0, 0)).1 },
      dec0, (Glorious.prime_loop enc L PRECISION (0, 0)).2)

/-! ## Arithmetic toolkit -/

theorem shiftRight_three (x : Nat) : x >>> 3 = x / 8 := by
  simpa using Nat.shiftRight_eq_div_pow x 3

theorem and_seven (x : Nat) : x &&& 7 = x % 8 := by
  simpa using Nat.and_pow_two_sub_one_eq_mod x 3

theorem shiftLeft_one (x : Nat) : x <<< 1 = 2 * x := by
  rw [Nat.shiftLeft_eq, Nat.pow_one, Nat.mul_comm]

theorem shiftLeft_one_or_one (x : Nat) : (x <<< 1) ||| 1 = 2 * x + 1 := by
  rw [shiftLeft_one]
  have h := Nat.mul_add_lt_is_or (show (1:Nat) < 2 ^ 1 by norm_num) x
  simpa [Nat.pow_one] using h.symm

theorem two_mul_or_one (x : Nat) : (2 * x) ||| 1 = 2 * x + 1 := by
  have h := shiftLeft_one_or_one x
  rwa [shiftLeft_one] at h

theorem all_ones_and (v : Nat) (hv : v < U32) : (U32 - 1) &&& v = v := by
  rw [U32_eq] at hv ⊢
  rw [Nat.and_comm]
  simpa [show (4294967296 : Nat) = 2 ^ 32 by norm_num] using
    Nat.and_pow_two_sub_one_of_lt_two_pow (show v < 2 ^ 32 by omega)

/-! ## C6: bit read -/

/-- C6: `read_bit` (both variants) returns
`(buffer[c/8] >> (7 - c % 8)) & 1` and advances the cursor when `c/8 < L`,
and returns 0 with the cursor unchanged when `c/8 ≥ L` — an unbounded stream
of virtual zeros past the end. -/
theorem c6_read_bit (encoded : List Nat) (c L : Nat) :
    Glorious.read_bit encoded c L =
      (if c / 8 < L then (((encoded.getD (c / 8) 0) >>> (7 - c % 8)) &&& 1, c + 1)
       else (0, c)) ∧
    Compression.read_bit encoded c L = Glorious.read_bit encoded c L := by
  constructor
  · unfold Glorious.read_bit
    simp only [shiftRight_three, and_seven]
    by_cases h : c / 8 < L
    · rw [if_pos h, if_neg (show ¬ c / 8 ≥ L by omega)]
    · rw [if_neg h, if_pos (show c / 8 ≥ L by omega)]
  · unfold Glorious.read_bit Compression.read_bit
    simp only [shiftRight_three, and_seven]

/-! ## C9: the glorious reference predictor -/

/-- C9: on every snapshot the coder can produce (`count_ones ≤ context_length
≤ 8 * MAX_CONTEXT_BYTES`), the glorious `example_get_probability_fixed`
returns `FIXED_SCALE / 2` when `context_length = 0` and otherwise
`clamp(((count_ones + 1) * FIXED_SCALE + (K + 2) / 2) / (K + 2), 1,
FIXED_SCALE - 1)`; it is by construction a deterministic function of
`(count_ones, context_length)` alone. -/
theorem c9_reference_predictor (ones K : Nat) (h1 : ones ≤ K)
    (h2 : K ≤ 8 * MAX_CONTEXT_BYTES) :
    Glorious.example_get_probability_fixed ones K =
      if K = 0 then FIXED_SCALE / 2
      else min (max (((ones + 1) * FIXED_SCALE + (K + 2) / 2) / (K + 2)) 1)
        (FIXED_SCALE - 1) := by
  have hmcb : MAX_CONTEXT_BYTES = 256000 := rfl
  have hK32 : K < 4294967296 := by omega
  have hones32 : ones < 4294967296 := by omega
  simp only [Glorious.example_get_probability_fixed, U32_eq, FIXED_SCALE_eq,
    Nat.mod_eq_of_lt hK32, Nat.mod_eq_of_lt hones32]
  by_cases hK : K = 0
  · subst hK
    norm_num
  · rw [if_neg hK, if_neg hK]
    have hden : 0 < K + 2 := by omega
    have hmod1 : (ones + 1) % 4294967296 = ones + 1 := Nat.mod_eq_of_lt (by omega)
    have hmod2 : (K + 2) % 4294967296 = K + 2 := Nat.mod_eq_of_lt (by omega)
    rw [hmod1, hmod2]
    set q := ((ones + 1) * 65536 + (K + 2) / 2) / (K + 2) with hq
    have hqle : q ≤ 65537 := by
      have hlt : (ones + 1) * 65536 + (K + 2) / 2 < 65538 * (K + 2) := by
        have : (ones + 1) * 65536 ≤ (K + 1) * 65536 :=
          Nat.mul_le_mul_right _ (by omega)
        omega
      have := (Nat.div_lt_iff_lt_mul hden).mpr hlt
      omega
    have hqlt : q % 4294967296 = q := Nat.mod_eq_of_lt (by omega)
    rw [hqlt]
    by_cases hq0 : q < 1
    · have hq0' : q = 0 := by omega
      rw [if_pos hq0, hq0']
      norm_num
    · rw [if_neg hq0]
      rw [Nat.zero_and, Nat.add_zero, hqlt]
      by_cases hqh : q ≥ 65536
      · rw [if_pos hqh]
        have hval : (65536 - 1 + (4294967296 - q)) % 4294967296
            = 65536 - 1 + (4294967296 - q) := Nat.mod_eq_of_lt (by omega)
        rw [hval]
        have hand : (4294967296 - 1) &&& (65536 - 1 + (4294967296 - q))
            = 65536 - 1 + (4294967296 - q) := by
          have h := all_ones_and (65536 - 1 + (4294967296 - q)) (by rw [U32_eq]; omega)
          rw [U32_eq] at h
          exact h
        rw [hand]
        have hsum : q + (65536 - 1 + (4294967296 - q)) = 4294967296 + 65535 := by omega
        rw [hsum]
        have : (4294967296 + 65535) % 4294967296 = 65535 := by norm_num
        rw [this]
        omega
      · rw [if_neg hqh]
        rw [Nat.zero_and, Nat.add_zero, hqlt]
        omega

/-- C9 witness: the theorem applied at the concrete snapshot
`(count_ones, context_length) = (3, 4)`. -/
theorem c9_reference_predictor_witness :
    3 ≤ 4 ∧ 4 ≤ 8 * MAX_CONTEXT_BYTES ∧
      Glorious.example_get_probability_fixed 3 4 =
        if (4:Nat) = 0 then FIXED_SCALE / 2
        else min (max (((3 + 1) * FIXED_SCALE + (4 + 2) / 2) / (4 + 2)) 1)
          (FIXED_SCALE - 1) :=
  ⟨by decide, by decide, c9_reference_predictor 3 4 (by decide) (by decide)⟩

/-! ## C4: the running popcount -/

/-- C4: evaluating `update_context_ring_buffer` at the failing input.  With
`K = 1`, inserting bit 1 and then overwriting it with bit 0 leaves
`count_ones = 2^32` — the `(uint32_t)new_bit - (uint32_t)old_bit` wraparound
`0xFFFFFFFF` is added into the 64-bit `size_t` counter instead of
subtracting 1 — while the ring itself holds no 1 bits, contradicting the
documented invariant `ctx_ones == popcount(ctx_bits[0..K])`. -/
theorem c4_count_ones_bug :
    (Glorious.update_context_ring_buffer
        (Glorious.update_context_ring_buffer (Glorious.init_coder 1) 1) 0).countOnes
      = 4294967296 ∧
    ctx_ones (Glorious.update_context_ring_buffer
        (Glorious.update_context_ring_buffer (Glorious.init_coder 1) 1) 0).contextBuffer 1
      = 0 ∧
    (Glorious.update_context_ring_buffer (Glorious.init_coder 1) 1).countOnes = 1 ∧
    ctx_ones (Glorious.update_context_ring_buffer (Glorious.init_coder 1) 1).contextBuffer 1
      = 1 := by
  refine ⟨?_, ?_, ?_, ?_⟩ <;> decide

/-! ## C2: probability clamping -/

set_option maxRecDepth 40000 in
/-- C2 (counterexample): the glorious coder does not clamp the predictor's
value.  If `arithmetic_encode` clamped `p1` into `[1, S-1]` before computing
`p0`, then a predictor constantly returning 0 and one constantly returning
`clamp(0) = 1` would encode identically; on the one-bit input `1` they do
not. -/
theorem c2_counterexample :
    Glorious.clamp_probability_fixed 0 = 1 ∧
    Glorious.arithmetic_encode [128] 1 0 (fun _ _ => 0) ≠
      Glorious.arithmetic_encode [128] 1 0
        (fun _ _ => Glorious.clamp_probability_fixed 0) := by
  constructor
  · decide
  · decide

/-- `clamp_probability_fixed` (compression) lands in `[1, FIXED_SCALE-1]` and
is a fixed point there, so pre-clamping the predictor is invisible. -/
theorem clamp_probability_fixed_idem (x : Nat) :
    Compression.clamp_probability_fixed
        ((Compression.clamp_probability_fixed x) % U32) =
      Compression.clamp_probability_fixed x := by
  unfold Compression.clamp_probability_fixed
  rw [FIXED_SCALE_eq, U32_eq]
  by_cases h1 : x < 1
  · simp [h1]
  · rw [if_neg h1]
    by_cases h2 : x > 65536 - 1
    · rw [if_pos h2]
      norm_num
    · rw [if_neg h2]
      rw [Nat.mod_eq_of_lt (by omega)]
      rw [if_neg h1, if_neg h2]

/-- C2 (amended): in the compression variant the coder itself does clamp:
pre-clamping the predictor's `uint32_t` return is invisible to both
`arithmetic_encode` and `arithmetic_decode`.  (In the glorious variant
`c2_counterexample` shows the analogous statement fails: there clamping is
the predictor's job and `clamp_probability_fixed` is dead code.) -/
theorem c2_amended (pred : (Nat → Nat) → Nat → Nat) :
    (∀ (seq : List Nat) (N K : Nat),
      Compression.arithmetic_encode seq N K pred =
        Compression.arithmetic_encode seq N K
          (fun buf len => Compression.clamp_probability_fixed ((pred buf len) % U32))) ∧
    (∀ (encoded : List Nat) (L : Nat) (decoded0 : Nat → Nat) (N K : Nat),
      Compression.arithmetic_decode encoded L decoded0 N K pred =
        Compression.arithmetic_decode encoded L decoded0 N K
          (fun buf len => Compression.clamp_probability_fixed ((pred buf len) % U32))) := by
  have hstep_e : ∀ K seq,
      Compression.encode_step
          (fun buf len => Compression.clamp_probability_fixed ((pred buf len) % U32)) K seq
        = Compression.encode_step pred K seq := by
    intro K seq
    funext c i
    unfold Compression.encode_step
    simp only [clamp_probability_fixed_idem]
  have hstep_d : ∀ K encoded L,
      Compression.decode_step
          (fun buf len => Compression.clamp_probability_fixed ((pred buf len) % U32))
          K encoded L
        = Compression.decode_step pred K encoded L := by
    intro K encoded L
    funext s i
    unfold Compression.decode_step
    simp only [clamp_probability_fixed_idem]
  constructor
  · intro seq N K
    unfold Compression.arithmetic_encode Compression.encode_loop
    rw [hstep_e]
  · intro encoded L decoded0 N K
    unfold Compression.arithmetic_decode
    rw [hstep_d]

/-! ## C8: one rescaling step at least doubles the range width -/

/-- C8: for every coder state with `low ≤ high < 2^PRECISION` satisfying one
of the three renormalization conditions, one iteration of the glorious
encoder's renormalization loop — and likewise of the decoder's — turns
`high - low` into at least `2 * (high - low) + 1`. -/
theorem c8_rescaling_doubles (c : Coder) (encoded : List Nat) (L idx : Nat)
    (hr : RangeInv c) (hc : RenormCond c) :
    2 * (c.high - c.low) + 1 ≤
        (Glorious.encode_renorm_iter c).high - (Glorious.encode_renorm_iter c).low ∧
    2 * (c.high - c.low) + 1 ≤
        (Glorious.decode_renorm_iter encoded L c idx).1.high -
          (Glorious.decode_renorm_iter encoded L c idx).1.low := by
  obtain ⟨hlh, hhi⟩ := hr
  rw [TOTAL_FREQUENCY_eq] at hhi
  unfold Glorious.encode_renorm_iter Glorious.decode_renorm_iter
  by_cases h1 : c.high < HALF
  · rw [if_pos h1, if_pos h1]
    rw [HALF_eq] at h1
    simp only [shiftLeft_one, two_mul_or_one, U32_eq]
    omega
  · rw [if_neg h1, if_neg h1]
    rw [HALF_eq] at h1
    by_cases h2 : HALF ≤ c.low
    · rw [if_pos h2, if_pos h2]
      rw [HALF_eq] at h2
      simp only [shiftLeft_one, two_mul_or_one, HALF_eq, U32_eq]
      omega
    · rw [if_neg h2, if_neg h2]
      rw [HALF_eq] at h2
      by_cases h3 : QUARTER ≤ c.low ∧ c.high < THREE_QUARTER
      · rw [if_pos h3, if_pos h3]
        rw [QUARTER_eq, THREE_QUARTER_eq] at h3
        simp only [shiftLeft_one, two_mul_or_one, QUARTER_eq, U32_eq]
        omega
      · exfalso
        rcases hc with h | h | h
        · rw [HALF_eq] at h; omega
        · rw [HALF_eq] at h; omega
        · exact h3 h

/-- C8 witness: the theorem applied at the concrete state
`low = 0, high = 7` (condition `high < HALF` holds). -/
theorem c8_rescaling_doubles_witness :
    RangeInv ⟨0, 7, 0, [], 0, 0, 0, fun _ => 0, 0, 0, 0⟩ ∧
    RenormCond ⟨0, 7, 0, [], 0, 0, 0, fun _ => 0, 0, 0, 0⟩ ∧
    (2 * ((7:Nat) - 0) + 1 ≤
        (Glorious.encode_renorm_iter ⟨0, 7, 0, [], 0, 0, 0, fun _ => 0, 0, 0, 0⟩).high -
          (Glorious.encode_renorm_iter ⟨0, 7, 0, [], 0, 0, 0, fun _ => 0, 0, 0, 0⟩).low ∧
      2 * ((7:Nat) - 0) + 1 ≤
        (Glorious.decode_renorm_iter [] 0 ⟨0, 7, 0, [], 0, 0, 0, fun _ => 0, 0, 0, 0⟩ 0).1.high -
          (Glorious.decode_renorm_iter [] 0 ⟨0, 7, 0, [], 0, 0, 0, fun _ => 0, 0, 0, 0⟩ 0).1.low) :=
  ⟨by decide, by decide,
    c8_rescaling_doubles ⟨0, 7, 0, [], 0, 0, 0, fun _ => 0, 0, 0, 0⟩ [] 0 0
      (by decide) (by decide)⟩

/-! ## Bit-accumulator lemmas -/

theorem bufBits_zero (b : Nat) : bufBits b 0 = [] := rfl

theorem byteToBits_eq_bufBits (b : Nat) : byteToBits b = bufBits b 8 := rfl

theorem bytesToBits_append (l1 l2 : List Nat) :
    bytesToBits (l1 ++ l2) = bytesToBits l1 ++ bytesToBits l2 := by
  induction l1 with
  | nil => rfl
  | cons b t ih =>
      simp only [List.cons_append, bytesToBits, List.append_eq]
      rw [ih, List.append_assoc]

theorem bufBits_push (b n bit : Nat) (hb : b < 2 ^ n) (hn : n ≤ 7) :
    bufBits (((b <<< 1) ||| (bit &&& 1)) % U8) (n + 1) =
      bufBits b n ++ [bit &&& 1] := by
  have hbit : bit &&& 1 ≤ 1 := by
    rw [Nat.and_one_is_mod]
    omega
  have hval : (b <<< 1) ||| (bit &&& 1) = 2 * b + (bit &&& 1) := by
    rcases Nat.le_one_iff_eq_zero_or_eq_one.mp hbit with h | h
    · rw [h, shiftLeft_one]
      simp
    · rw [h, shiftLeft_one_or_one]
  have hlt : 2 * b + (bit &&& 1) < 256 := by
    have : 2 ^ n ≤ 2 ^ 7 := Nat.pow_le_pow_right (by norm_num) hn
    omega
  rw [hval, U8_eq, Nat.mod_eq_of_lt hlt]
  unfold bufBits
  rw [List.range_succ, List.map_append]
  congr 1
  · apply List.map_congr_left
    intro k hk
    rw [List.mem_range] at hk
    have hm : n + 1 - 1 - k = (n - 1 - k) + 1 := by omega
    rw [hm]
    have hdiv : (2 * b + (bit &&& 1)) >>> ((n - 1 - k) + 1)
        = b >>> (n - 1 - k) := by
      rw [Nat.shiftRight_eq_div_pow, Nat.shiftRight_eq_div_pow, Nat.pow_succ]
      rw [Nat.mul_comm (2 ^ (n - 1 - k)) 2, ← Nat.div_div_eq_div_mul]
      congr 1
      omega
    rw [hdiv]
  · simp only [List.map_cons, List.map_nil]
    have : n + 1 - 1 - n = 0 := by omega
    rw [this]
    simp only [Nat.shiftRight_zero]
    rw [Nat.and_one_is_mod, Nat.and_one_is_mod]
    congr 1
    omega

theorem bytesToBits_singleton (b : Nat) : bytesToBits [b] = byteToBits b := by
  simp [bytesToBits]

theorem output_bit_low (c : Coder) (b : Nat) : (output_bit c b).low = c.low := by
  by_cases h8 : c.bitCount + 1 = 8 <;> simp [output_bit, h8]

theorem output_bit_high (c : Coder) (b : Nat) : (output_bit c b).high = c.high := by
  by_cases h8 : c.bitCount + 1 = 8 <;> simp [output_bit, h8]

theorem output_bit_value (c : Coder) (b : Nat) : (output_bit c b).value = c.value := by
  by_cases h8 : c.bitCount + 1 = 8 <;> simp [output_bit, h8]

theorem output_bit_bitsToFollow (c : Coder) (b : Nat) :
    (output_bit c b).bitsToFollow = c.bitsToFollow := by
  by_cases h8 : c.bitCount + 1 = 8 <;> simp [output_bit, h8]

theorem output_bit_contextBuffer (c : Coder) (b : Nat) :
    (output_bit c b).contextBuffer = c.contextBuffer := by
  by_cases h8 : c.bitCount + 1 = 8 <;> simp [output_bit, h8]

theorem output_bit_contextCapacity (c : Coder) (b : Nat) :
    (output_bit c b).contextCapacity = c.contextCapacity := by
  by_cases h8 : c.bitCount + 1 = 8 <;> simp [output_bit, h8]

theorem output_bit_contextIndex (c : Coder) (b : Nat) :
    (output_bit c b).contextIndex = c.contextIndex := by
  by_cases h8 : c.bitCount + 1 = 8 <;> simp [output_bit, h8]

theorem output_bit_countOnes (c : Coder) (b : Nat) :
    (output_bit c b).countOnes = c.countOnes := by
  by_cases h8 : c.bitCount + 1 = 8 <;> simp [output_bit, h8]

/-- Pushing one bit appends it to the emitted stream and keeps the
accumulator invariant. -/
theorem output_bit_emit (c : Coder) (b : Nat) (h : BufInv c) :
    emit_bits (output_bit c b) = emit_bits c ++ [b &&& 1] ∧
      BufInv (output_bit c b) := by
  obtain ⟨hc, hb⟩ := h
  have hbit : b &&& 1 ≤ 1 := by rw [Nat.and_one_is_mod]; omega
  have hval : (c.bitBuffer <<< 1) ||| (b &&& 1) = 2 * c.bitBuffer + (b &&& 1) := by
    rcases Nat.le_one_iff_eq_zero_or_eq_one.mp hbit with h | h
    · rw [h, shiftLeft_one]; simp
    · rw [h, shiftLeft_one_or_one]
  by_cases h8 : c.bitCount + 1 = 8
  · have hc7 : c.bitCount = 7 := by omega
    have hpush := bufBits_push c.bitBuffer 7 b (hc7 ▸ hb) (by norm_num)
    have hout : (output_bit c b).output
        = c.output ++ [((c.bitBuffer <<< 1) ||| (b &&& 1)) % U8] := by
      simp [output_bit, h8]
    have hbc : (output_bit c b).bitCount = 0 := by simp [output_bit, h8]
    have hbb : (output_bit c b).bitBuffer = 0 := by simp [output_bit, h8]
    refine ⟨?_, ?_⟩
    · unfold emit_bits
      rw [hout, hbc, hbb, bufBits_zero, List.append_nil, bytesToBits_append,
        bytesToBits_singleton, byteToBits_eq_bufBits]
      rw [List.append_assoc, hc7]
      congr 1
    · exact ⟨by rw [hbc]; omega, by rw [hbb, hbc]; norm_num⟩
  · have hpush := bufBits_push c.bitBuffer c.bitCount b hb (by omega)
    have hout : (output_bit c b).output = c.output := by simp [output_bit, h8]
    have hbc : (output_bit c b).bitCount = c.bitCount + 1 := by simp [output_bit, h8]
    have hbb : (output_bit c b).bitBuffer
        = ((c.bitBuffer <<< 1) ||| (b &&& 1)) % U8 := by
      simp [output_bit, h8]
    refine ⟨?_, ?_⟩
    · unfold emit_bits
      rw [hout, hbc, hbb, List.append_assoc]
      congr 1
    · have hlt : 2 * c.bitBuffer + (b &&& 1) < 256 := by
        have h2 : (2:Nat) ^ c.bitCount ≤ 2 ^ 7 := Nat.pow_le_pow_right (by norm_num) hc
        omega
      refine ⟨by rw [hbc]; omega, ?_⟩
      rw [hbb, hbc, hval, U8_eq, Nat.mod_eq_of_lt hlt, Nat.pow_succ]
      omega

theorem emit_list_nil (c : Coder) : emit_list c [] = c := rfl

theorem emit_list_cons (c : Coder) (b : Nat) (bits : List Nat) :
    emit_list c (b :: bits) = emit_list (output_bit c b) bits := rfl

theorem emit_list_append (c : Coder) (l1 l2 : List Nat) :
    emit_list c (l1 ++ l2) = emit_list (emit_list c l1) l2 := by
  simp [emit_list]

/-- `emit_list` appends the (masked) bits to the emitted stream, preserves
the accumulator invariant, and leaves every non-output field unchanged. -/
theorem emit_list_emit (bits : List Nat) : ∀ c : Coder, BufInv c →
    emit_bits (emit_list c bits) = emit_bits c ++ bits.map (· &&& 1) ∧
    BufInv (emit_list c bits) ∧
    (emit_list c bits).low = c.low ∧ (emit_list c bits).high = c.high ∧
    (emit_list c bits).value = c.value ∧
    (emit_list c bits).bitsToFollow = c.bitsToFollow ∧
    (emit_list c bits).contextBuffer = c.contextBuffer ∧
    (emit_list c bits).contextCapacity = c.contextCapacity ∧
    (emit_list c bits).contextIndex = c.contextIndex ∧
    (emit_list c bits).countOnes = c.countOnes := by
  induction bits with
  | nil => intro c h; simp [emit_list_nil, h]
  | cons b t ih =>
      intro c h
      obtain ⟨he, hb⟩ := output_bit_emit c b h
      obtain ⟨ihe, ihb, ihf⟩ := ih (output_bit c b) hb
      rw [emit_list_cons]
      refine ⟨?_, ihb, ?_⟩
      · rw [ihe, he, List.map_cons, List.append_assoc]
        rfl
      · simp only [ihf.1, ihf.2.1, ihf.2.2.1, ihf.2.2.2.1, ihf.2.2.2.2.1,
          ihf.2.2.2.2.2.1, ihf.2.2.2.2.2.2]
        exact ⟨output_bit_low c b, output_bit_high c b, output_bit_value c b,
          output_bit_bitsToFollow c b, output_bit_contextBuffer c b,
          output_bit_contextCapacity c b, output_bit_contextIndex c b,
          output_bit_countOnes c b⟩

/-- The glorious batch push followed by the full-byte check equals pushing
the bits one at a time. -/
theorem push_run_flush_eq (bit : Nat) : ∀ (n : Nat) (c : Coder), BufInv c →
    n + c.bitCount ≤ 8 →
    (if (Glorious.push_run bit n c).bitCount = 8 then
       { Glorious.push_run bit n c with
           output := (Glorious.push_run bit n c).output ++
             [(Glorious.push_run bit n c).bitBuffer],
           bitBuffer := 0, bitCount := 0 }
     else Glorious.push_run bit n c)
    = emit_list c (List.replicate n bit) := by
  intro n
  induction n with
  | zero =>
      intro c h hn
      obtain ⟨hc, hb⟩ := h
      rw [List.replicate_zero, emit_list_nil]
      unfold Glorious.push_run
      rw [if_neg (by omega : ¬ c.bitCount = 8)]
  | succ n ih =>
      intro c h hn
      rw [List.replicate_succ, emit_list_cons]
      by_cases h8 : c.bitCount + 1 = 8
      · have hn0 : n = 0 := by omega
        subst hn0
        rw [List.replicate_zero, emit_list_nil]
        simp [Glorious.push_run, output_bit, h8]
      · have hb' : BufInv (output_bit c bit) := (output_bit_emit c bit h).2
        have hbc : (output_bit c bit).bitCount = c.bitCount + 1 := by
          simp [output_bit, h8]
        have hstep : Glorious.push_run bit (n + 1) c
            = Glorious.push_run bit n (output_bit c bit) := by
          show Glorious.push_run bit n _ = _
          congr 1
          unfold output_bit
          rw [if_neg h8]
        rw [hstep]
        exact ih (output_bit c bit) hb' (by rw [hbc]; omega)

/-- The glorious batched `output_following_bits` loop writes exactly `count`
copies of `bit` through the accumulator (with `count` fuel). -/
theorem ofb_go_eq (bit : Nat) : ∀ (fuel count : Nat) (c : Coder), BufInv c →
    count ≤ fuel →
    Glorious.ofb_go bit fuel count c = emit_list c (List.replicate count bit) := by
  intro fuel
  induction fuel with
  | zero =>
      intro count c h hf
      have : count = 0 := by omega
      subst this
      rfl
  | succ fuel ih =>
      intro count c h hf
      by_cases h0 : count = 0
      · subst h0
        rfl
      · obtain ⟨hc, hb⟩ := h
        have hbtw : (if count < 8 - c.bitCount then count else 8 - c.bitCount)
            = min count (8 - c.bitCount) := by
          rw [Nat.min_def]
          split <;> split <;> omega
        have hbtw1 : 1 ≤ min count (8 - c.bitCount) := by omega
        have hbtwc : min count (8 - c.bitCount) ≤ count := Nat.min_le_left _ _
        have hbtw8 : min count (8 - c.bitCount) + c.bitCount ≤ 8 := by
          have := Nat.min_le_right count (8 - c.bitCount)
          omega
        have hflush := push_run_flush_eq bit (min count (8 - c.bitCount)) c ⟨hc, hb⟩ hbtw8
        show (if count = 0 then c else _) = _
        rw [if_neg h0]
        simp only [hbtw]
        rw [if_neg (by omega : ¬ min count (8 - c.bitCount) = 0)]
        rw [hflush]
        have hinv2 := emit_list_emit (List.replicate (min count (8 - c.bitCount)) bit) c ⟨hc, hb⟩
        rw [ih (count - min count (8 - c.bitCount))
              (emit_list c (List.replicate (min count (8 - c.bitCount)) bit))
              hinv2.2.1 (by omega)]
        rw [← emit_list_append, ← List.replicate_add]
        congr 2
        omega

/-- `output_following_bits` (glorious) = emit `bitsToFollow` copies of `bit`,
then clear `bitsToFollow`. -/
theorem g_ofb_eq (c : Coder) (bit : Nat) (h : BufInv c) :
    Glorious.output_following_bits c bit
      = { emit_list c (List.replicate c.bitsToFollow bit) with bitsToFollow := 0 } := by
  unfold Glorious.output_following_bits
  by_cases h0 : c.bitsToFollow = 0
  · rw [if_pos h0, h0, List.replicate_zero, emit_list_nil]
    conv_rhs => rw [← h0]
  · rw [if_neg h0, ofb_go_eq bit c.bitsToFollow c.bitsToFollow c h (Nat.le_refl _)]

/-- `output_bit` commutes with overwriting `bitsToFollow`. -/
theorem output_bit_set_btf (c : Coder) (b v : Nat) :
    output_bit { c with bitsToFollow := v } b
      = { output_bit c b with bitsToFollow := v } := by
  by_cases h8 : c.bitCount + 1 = 8 <;> simp [output_bit, h8]

/-- `emit_list` commutes with overwriting `bitsToFollow`. -/
theorem emit_list_set_btf (bits : List Nat) : ∀ (c : Coder) (v : Nat),
    emit_list { c with bitsToFollow := v } bits
      = { emit_list c bits with bitsToFollow := v } := by
  induction bits with
  | nil => intro c v; rfl
  | cons b t ih =>
      intro c v
      rw [emit_list_cons, output_bit_set_btf, ih, emit_list_cons]

/-- The compression `output_following_bits` loop, fueled by at least the
current `bitsToFollow`, emits `bitsToFollow` copies of `bit` and clears it. -/
theorem c_ofb_go_eq (bit : Nat) : ∀ (fuel : Nat) (c : Coder),
    c.bitsToFollow ≤ fuel →
    Compression.ofb_go bit fuel c
      = { emit_list c (List.replicate c.bitsToFollow bit) with bitsToFollow := 0 } := by
  intro fuel
  induction fuel with
  | zero =>
      intro c hf
      have h0 : c.bitsToFollow = 0 := by omega
      show c = _
      rw [h0, List.replicate_zero, emit_list_nil]
      conv_rhs => rw [← h0]
  | succ fuel ih =>
      intro c hf
      by_cases h0 : 0 < c.bitsToFollow
      · show (if 0 < c.bitsToFollow then _ else _) = _
        rw [if_pos h0]
        rw [ih { output_bit c bit with bitsToFollow := c.bitsToFollow - 1 }
              (by simpa using by omega)]
        have hrep : c.bitsToFollow = (c.bitsToFollow - 1) + 1 := by omega
        conv_rhs => rw [hrep, List.replicate_succ, emit_list_cons]
        show { emit_list { output_bit c bit with bitsToFollow := c.bitsToFollow - 1 }
                 (List.replicate ({ output_bit c bit with
                    bitsToFollow := c.bitsToFollow - 1 } : Coder).bitsToFollow bit)
               with bitsToFollow := 0 } = _
        have hproj : ({ output_bit c bit with bitsToFollow := c.bitsToFollow - 1 }
            : Coder).bitsToFollow = c.bitsToFollow - 1 := rfl
        rw [hproj]
        have := emit_list_set_btf (List.replicate (c.bitsToFollow - 1) bit)
          (output_bit c bit) (c.bitsToFollow - 1)
        rw [this]
      · show (if 0 < c.bitsToFollow then _ else _) = _
        rw [if_neg h0]
        have h0' : c.bitsToFollow = 0 := by omega
        rw [h0', List.replicate_zero, emit_list_nil]
        conv_rhs => rw [← h0']

/-- Under the accumulator invariant the two `output_following_bits`
implementations agree. -/
theorem ofb_agree (c : Coder) (bit : Nat) (h : BufInv c) :
    Compression.output_following_bits c bit = Glorious.output_following_bits c bit := by
  unfold Compression.output_following_bits
  rw [c_ofb_go_eq bit c.bitsToFollow c (Nat.le_refl _), g_ofb_eq c bit h]

/-- The byte pushed by `flush_output` carries the buffered bits followed by
zero padding. -/
theorem padded_byte_bits (bb bc : Nat) (h1 : 0 < bc) (h2 : bc ≤ 7)
    (hb : bb < 2 ^ bc) :
    byteToBits ((bb <<< (8 - bc)) % U8) = bufBits bb bc ++ List.replicate (8 - bc) 0 := by
  have hsh : bb <<< (8 - bc) = bb * 2 ^ (8 - bc) := Nat.shiftLeft_eq bb (8 - bc)
  have hlt : bb * 2 ^ (8 - bc) < 256 := by
    have hmul : bb * 2 ^ (8 - bc) < 2 ^ bc * 2 ^ (8 - bc) :=
      Nat.mul_lt_mul_of_pos_right hb (by positivity)
    have hpow : (2:Nat) ^ bc * 2 ^ (8 - bc) = 2 ^ 8 := by
      rw [← Nat.pow_add]
      congr 1
      omega
    rw [hpow] at hmul
    simpa using hmul
  rw [hsh, U8_eq, Nat.mod_eq_of_lt hlt]
  apply List.ext_getElem
  · simp [byteToBits, bufBits]
    omega
  · intro i hi hi2
    simp only [byteToBits, List.getElem_map, List.getElem_range] at hi ⊢
    simp only [List.length_map, List.length_range] at hi
    by_cases hcase : i < bc
    · rw [List.getElem_append_left (by simp [bufBits]; omega)]
      simp only [bufBits, List.getElem_map, List.getElem_range]
      congr 1
      rw [Nat.shiftRight_eq_div_pow, Nat.shiftRight_eq_div_pow]
      have hsplit : 7 - i = (8 - bc) + (bc - 1 - i) := by omega
      rw [hsplit, Nat.pow_add, Nat.mul_comm bb (2 ^ (8 - bc))]
      exact Nat.mul_div_mul_left _ _ (by positivity)
    · rw [List.getElem_append_right (by simp [bufBits]; omega)]
      simp only [List.getElem_replicate]
      have hdiv : (bb * 2 ^ (8 - bc)) >>> (7 - i) = bb * 2 ^ ((8 - bc) - (7 - i)) := by
        rw [Nat.shiftRight_eq_div_pow]
        have h7 : (8 - bc) = (7 - i) + ((8 - bc) - (7 - i)) := by omega
        conv_lhs => rw [h7]
        rw [Nat.pow_add, ← Nat.mul_assoc, Nat.mul_comm bb (2 ^ (7 - i)), Nat.mul_assoc]
        exact Nat.mul_div_cancel_left _ (show 0 < 2 ^ (7 - i) by positivity)
      rw [hdiv, Nat.and_one_is_mod]
      have hex : (8 - bc) - (7 - i) = ((8 - bc) - (7 - i) - 1) + 1 := by omega
      rw [hex, Nat.pow_succ, ← Nat.mul_assoc]
      simp [Nat.mul_mod_left]

/-- `flush_output` seen on the emitted bit stream: the output bytes now carry
every emitted bit, plus zero padding to the byte boundary. -/
theorem flush_output_emit (c : Coder) (h : BufInv c) :
    bytesToBits (flush_output c).output
        = emit_bits c ++ List.replicate ((8 - c.bitCount) % 8) 0 ∧
    (flush_output c).bitCount = 0 ∧ (flush_output c).bitBuffer = 0 ∧
    (flush_output c).low = c.low ∧ (flush_output c).high = c.high ∧
    (flush_output c).bitsToFollow = c.bitsToFollow := by
  obtain ⟨hc, hb⟩ := h
  unfold flush_output
  by_cases h0 : 0 < c.bitCount
  · rw [if_pos h0]
    refine ⟨?_, rfl, rfl, rfl, rfl, rfl⟩
    show bytesToBits (c.output ++ [(c.bitBuffer <<< (8 - c.bitCount)) % U8]) = _
    rw [Nat.mod_eq_of_lt (show 8 - c.bitCount < 8 by omega)]
    rw [bytesToBits_append, bytesToBits_singleton,
      padded_byte_bits c.bitBuffer c.bitCount h0 hc hb]
    unfold emit_bits
    rw [List.append_assoc]
  · rw [if_neg h0]
    have hc0 : c.bitCount = 0 := by omega
    have hb0 : c.bitBuffer = 0 := by
      rw [hc0] at hb
      simpa using hb
    refine ⟨?_, hc0, hb0, rfl, rfl, rfl⟩
    unfold emit_bits
    rw [hc0, bufBits_zero, List.append_nil]
    simp

/-! ## C7: the final flush -/

/-- C7: at the end of the input loop the glorious encoder increments the
pending count, emits bit 0 followed by `pending` (incremented) copies of 1
when `low < QUARTER` and bit 1 followed by `pending` copies of 0 otherwise,
then flushes the accumulator; and `flush_output` is the identity on an empty
accumulator while an accumulator holding `n > 0` bits is left-shifted by
`8 - n` (zero padding) and appended as exactly one more byte. -/
theorem c7_final_flush (c : Coder) (hb : BufInv c) :
    (Glorious.encode_finish c =
      flush_output
        (emit_list { c with bitsToFollow := 0 }
          ((if c.low < QUARTER then 0 else 1) ::
            List.replicate (c.bitsToFollow + 1) (if c.low < QUARTER then 1 else 0)))) ∧
    (∀ d : Coder, d.bitCount = 0 → flush_output d = d) ∧
    (∀ d : Coder, 0 < d.bitCount →
      (flush_output d).output = d.output ++ [(d.bitBuffer <<< (8 - d.bitCount)) % U8] ∧
      (flush_output d).bitCount = 0 ∧ (flush_output d).bitBuffer = 0) := by
  refine ⟨?_, ?_, ?_⟩
  · unfold Glorious.encode_finish
    have hb1 : BufInv ({ c with bitsToFollow := c.bitsToFollow + 1 }) := ⟨hb.1, hb.2⟩
    by_cases hlow : c.low < QUARTER
    · dsimp only
      rw [if_pos hlow, if_pos hlow]
      congr 1
      rw [g_ofb_eq _ 1 (output_bit_emit _ 0 hb1).2]
      simp only [emit_list_cons, output_bit_set_btf, emit_list_set_btf,
        output_bit_bitsToFollow, if_pos hlow]
    · dsimp only
      rw [if_neg hlow, if_neg hlow]
      congr 1
      rw [g_ofb_eq _ 0 (output_bit_emit _ 1 hb1).2]
      simp only [emit_list_cons, output_bit_set_btf, emit_list_set_btf,
        output_bit_bitsToFollow, if_neg hlow]
  · intro d hd
    unfold flush_output
    rw [if_neg (by omega)]
  · intro d hd
    unfold flush_output
    rw [if_pos hd]
    exact ⟨rfl, rfl, rfl⟩

/-- C7 witness: the theorem applied at a concrete coder state (three buffered
bits `101`, two pending bits, `low` below `QUARTER`). -/
theorem c7_final_flush_witness :
    BufInv ⟨5, 2000000000, 0, [17], 2, 5, 3, fun _ => 0, 0, 0, 0⟩ ∧
    Glorious.encode_finish ⟨5, 2000000000, 0, [17], 2, 5, 3, fun _ => 0, 0, 0, 0⟩ =
      flush_output
        (emit_list ({ (⟨5, 2000000000, 0, [17], 2, 5, 3, fun _ => 0, 0, 0, 0⟩ : Coder) with
            bitsToFollow := 0 })
          ((if (5:Nat) < QUARTER then 0 else 1) ::
            List.replicate (2 + 1) (if (5:Nat) < QUARTER then 1 else 0))) :=
  ⟨by decide,
    (c7_final_flush ⟨5, 2000000000, 0, [17], 2, 5, 3, fun _ => 0, 0, 0, 0⟩ (by decide)).1⟩

/-! ## C10: the decoder's frame -/

theorem shift_and_one_eq_testBit (x k : Nat) :
    (x >>> k) &&& 1 = if x.testBit k then 1 else 0 := by
  rw [Nat.shiftRight_eq_div_pow, Nat.and_one_is_mod, Nat.testBit_to_div_mod]
  rcases Nat.mod_two_eq_zero_or_one (x / 2 ^ k) with h | h <;> simp [h]

/-- Setting or clearing one bit of a byte leaves every other bit position
unchanged. -/
theorem write_bit_preserves (b pos pos2 : Nat) (hne : pos ≠ pos2) (h2 : pos2 < 8) :
    ((((b ||| (1 <<< pos)) % U8) >>> pos2) &&& 1 = (b >>> pos2) &&& 1) ∧
    ((((b &&& ((U32 - 1) ^^^ (1 <<< pos))) % U8) >>> pos2) &&& 1
      = (b >>> pos2) &&& 1) := by
  have h256 : U8 = 2 ^ 8 := by rw [U8_eq]; norm_num
  have h32 : U32 - 1 = 2 ^ 32 - 1 := by rw [U32_eq]; norm_num
  have hsh : (1 : Nat) <<< pos = 2 ^ pos := Nat.one_shiftLeft pos
  constructor
  · rw [shift_and_one_eq_testBit, shift_and_one_eq_testBit]
    have : ((b ||| (1 <<< pos)) % U8).testBit pos2 = b.testBit pos2 := by
      rw [h256, Nat.testBit_mod_two_pow, hsh]
      simp [h2, Nat.testBit_or, Nat.testBit_two_pow_of_ne hne]
    rw [this]
  · rw [shift_and_one_eq_testBit, shift_and_one_eq_testBit]
    have hx : ((U32 - 1) ^^^ (1 <<< pos)).testBit pos2 = true := by
      rw [hsh, h32, Nat.testBit_xor, Nat.testBit_two_pow_sub_one,
        Nat.testBit_two_pow_of_ne hne]
      simp
      omega
    have : ((b &&& ((U32 - 1) ^^^ (1 <<< pos))) % U8).testBit pos2 = b.testBit pos2 := by
      rw [h256, Nat.testBit_mod_two_pow]
      simp [h2, Nat.testBit_and, hx]
    rw [this]

/-- One glorious decode step only writes the decoded buffer at bit index `i`:
other bytes are untouched, and within the written byte other bit positions
keep their values. -/
theorem g_decode_step_frame (pred : Nat → Nat → Nat) (K : Nat)
    (encoded : List Nat) (L : Nat) (s : Coder × (Nat → Nat) × Nat) (i j : Nat)
    (hne : i ≠ j) :
    bitOfMap (Glorious.decode_step pred K encoded L s i).2.1 j
      = bitOfMap s.2.1 j := by
  unfold Glorious.decode_step bitOfMap
  simp only [shiftRight_three, and_seven]
  by_cases hbyte : j / 8 = i / 8
  · have hpos : 7 - i % 8 ≠ 7 - j % 8 := by
      intro hcontra
      apply hne
      have : i % 8 = j % 8 := by omega
      omega
    have hpos2 : 7 - j % 8 < 8 := by omega
    rw [if_pos hbyte, hbyte]
    repeat' split
    all_goals
      first
        | exact (write_bit_preserves (s.2.1 (i / 8)) (7 - i % 8) (7 - j % 8) hpos hpos2).1
        | exact (write_bit_preserves (s.2.1 (i / 8)) (7 - i % 8) (7 - j % 8) hpos hpos2).2
        | rfl
  · rw [if_neg hbyte]

/-- One glorious decode step leaves every byte other than `i / 8` of the
decoded buffer untouched. -/
theorem g_decode_step_frame_byte (pred : Nat → Nat → Nat) (K : Nat)
    (encoded : List Nat) (L : Nat) (s : Coder × (Nat → Nat) × Nat) (i bidx : Nat)
    (hne : i / 8 ≠ bidx) :
    (Glorious.decode_step pred K encoded L s i).2.1 bidx = s.2.1 bidx := by
  unfold Glorious.decode_step
  simp only [shiftRight_three]
  rw [if_neg (by omega)]

/-- The compression decode step analogues. -/
theorem c_decode_step_frame (pred : (Nat → Nat) → Nat → Nat) (K : Nat)
    (encoded : List Nat) (L : Nat) (s : Coder × (Nat → Nat) × Nat) (i j : Nat)
    (hne : i ≠ j) :
    bitOfMap (Compression.decode_step pred K encoded L s i).2.1 j
      = bitOfMap s.2.1 j := by
  unfold Compression.decode_step bitOfMap
  dsimp only
  by_cases hbyte : j / 8 = i / 8
  · have hpos : 7 - i % 8 ≠ 7 - j % 8 := by
      intro hcontra
      apply hne
      have : i % 8 = j % 8 := by omega
      omega
    have hpos2 : 7 - j % 8 < 8 := by omega
    rw [if_pos hbyte, hbyte]
    repeat' split
    all_goals
      first
        | exact (write_bit_preserves (s.2.1 (i / 8)) (7 - i % 8) (7 - j % 8) hpos hpos2).1
        | exact (write_bit_preserves (s.2.1 (i / 8)) (7 - i % 8) (7 - j % 8) hpos hpos2).2
        | rfl
  · rw [if_neg hbyte]

theorem c_decode_step_frame_byte (pred : (Nat → Nat) → Nat → Nat) (K : Nat)
    (encoded : List Nat) (L : Nat) (s : Coder × (Nat → Nat) × Nat) (i bidx : Nat)
    (hne : i / 8 ≠ bidx) :
    (Compression.decode_step pred K encoded L s i).2.1 bidx = s.2.1 bidx := by
  unfold Compression.decode_step
  dsimp only
  rw [if_neg (by omega)]

/-- C10: the decoders write only bit positions `0..N-1` of the caller's
buffer.  Every bit at index `≥ N` — the padding bits of the last byte
included — keeps the value it had before the call, and every byte at index
`≥ ⌈N/8⌉` is untouched, in both variants. -/
theorem c10_decode_frame (encoded : List Nat) (L : Nat) (decoded0 : Nat → Nat)
    (N K : Nat) (pred : Nat → Nat → Nat) (predC : (Nat → Nat) → Nat → Nat)
    (j bidx : Nat) (hj : N ≤ j) (hb : (N + 7) / 8 ≤ bidx) :
    bitOfMap (Glorious.arithmetic_decode encoded L decoded0 N K pred) j
        = bitOfMap decoded0 j ∧
    Glorious.arithmetic_decode encoded L decoded0 N K pred bidx = decoded0 bidx ∧
    bitOfMap (Compression.arithmetic_decode encoded L decoded0 N K predC) j
        = bitOfMap decoded0 j ∧
    Compression.arithmetic_decode encoded L decoded0 N K predC bidx
        = decoded0 bidx := by
  have hGbit : ∀ (l : List Nat) (s : Coder × (Nat → Nat) × Nat),
      (∀ i ∈ l, i ≠ j) →
      bitOfMap (l.foldl (Glorious.decode_step pred K encoded L) s).2.1 j
        = bitOfMap s.2.1 j := by
    intro l
    induction l with
    | nil => intro s h; rfl
    | cons a t ih =>
        intro s h
        rw [List.foldl_cons, ih _ (fun i hi => h i (List.mem_cons_of_mem a hi)),
          g_decode_step_frame pred K encoded L s a j (h a (List.mem_cons_self a t))]
  have hGbyte : ∀ (l : List Nat) (s : Coder × (Nat → Nat) × Nat),
      (∀ i ∈ l, i / 8 ≠ bidx) →
      (l.foldl (Glorious.decode_step pred K encoded L) s).2.1 bidx = s.2.1 bidx := by
    intro l
    induction l with
    | nil => intro s h; rfl
    | cons a t ih =>
        intro s h
        rw [List.foldl_cons, ih _ (fun i hi => h i (List.mem_cons_of_mem a hi)),
          g_decode_step_frame_byte pred K encoded L s a bidx (h a (List.mem_cons_self a t))]
  have hCbit : ∀ (l : List Nat) (s : Coder × (Nat → Nat) × Nat),
      (∀ i ∈ l, i ≠ j) →
      bitOfMap (l.foldl (Compression.decode_step predC K encoded L) s).2.1 j
        = bitOfMap s.2.1 j := by
    intro l
    induction l with
    | nil => intro s h; rfl
    | cons a t ih =>
        intro s h
        rw [List.foldl_cons, ih _ (fun i hi => h i (List.mem_cons_of_mem a hi)),
          c_decode_step_frame predC K encoded L s a j (h a (List.mem_cons_self a t))]
  have hCbyte : ∀ (l : List Nat) (s : Coder × (Nat → Nat) × Nat),
      (∀ i ∈ l, i / 8 ≠ bidx) →
      (l.foldl (Compression.decode_step predC K encoded L) s).2.1 bidx = s.2.1 bidx := by
    intro l
    induction l with
    | nil => intro s h; rfl
    | cons a t ih =>
        intro s h
        rw [List.foldl_cons, ih _ (fun i hi => h i (List.mem_cons_of_mem a hi)),
          c_decode_step_frame_byte predC K encoded L s a bidx (h a (List.mem_cons_self a t))]
  have hidx : ∀ i ∈ List.range N, i ≠ j := by
    intro i hi
    rw [List.mem_range] at hi
    omega
  have hbidx : ∀ i ∈ List.range N, i / 8 ≠ bidx := by
    intro i hi
    rw [List.mem_range] at hi
    have : i / 8 < (N + 7) / 8 := by omega
    omega
  refine ⟨?_, ?_, ?_, ?_⟩
  · unfold Glorious.arithmetic_decode
    exact hGbit (List.range N) _ hidx
  · unfold Glorious.arithmetic_decode
    exact hGbyte (List.range N) _ hbidx
  · unfold Compression.arithmetic_decode
    exact hCbit (List.range N) _ hidx
  · unfold Compression.arithmetic_decode
    exact hCbyte (List.range N) _ hbidx

/-- C10 witness: the theorem applied at concrete inputs (decode 3 bits, check
bit 11 and byte 1 are preserved). -/
theorem c10_decode_frame_witness :
    (3:Nat) ≤ 11 ∧ (3 + 7) / 8 ≤ 1 ∧
    bitOfMap (Glorious.arithmetic_decode [0x5A] 1 (fun _ => 0xFF) 3 2
        Glorious.example_get_probability_fixed) 11
      = bitOfMap (fun _ => 0xFF) 11 :=
  ⟨by decide, by decide,
    (c10_decode_frame [0x5A] 1 (fun _ => 0xFF) 3 2
      Glorious.example_get_probability_fixed (fun _ _ => 32768) 11 1
      (by decide) (by decide)).1⟩

/-! ## Interval-narrowing and renormalization invariants -/

/-- `read_bit` returns a bit. -/
theorem read_bit_le_one (enc : List Nat) (i L : Nat) :
    (Glorious.read_bit enc i L).1 ≤ 1 := by
  unfold Glorious.read_bit
  dsimp only
  split
  · exact Nat.zero_le 1
  · simp only [Nat.and_one_is_mod]
    omega

/-- Or-ing a single bit into an even number is addition. -/
theorem two_mul_or_bit (x e : Nat) (he : e ≤ 1) : (2 * x) ||| e = 2 * x + e := by
  rcases Nat.le_one_iff_eq_zero_or_eq_one.mp he with rfl | rfl
  · simp
  · exact two_mul_or_one x

/-- For a conforming probability `p1 ∈ [1, FIXED_SCALE - 1]`, the coders'
`p0`-scaling pipeline (`uint32` complement, multiply by `TOTAL_FREQUENCY`,
divide by `FIXED_SCALE`) is exactly `(65536 - p1) * 32768`. -/
theorem sp0_clean (p1 : Nat) (h1 : 1 ≤ p1) (h2 : p1 ≤ 65535) :
    ((FIXED_SCALE + (U32 - p1 % U32)) % U32 * TOTAL_FREQUENCY / FIXED_SCALE) % U32
      = (65536 - p1) * 32768 := by
  rw [FIXED_SCALE_eq, U32_eq, TOTAL_FREQUENCY_eq]
  omega

/-- The scaled cut point of a conforming probability never reaches
`TOTAL_FREQUENCY`, so the saturation branch is dead. -/
theorem sp0_no_cap (p1 : Nat) (h1 : 1 ≤ p1) (h2 : p1 ≤ 65535) :
    ¬ ((65536 - p1) * 32768 ≥ TOTAL_FREQUENCY) := by
  rw [TOTAL_FREQUENCY_eq]
  omega

/-- The coders' `uint32` range computation is `high - low + 1` whenever
`low ≤ high < 2^32`. -/
theorem range_clean (low high : Nat) (h1 : low ≤ high) (h2 : high < TOTAL_FREQUENCY) :
    ((high + (U32 - low)) % U32 + 1) % U32 = high - low + 1 := by
  rw [TOTAL_FREQUENCY_eq] at h2
  rw [U32_eq]
  omega

/-- On a renormalized in-range state the interval is wider than a quarter. -/
theorem renorm_done_range (c : Coder) (hr : RangeInv c) (hd : RenormDone c) :
    QUARTER < c.high - c.low + 1 := by
  obtain ⟨hlh, hhi⟩ := hr
  obtain ⟨d1, d2, d3⟩ := hd
  simp only [not_lt] at d1
  simp only [not_le] at d2
  rcases Nat.lt_or_ge c.low QUARTER with h | h
  · rw [HALF_eq] at d1
    rw [QUARTER_eq] at h ⊢
    omega
  · have h3 : ¬ c.high < THREE_QUARTER := fun hh => d3 ⟨h, hh⟩
    simp only [not_lt] at h3
    rw [THREE_QUARTER_eq] at h3
    rw [HALF_eq] at d2
    rw [QUARTER_eq] at h ⊢
    omega

/-- Bounds on the narrowing offset `f = range * scaled_p0 / TOTAL_FREQUENCY`:
with a conforming probability and a renormalized range, `1 ≤ f < range`. -/
theorem narrow_f_bounds (r p1 : Nat) (hr1 : QUARTER < r) (hr2 : r ≤ TOTAL_FREQUENCY)
    (h1 : 1 ≤ p1) (h2 : p1 ≤ 65535) :
    1 ≤ r * ((65536 - p1) * 32768) / TOTAL_FREQUENCY ∧
    r * ((65536 - p1) * 32768) / TOTAL_FREQUENCY < r := by
  have hTF : 0 < TOTAL_FREQUENCY := by rw [TOTAL_FREQUENCY_eq]; norm_num
  have hr0 : 0 < r := by rw [QUARTER_eq] at hr1; omega
  constructor
  · rw [Nat.le_div_iff_mul_le hTF, one_mul]
    have e1 : 1 * 32768 ≤ (65536 - p1) * 32768 :=
      Nat.mul_le_mul_right _ (by omega)
    have e2 : 65536 * 32768 ≤ r * 32768 :=
      Nat.mul_le_mul_right _ (by rw [QUARTER_eq] at hr1; omega)
    calc TOTAL_FREQUENCY = 65536 * 32768 := by rw [TOTAL_FREQUENCY_eq]
      _ ≤ r * 32768 := e2
      _ = r * (1 * 32768) := by ring
      _ ≤ r * ((65536 - p1) * 32768) := Nat.mul_le_mul_left _ e1
  · rw [Nat.div_lt_iff_lt_mul hTF]
    have e2 : (65536 - p1) * 32768 < TOTAL_FREQUENCY := by
      rw [TOTAL_FREQUENCY_eq]; omega
    exact Nat.mul_lt_mul_of_pos_left e2 hr0

/-- On a renormalized in-range state with a conforming probability,
`narrow_interval` is the pure-arithmetic split of `[low, high]` at
`low + f` (`f = range * scaled_p0 / TOTAL_FREQUENCY`): every `uint32`/`uint64`
wrap in the source is the identity there. -/
theorem narrow_clean (c : Coder) (p1 bit : Nat) (hr : RangeInv c) (hd : RenormDone c)
    (h1 : 1 ≤ p1) (h2 : p1 ≤ 65535) :
    narrow_interval c p1 bit =
      if bit = 0 then
        { c with high :=
            c.low + (c.high - c.low + 1) * ((65536 - p1) * 32768) / TOTAL_FREQUENCY - 1 }
      else
        { c with low :=
            c.low + (c.high - c.low + 1) * ((65536 - p1) * 32768) / TOTAL_FREQUENCY } := by
  obtain ⟨hlh, hhi⟩ := hr
  have hrange : ((c.high + (U32 - c.low)) % U32 + 1) % U32 = c.high - c.low + 1 :=
    range_clean c.low c.high hlh hhi
  have hq := renorm_done_range c ⟨hlh, hhi⟩ hd
  have hrTF : c.high - c.low + 1 ≤ TOTAL_FREQUENCY := by
    rw [TOTAL_FREQUENCY_eq] at hhi ⊢; omega
  obtain ⟨hf1, hf2⟩ := narrow_f_bounds (c.high - c.low + 1) p1 hq hrTF h1 h2
  have hcap := sp0_no_cap p1 h1 h2
  simp only [narrow_interval, sp0_clean p1 h1 h2, hrange, hcap, if_false]
  set F := (c.high - c.low + 1) * ((65536 - p1) * 32768) / TOTAL_FREQUENCY with hF
  have hkey0 : ((c.low + F + (U64 - 1)) % U64) % U32 = c.low + F - 1 := by
    rw [U64_eq, U32_eq]
    rw [TOTAL_FREQUENCY_eq] at hhi
    omega
  have hkey1 : (c.low + F) % U32 = c.low + F := by
    rw [U32_eq]
    rw [TOTAL_FREQUENCY_eq] at hhi
    omega
  rw [hkey0, hkey1]

/-- Narrowing a renormalized in-range state with a conforming probability
keeps `low ≤ high < TOTAL_FREQUENCY`, whichever bit is coded. -/
theorem narrow_RangeInv (c : Coder) (p1 bit : Nat) (hr : RangeInv c)
    (hd : RenormDone c) (h1 : 1 ≤ p1) (h2 : p1 ≤ 65535) :
    RangeInv (narrow_interval c p1 bit) := by
  rw [narrow_clean c p1 bit hr hd h1 h2]
  obtain ⟨hlh, hhi⟩ := hr
  have hq := renorm_done_range c ⟨hlh, hhi⟩ hd
  have hrTF : c.high - c.low + 1 ≤ TOTAL_FREQUENCY := by
    rw [TOTAL_FREQUENCY_eq] at hhi ⊢; omega
  obtain ⟨hf1, hf2⟩ := narrow_f_bounds (c.high - c.low + 1) p1 hq hrTF h1 h2
  set F := (c.high - c.low + 1) * ((65536 - p1) * 32768) / TOTAL_FREQUENCY with hF
  split
  · exact ⟨show c.low ≤ c.low + F - 1 by omega,
      show c.low + F - 1 < TOTAL_FREQUENCY by
        rw [TOTAL_FREQUENCY_eq] at hhi ⊢; omega⟩
  · exact ⟨show c.low + F ≤ c.high by omega, hhi⟩

/-- The decoder's comparison `scaled_value < scaled_p0` decides exactly
whether `value` lies in the lower subinterval `[low, low + f - 1]`. -/
theorem decision_bit_spec (c : Coder) (p1 : Nat) (hr : RangeInv c) (hd : RenormDone c)
    (hv : ValueInv c) (h1 : 1 ≤ p1) (h2 : p1 ≤ 65535) :
    decision_bit c p1 =
      if c.value ≤
          c.low + (c.high - c.low + 1) * ((65536 - p1) * 32768) / TOTAL_FREQUENCY - 1
      then 0 else 1 := by
  obtain ⟨hlh, hhi⟩ := hr
  obtain ⟨hlv, hvh⟩ := hv
  have hTF : 0 < TOTAL_FREQUENCY := by rw [TOTAL_FREQUENCY_eq]; norm_num
  have hrange : ((c.high + (U32 - c.low)) % U32 + 1) % U32 = c.high - c.low + 1 :=
    range_clean c.low c.high hlh hhi
  have hq := renorm_done_range c ⟨hlh, hhi⟩ hd
  have hrTF : c.high - c.low + 1 ≤ TOTAL_FREQUENCY := by
    rw [TOTAL_FREQUENCY_eq] at hhi ⊢; omega
  obtain ⟨hf1, hf2⟩ := narrow_f_bounds (c.high - c.low + 1) p1 hq hrTF h1 h2
  have hcap := sp0_no_cap p1 h1 h2
  have htemp1 : ((c.value + (U32 - c.low)) % U32 + 1) % U32 = c.value - c.low + 1 := by
    rw [U32_eq]
    rw [TOTAL_FREQUENCY_eq] at hhi
    omega
  have htemp2 : ((c.value - c.low + 1) * TOTAL_FREQUENCY + (U64 - 1)) % U64
      = (c.value - c.low + 1) * TOTAL_FREQUENCY - 1 := by
    have e1 : 0 < (c.value - c.low + 1) * TOTAL_FREQUENCY := Nat.mul_pos (by omega) hTF
    have e2 : (c.value - c.low + 1) * TOTAL_FREQUENCY
        ≤ TOTAL_FREQUENCY * TOTAL_FREQUENCY :=
      Nat.mul_le_mul_right _ (by rw [TOTAL_FREQUENCY_eq] at hhi ⊢; omega)
    have e3 : TOTAL_FREQUENCY * TOTAL_FREQUENCY < U64 := by
      rw [TOTAL_FREQUENCY_eq, U64_eq]; norm_num
    generalize (c.value - c.low + 1) * TOTAL_FREQUENCY = X at e1 e2
    rw [U64_eq] at e3 ⊢
    omega
  simp only [decision_bit, sp0_clean p1 h1 h2, hrange, htemp1, hcap, if_false, htemp2]
  set r := c.high - c.low + 1 with hrdef
  set T := (c.value - c.low + 1) * TOTAL_FREQUENCY - 1 with hT
  set P := (65536 - p1) * 32768 with hP
  have hr0 : 0 < r := by omega
  have e1 : 0 < (c.value - c.low + 1) * TOTAL_FREQUENCY := Nat.mul_pos (by omega) hTF
  have hsv_lt : T / r < U32 := by
    have e3 : (c.value - c.low + 1) * TOTAL_FREQUENCY ≤ r * TOTAL_FREQUENCY :=
      Nat.mul_le_mul_right _ (by omega)
    have e4 : T / r < TOTAL_FREQUENCY := by
      rw [Nat.div_lt_iff_lt_mul hr0]
      have e5 : r * TOTAL_FREQUENCY = TOTAL_FREQUENCY * r := Nat.mul_comm _ _
      have e6 : 0 < r * TOTAL_FREQUENCY := Nat.mul_pos hr0 hTF
      omega
    have : TOTAL_FREQUENCY < U32 := by rw [TOTAL_FREQUENCY_eq, U32_eq]; norm_num
    omega
  rw [Nat.mod_eq_of_lt hsv_lt]
  set F := r * P / TOTAL_FREQUENCY with hF
  have hiff : T / r < P ↔ c.value ≤ c.low + F - 1 := by
    constructor
    · intro h
      rw [Nat.div_lt_iff_lt_mul hr0] at h
      have h' : (c.value - c.low + 1) * TOTAL_FREQUENCY ≤ r * P := by
        have e5 : P * r = r * P := Nat.mul_comm _ _
        omega
      have h'' : c.value - c.low + 1 ≤ F := by
        rw [hF, Nat.le_div_iff_mul_le hTF]
        exact h'
      omega
    · intro h
      have h'' : c.value - c.low + 1 ≤ F := by omega
      rw [hF, Nat.le_div_iff_mul_le hTF] at h''
      rw [Nat.div_lt_iff_lt_mul hr0]
      have e5 : P * r = r * P := Nat.mul_comm _ _
      omega
  by_cases hc : T / r < P
  · rw [if_pos hc, if_pos (hiff.mp hc)]
  · rw [if_neg hc, if_neg (fun hh => hc (hiff.mpr hh))]

/-- Narrowing a renormalized state by the decoder's own decision bit keeps
`low ≤ value ≤ high`. -/
theorem narrow_decision_ValueInv (c : Coder) (p1 : Nat) (hr : RangeInv c)
    (hd : RenormDone c) (hv : ValueInv c) (h1 : 1 ≤ p1) (h2 : p1 ≤ 65535) :
    ValueInv (narrow_interval c p1 (decision_bit c p1)) := by
  have hq := renorm_done_range c hr hd
  have hrTF : c.high - c.low + 1 ≤ TOTAL_FREQUENCY := by
    have := hr.2; rw [TOTAL_FREQUENCY_eq] at this ⊢; omega
  obtain ⟨hf1, hf2⟩ := narrow_f_bounds (c.high - c.low + 1) p1 hq hrTF h1 h2
  rw [narrow_clean c p1 (decision_bit c p1) hr hd h1 h2, decision_bit_spec c p1 hr hd hv h1 h2]
  set F := (c.high - c.low + 1) * ((65536 - p1) * 32768) / TOTAL_FREQUENCY with hF
  by_cases hc : c.value ≤ c.low + F - 1
  · rw [if_pos hc, if_pos rfl]
    exact ⟨hv.1, show c.value ≤ c.low + F - 1 from hc⟩
  · rw [if_neg hc, if_neg one_ne_zero]
    exact ⟨show c.low + F ≤ c.value by have := hv.1; omega, hv.2⟩

/-- Each encoder renormalization iteration preserves `low ≤ high < 2^31`. -/
theorem encode_renorm_iter_RangeInv (c : Coder) (hr : RangeInv c) :
    RangeInv (Glorious.encode_renorm_iter c) := by
  obtain ⟨hlh, hhi⟩ := hr
  rw [TOTAL_FREQUENCY_eq] at hhi
  unfold Glorious.encode_renorm_iter
  by_cases h1 : c.high < HALF
  · rw [if_pos h1]
    rw [HALF_eq] at h1
    refine ⟨?_, ?_⟩ <;>
      simp only [shiftLeft_one, two_mul_or_one, U32_eq, TOTAL_FREQUENCY_eq] <;> omega
  · rw [if_neg h1]
    rw [HALF_eq] at h1
    by_cases h2 : HALF ≤ c.low
    · rw [if_pos h2]
      rw [HALF_eq] at h2
      refine ⟨?_, ?_⟩ <;>
        simp only [shiftLeft_one, two_mul_or_one, U32_eq, TOTAL_FREQUENCY_eq, HALF_eq] <;>
        omega
    · rw [if_neg h2]
      rw [HALF_eq] at h2
      by_cases h3 : QUARTER ≤ c.low ∧ c.high < THREE_QUARTER
      · rw [if_pos h3]
        rw [QUARTER_eq, THREE_QUARTER_eq] at h3
        refine ⟨?_, ?_⟩ <;>
          simp only [shiftLeft_one, two_mul_or_one, U32_eq, TOTAL_FREQUENCY_eq,
            QUARTER_eq] <;>
          omega
      · rw [if_neg h3]
        exact ⟨hlh, by rw [TOTAL_FREQUENCY_eq]; omega⟩

/-- Each decoder renormalization iteration preserves `low ≤ high < 2^31`
and `low ≤ value ≤ high`. -/
theorem decode_renorm_iter_inv (enc : List Nat) (L : Nat) (c : Coder) (idx : Nat)
    (hr : RangeInv c) (hv : ValueInv c) :
    RangeInv (Glorious.decode_renorm_iter enc L c idx).1 ∧
    ValueInv (Glorious.decode_renorm_iter enc L c idx).1 := by
  obtain ⟨hlh, hhi⟩ := hr
  obtain ⟨hlv, hvh⟩ := hv
  have he := read_bit_le_one enc idx L
  rw [TOTAL_FREQUENCY_eq] at hhi
  unfold Glorious.decode_renorm_iter
  by_cases h1 : c.high < HALF
  · rw [if_pos h1]
    rw [HALF_eq] at h1
    have hval : (2 * c.value) ||| (Glorious.read_bit enc idx L).1
        = 2 * c.value + (Glorious.read_bit enc idx L).1 := two_mul_or_bit _ _ he
    refine ⟨⟨?_, ?_⟩, ⟨?_, ?_⟩⟩ <;>
      simp only [shiftLeft_one, hval, two_mul_or_one, U32_eq, TOTAL_FREQUENCY_eq] <;>
      omega
  · rw [if_neg h1]
    rw [HALF_eq] at h1
    by_cases h2 : HALF ≤ c.low
    · rw [if_pos h2]
      rw [HALF_eq] at h2
      have hv1 : (c.value + (4294967296 - 1073741824)) % 4294967296
          = c.value - 1073741824 := by omega
      have hval : (2 * (c.value - 1073741824)) ||| (Glorious.read_bit enc idx L).1
          = 2 * (c.value - 1073741824) + (Glorious.read_bit enc idx L).1 :=
        two_mul_or_bit _ _ he
      refine ⟨⟨?_, ?_⟩, ⟨?_, ?_⟩⟩ <;>
        simp only [hv1, shiftLeft_one, hval, two_mul_or_one, U32_eq, TOTAL_FREQUENCY_eq,
          HALF_eq] <;>
        omega
    · rw [if_neg h2]
      rw [HALF_eq] at h2
      by_cases h3 : QUARTER ≤ c.low ∧ c.high < THREE_QUARTER
      · rw [if_pos h3]
        rw [QUARTER_eq, THREE_QUARTER_eq] at h3
        have hv1 : (c.value + (4294967296 - 536870912)) % 4294967296
            = c.value - 536870912 := by omega
        have hval : (2 * (c.value - 536870912)) ||| (Glorious.read_bit enc idx L).1
            = 2 * (c.value - 536870912) + (Glorious.read_bit enc idx L).1 :=
          two_mul_or_bit _ _ he
        refine ⟨⟨?_, ?_⟩, ⟨?_, ?_⟩⟩ <;>
          simp only [hv1, shiftLeft_one, hval, two_mul_or_one, U32_eq, TOTAL_FREQUENCY_eq,
            QUARTER_eq] <;>
          omega
      · rw [if_neg h3]
        exact ⟨⟨hlh, show c.high < TOTAL_FREQUENCY by rw [TOTAL_FREQUENCY_eq]; omega⟩,
          hlv, hvh⟩

/-- `TOTAL_FREQUENCY` units of fuel always satisfy the renormalization
loops' iteration bound. -/
theorem fuel_start (d : Nat) : TOTAL_FREQUENCY ≤ 2 ^ TOTAL_FREQUENCY * (d + 1) :=
  calc TOTAL_FREQUENCY ≤ 2 ^ TOTAL_FREQUENCY := Nat.le_of_lt (Nat.lt_two_pow _)
    _ = 2 ^ TOTAL_FREQUENCY * 1 := (Nat.mul_one _).symm
    _ ≤ 2 ^ TOTAL_FREQUENCY * (d + 1) := Nat.mul_le_mul_left _ (by omega)

/-- The encoder's renormalization loop preserves the range invariant and, with
enough fuel (each iteration doubles `high - low + 1` and every iterating state
has `high - low + 1 ≤ HALF`), exits with no condition holding. -/
theorem encode_renorm_go_inv : ∀ (fuel : Nat) (c : Coder), RangeInv c →
    TOTAL_FREQUENCY ≤ 2 ^ fuel * (c.high - c.low + 1) →
    RangeInv (Glorious.encode_renorm_go fuel c) ∧
    RenormDone (Glorious.encode_renorm_go fuel c) := by
  intro fuel
  induction fuel with
  | zero =>
      intro c hr hfuel
      obtain ⟨hlh, hhi⟩ := hr
      rw [TOTAL_FREQUENCY_eq] at hhi
      simp only [pow_zero, one_mul, TOTAL_FREQUENCY_eq] at hfuel
      simp only [Glorious.encode_renorm_go]
      refine ⟨⟨hlh, by rw [TOTAL_FREQUENCY_eq]; omega⟩, ?_, ?_, ?_⟩
      · rw [HALF_eq]; omega
      · rw [HALF_eq]; omega
      · rintro ⟨ha, _⟩; rw [QUARTER_eq] at ha; omega
  | succ fuel ih =>
      intro c hr hfuel
      obtain ⟨hlh, hhi⟩ := hr
      rw [TOTAL_FREQUENCY_eq] at hhi
      rw [pow_succ] at hfuel
      simp only [Glorious.encode_renorm_go]
      by_cases h1 : c.high < HALF
      · rw [if_pos h1]
        rw [HALF_eq] at h1
        apply ih
        · refine ⟨?_, ?_⟩ <;>
            simp only [shiftLeft_one, two_mul_or_one, U32_eq, TOTAL_FREQUENCY_eq] <;>
            omega
        · have hd : ((c.high <<< 1) ||| 1) % U32 - (c.low <<< 1) % U32 + 1
              = 2 * (c.high - c.low + 1) := by
            simp only [shiftLeft_one, two_mul_or_one, U32_eq]; omega
          simp only [hd]
          calc TOTAL_FREQUENCY ≤ 2 ^ fuel * 2 * (c.high - c.low + 1) := hfuel
            _ = 2 ^ fuel * (2 * (c.high - c.low + 1)) := by ring
      · rw [if_neg h1]
        rw [HALF_eq] at h1
        by_cases h2 : HALF ≤ c.low
        · rw [if_pos h2]
          rw [HALF_eq] at h2
          apply ih
          · refine ⟨?_, ?_⟩ <;>
              simp only [shiftLeft_one, two_mul_or_one, U32_eq, TOTAL_FREQUENCY_eq,
                HALF_eq] <;>
              omega
          · have hd : (((c.high - HALF) <<< 1) ||| 1) % U32 - ((c.low - HALF) <<< 1) % U32 + 1
                = 2 * (c.high - c.low + 1) := by
              simp only [shiftLeft_one, two_mul_or_one, U32_eq, HALF_eq]; omega
            simp only [hd]
            calc TOTAL_FREQUENCY ≤ 2 ^ fuel * 2 * (c.high - c.low + 1) := hfuel
              _ = 2 ^ fuel * (2 * (c.high - c.low + 1)) := by ring
        · rw [if_neg h2]
          rw [HALF_eq] at h2
          by_cases h3 : QUARTER ≤ c.low ∧ c.high < THREE_QUARTER
          · rw [if_pos h3]
            rw [QUARTER_eq, THREE_QUARTER_eq] at h3
            apply ih
            · refine ⟨?_, ?_⟩ <;>
                simp only [shiftLeft_one, two_mul_or_one, U32_eq, TOTAL_FREQUENCY_eq,
                  QUARTER_eq] <;>
                omega
            · have hd : (((c.high - QUARTER) <<< 1) ||| 1) % U32
                    - ((c.low - QUARTER) <<< 1) % U32 + 1
                  = 2 * (c.high - c.low + 1) := by
                simp only [shiftLeft_one, two_mul_or_one, U32_eq, QUARTER_eq]; omega
              simp only [hd]
              calc TOTAL_FREQUENCY ≤ 2 ^ fuel * 2 * (c.high - c.low + 1) := hfuel
                _ = 2 ^ fuel * (2 * (c.high - c.low + 1)) := by ring
          · rw [if_neg h3]
            exact ⟨⟨hlh, show c.high < TOTAL_FREQUENCY by rw [TOTAL_FREQUENCY_eq]; omega⟩,
              by rw [HALF_eq]; omega, by rw [HALF_eq]; omega, h3⟩

/-- `encode_renorm` from an in-range state: in range and fully renormalized. -/
theorem g_encode_renorm_inv (c : Coder) (hr : RangeInv c) :
    RangeInv (Glorious.encode_renorm c) ∧ RenormDone (Glorious.encode_renorm c) :=
  encode_renorm_go_inv TOTAL_FREQUENCY c hr (fuel_start _)

/-- The decoder's renormalization loop preserves the range and value-window
invariants and, with enough fuel, exits with no condition holding. -/
theorem decode_renorm_go_inv (enc : List Nat) (L : Nat) :
    ∀ (fuel : Nat) (c : Coder) (idx : Nat), RangeInv c → ValueInv c →
    TOTAL_FREQUENCY ≤ 2 ^ fuel * (c.high - c.low + 1) →
    RangeInv (Glorious.decode_renorm_go enc L fuel c idx).1 ∧
    RenormDone (Glorious.decode_renorm_go enc L fuel c idx).1 ∧
    ValueInv (Glorious.decode_renorm_go enc L fuel c idx).1 := by
  intro fuel
  induction fuel with
  | zero =>
      intro c idx hr hv hfuel
      obtain ⟨hlh, hhi⟩ := hr
      rw [TOTAL_FREQUENCY_eq] at hhi
      simp only [pow_zero, one_mul, TOTAL_FREQUENCY_eq] at hfuel
      simp only [Glorious.decode_renorm_go]
      refine ⟨⟨hlh, show c.high < TOTAL_FREQUENCY by rw [TOTAL_FREQUENCY_eq]; omega⟩,
        ⟨?_, ?_, ?_⟩, hv⟩
      · show ¬ c.high < HALF; rw [HALF_eq]; omega
      · show ¬ HALF ≤ c.low; rw [HALF_eq]; omega
      · rintro ⟨ha, _⟩; rw [QUARTER_eq] at ha; omega
  | succ fuel ih =>
      intro c idx hr hv hfuel
      obtain ⟨hlh, hhi⟩ := hr
      obtain ⟨hlv, hvh⟩ := hv
      have he := read_bit_le_one enc idx L
      rw [TOTAL_FREQUENCY_eq] at hhi
      rw [pow_succ] at hfuel
      simp only [Glorious.decode_renorm_go]
      by_cases h1 : c.high < HALF
      · rw [if_pos h1]
        rw [HALF_eq] at h1
        have hval : (2 * c.value) ||| (Glorious.read_bit enc idx L).1
            = 2 * c.value + (Glorious.read_bit enc idx L).1 := two_mul_or_bit _ _ he
        apply ih
        · refine ⟨?_, ?_⟩ <;>
            simp only [shiftLeft_one, two_mul_or_one, U32_eq, TOTAL_FREQUENCY_eq] <;>
            omega
        · refine ⟨?_, ?_⟩ <;>
            simp only [shiftLeft_one, hval, two_mul_or_one, U32_eq] <;>
            omega
        · have hd : ((c.high <<< 1) ||| 1) % U32 - (c.low <<< 1) % U32 + 1
              = 2 * (c.high - c.low + 1) := by
            simp only [shiftLeft_one, two_mul_or_one, U32_eq]; omega
          simp only [hd]
          calc TOTAL_FREQUENCY ≤ 2 ^ fuel * 2 * (c.high - c.low + 1) := hfuel
            _ = 2 ^ fuel * (2 * (c.high - c.low + 1)) := by ring
      · rw [if_neg h1]
        rw [HALF_eq] at h1
        by_cases h2 : HALF ≤ c.low
        · rw [if_pos h2]
          rw [HALF_eq] at h2
          have hv1 : (c.value + (4294967296 - 1073741824)) % 4294967296
              = c.value - 1073741824 := by omega
          have hval : (2 * (c.value - 1073741824)) ||| (Glorious.read_bit enc idx L).1
              = 2 * (c.value - 1073741824) + (Glorious.read_bit enc idx L).1 :=
            two_mul_or_bit _ _ he
          apply ih
          · refine ⟨?_, ?_⟩ <;>
              simp only [shiftLeft_one, two_mul_or_one, U32_eq, TOTAL_FREQUENCY_eq,
                HALF_eq] <;>
              omega
          · refine ⟨?_, ?_⟩ <;>
              simp only [hv1, shiftLeft_one, hval, two_mul_or_one, U32_eq, HALF_eq] <;>
              omega
          · have hd : (((c.high - HALF) <<< 1) ||| 1) % U32
                  - ((c.low - HALF) <<< 1) % U32 + 1
                = 2 * (c.high - c.low + 1) := by
              simp only [shiftLeft_one, two_mul_or_one, U32_eq, HALF_eq]; omega
            simp only [hd]
            calc TOTAL_FREQUENCY ≤ 2 ^ fuel * 2 * (c.high - c.low + 1) := hfuel
              _ = 2 ^ fuel * (2 * (c.high - c.low + 1)) := by ring
        · rw [if_neg h2]
          rw [HALF_eq] at h2
          by_cases h3 : QUARTER ≤ c.low ∧ c.high < THREE_QUARTER
          · rw [if_pos h3]
            rw [QUARTER_eq, THREE_QUARTER_eq] at h3
            have hv1 : (c.value + (4294967296 - 536870912)) % 4294967296
                = c.value - 536870912 := by omega
            have hval : (2 * (c.value - 536870912)) ||| (Glorious.read_bit enc idx L).1
                = 2 * (c.value - 536870912) + (Glorious.read_bit enc idx L).1 :=
              two_mul_or_bit _ _ he
            apply ih
            · refine ⟨?_, ?_⟩ <;>
                simp only [shiftLeft_one, two_mul_or_one, U32_eq, TOTAL_FREQUENCY_eq,
                  QUARTER_eq] <;>
                omega
            · refine ⟨?_, ?_⟩ <;>
                simp only [hv1, shiftLeft_one, hval, two_mul_or_one, U32_eq, QUARTER_eq] <;>
                omega
            · have hd : (((c.high - QUARTER) <<< 1) ||| 1) % U32
                    - ((c.low - QUARTER) <<< 1) % U32 + 1
                  = 2 * (c.high - c.low + 1) := by
                simp only [shiftLeft_one, two_mul_or_one, U32_eq, QUARTER_eq]; omega
              simp only [hd]
              calc TOTAL_FREQUENCY ≤ 2 ^ fuel * 2 * (c.high - c.low + 1) := hfuel
                _ = 2 ^ fuel * (2 * (c.high - c.low + 1)) := by ring
          · rw [if_neg h3]
            refine ⟨⟨hlh, show c.high < TOTAL_FREQUENCY by rw [TOTAL_FREQUENCY_eq]; omega⟩,
              ⟨?_, ?_, ?_⟩, hlv, hvh⟩
            · show ¬ c.high < HALF; rw [HALF_eq]; omega
            · show ¬ HALF ≤ c.low; rw [HALF_eq]; omega
            · exact h3

/-- `decode_renorm` from an in-range state with a valid window: in range,
fully renormalized, window preserved. -/
theorem g_decode_renorm_inv (enc : List Nat) (L : Nat) (c : Coder) (idx : Nat)
    (hr : RangeInv c) (hv : ValueInv c) :
    RangeInv (Glorious.decode_renorm enc L c idx).1 ∧
    RenormDone (Glorious.decode_renorm enc L c idx).1 ∧
    ValueInv (Glorious.decode_renorm enc L c idx).1 :=
  decode_renorm_go_inv enc L TOTAL_FREQUENCY c idx hr hv (fuel_start _)

/-- `update_context_ring_buffer` (glorious) leaves `low` unchanged. -/
theorem g_update_ctx_low (c : Coder) (b : Nat) :
    (Glorious.update_context_ring_buffer c b).low = c.low := by
  unfold Glorious.update_context_ring_buffer; split <;> rfl

/-- `update_context_ring_buffer` (glorious) leaves `high` unchanged. -/
theorem g_update_ctx_high (c : Coder) (b : Nat) :
    (Glorious.update_context_ring_buffer c b).high = c.high := by
  unfold Glorious.update_context_ring_buffer; split <;> rfl

/-- `update_context_ring_buffer` (glorious) leaves `value` unchanged. -/
theorem g_update_ctx_value (c : Coder) (b : Nat) :
    (Glorious.update_context_ring_buffer c b).value = c.value := by
  unfold Glorious.update_context_ring_buffer; split <;> rfl

/-- The glorious encoder step is the narrowing of the interval at the
predicted cut, followed by renormalization and the context update. -/
theorem g_encode_step_decomp (pred : Nat → Nat → Nat) (K : Nat) (seq : List Nat)
    (c : Coder) (i : Nat) :
    Glorious.encode_step pred K seq c i =
      Glorious.update_context_ring_buffer
        (Glorious.encode_renorm
          (narrow_interval c (pred (c.countOnes % U32) K)
            ((seq.getD (i >>> 3) 0 >>> (7 - (i &&& 7))) &&& 1)))
        ((seq.getD (i >>> 3) 0 >>> (7 - (i &&& 7))) &&& 1) := rfl

/-- The `decision_bit` only reads `low`, `high` and `value`. -/
theorem decision_bit_congr (c d : Coder) (p1 : Nat) (h1 : c.low = d.low)
    (h2 : c.high = d.high) (h3 : c.value = d.value) :
    decision_bit c p1 = decision_bit d p1 := by
  unfold decision_bit; rw [h1, h2, h3]

/-- The glorious decoder step's coder component is the context update, the
narrowing of the interval by the decision bit, and renormalization. -/
theorem g_decode_step_coder (pred : Nat → Nat → Nat) (K : Nat) (enc : List Nat)
    (L : Nat) (s : Coder × (Nat → Nat) × Nat) (i : Nat) :
    (Glorious.decode_step pred K enc L s i).1 =
      (Glorious.decode_renorm enc L
        (narrow_interval
          (Glorious.update_context_ring_buffer s.1
            (decision_bit s.1 (pred (s.1.countOnes % U32) K)))
          (pred (s.1.countOnes % U32) K)
          (decision_bit s.1 (pred (s.1.countOnes % U32) K)))
        s.2.2).1 := by
  unfold Glorious.decode_step decision_bit narrow_interval
  dsimp only
  simp only [g_update_ctx_low, g_update_ctx_high]

/-- One glorious encoder step from a renormalized in-range state, driven by a
conforming predictor, yields a renormalized in-range state. -/
theorem g_encode_step_inv (pred : Nat → Nat → Nat) (hp : ConformingG pred)
    (K : Nat) (seq : List Nat) (c : Coder) (i : Nat)
    (hr : RangeInv c) (hd : RenormDone c) :
    RangeInv (Glorious.encode_step pred K seq c i) ∧
    RenormDone (Glorious.encode_step pred K seq c i) := by
  rw [g_encode_step_decomp]
  obtain ⟨hp1, hp2⟩ := hp (c.countOnes % U32) K
  have hn := narrow_RangeInv c (pred (c.countOnes % U32) K)
    ((seq.getD (i >>> 3) 0 >>> (7 - (i &&& 7))) &&& 1) hr hd hp1 hp2
  obtain ⟨⟨hr1, hr2⟩, hd1, hd2, hd3⟩ := g_encode_renorm_inv _ hn
  refine ⟨⟨?_, ?_⟩, ?_, ?_, ?_⟩
  · rw [g_update_ctx_low, g_update_ctx_high]; exact hr1
  · rw [g_update_ctx_high]; exact hr2
  · rw [g_update_ctx_high]; exact hd1
  · rw [g_update_ctx_low]; exact hd2
  · rw [g_update_ctx_low, g_update_ctx_high]; exact hd3

/-- One glorious decoder step from a renormalized in-range state with a valid
window, driven by a conforming predictor, preserves all three invariants. -/
theorem g_decode_step_inv (pred : Nat → Nat → Nat) (hp : ConformingG pred)
    (K : Nat) (enc : List Nat) (L : Nat) (s : Coder × (Nat → Nat) × Nat) (i : Nat)
    (hr : RangeInv s.1) (hd : RenormDone s.1) (hv : ValueInv s.1) :
    RangeInv (Glorious.decode_step pred K enc L s i).1 ∧
    RenormDone (Glorious.decode_step pred K enc L s i).1 ∧
    ValueInv (Glorious.decode_step pred K enc L s i).1 := by
  rw [g_decode_step_coder]
  obtain ⟨hp1, hp2⟩ := hp (s.1.countOnes % U32) K
  have hc1r : RangeInv (Glorious.update_context_ring_buffer s.1
      (decision_bit s.1 (pred (s.1.countOnes % U32) K))) := by
    refine ⟨?_, ?_⟩
    · rw [g_update_ctx_low, g_update_ctx_high]; exact hr.1
    · rw [g_update_ctx_high]; exact hr.2
  have hc1d : RenormDone (Glorious.update_context_ring_buffer s.1
      (decision_bit s.1 (pred (s.1.countOnes % U32) K))) := by
    refine ⟨?_, ?_, ?_⟩
    · rw [g_update_ctx_high]; exact hd.1
    · rw [g_update_ctx_low]; exact hd.2.1
    · rw [g_update_ctx_low, g_update_ctx_high]; exact hd.2.2
  have hc1v : ValueInv (Glorious.update_context_ring_buffer s.1
      (decision_bit s.1 (pred (s.1.countOnes % U32) K))) := by
    refine ⟨?_, ?_⟩
    · rw [g_update_ctx_low, g_update_ctx_value]; exact hv.1
    · rw [g_update_ctx_value, g_update_ctx_high]; exact hv.2
  have hbeq : decision_bit (Glorious.update_context_ring_buffer s.1
        (decision_bit s.1 (pred (s.1.countOnes % U32) K)))
        (pred (s.1.countOnes % U32) K)
      = decision_bit s.1 (pred (s.1.countOnes % U32) K) :=
    decision_bit_congr _ _ _ (g_update_ctx_low _ _) (g_update_ctx_high _ _)
      (g_update_ctx_value _ _)
  have hnv : ValueInv (narrow_interval
      (Glorious.update_context_ring_buffer s.1
        (decision_bit s.1 (pred (s.1.countOnes % U32) K)))
      (pred (s.1.countOnes % U32) K)
      (decision_bit s.1 (pred (s.1.countOnes % U32) K))) := by
    have := narrow_decision_ValueInv _ (pred (s.1.countOnes % U32) K) hc1r hc1d hc1v hp1 hp2
    rwa [hbeq] at this
  have hnr := narrow_RangeInv _ (pred (s.1.countOnes % U32) K)
    (decision_bit s.1 (pred (s.1.countOnes % U32) K)) hc1r hc1d hp1 hp2
  exact g_decode_renorm_inv enc L _ s.2.2 hnr hnv

/-- The initial coder state is in range and renormalized. -/
theorem g_init_inv (K : Nat) :
    RangeInv (Glorious.init_coder K) ∧ RenormDone (Glorious.init_coder K) := by
  refine ⟨⟨?_, ?_⟩, ?_, ?_, ?_⟩ <;>
    simp only [Glorious.init_coder, TOTAL_FREQUENCY_eq, HALF_eq, QUARTER_eq,
      THREE_QUARTER_eq] <;>
    omega

/-- Unfolding one step of the glorious encoder's main loop. -/
theorem g_encode_loop_succ (seq : List Nat) (n K : Nat) (pred : Nat → Nat → Nat) :
    Glorious.encode_loop seq (n + 1) K pred =
      Glorious.encode_step pred K seq (Glorious.encode_loop seq n K pred) n := by
  unfold Glorious.encode_loop
  rw [List.range_succ, List.foldl_append]
  rfl

/-- Every entry state of the glorious encoder's main loop is in range and
renormalized. -/
theorem g_encode_loop_inv (pred : Nat → Nat → Nat) (hp : ConformingG pred)
    (seq : List Nat) (K : Nat) :
    ∀ n, RangeInv (Glorious.encode_loop seq n K pred) ∧
         RenormDone (Glorious.encode_loop seq n K pred) := by
  intro n
  induction n with
  | zero => exact g_init_inv K
  | succ n ih =>
      rw [g_encode_loop_succ]
      exact g_encode_step_inv pred hp K seq _ n ih.1 ih.2

/-- The priming loop's running value grows by at most one bit per iteration. -/
theorem prime_loop_bound (enc : List Nat) (L : Nat) :
    ∀ (n : Nat) (s : Nat × Nat),
      (Glorious.prime_loop enc L n s).1 + 1 ≤ 2 ^ n * (s.1 + 1) := by
  intro n
  induction n with
  | zero =>
      intro s
      simp only [Glorious.prime_loop, pow_zero, one_mul]
      exact Nat.le_refl _
  | succ n ih =>
      intro s
      simp only [Glorious.prime_loop]
      have he := read_bit_le_one enc s.2 L
      have h1 := ih (((s.1 <<< 1) ||| (Glorious.read_bit enc s.2 L).1) % U32,
        (Glorious.read_bit enc s.2 L).2)
      have h2 : ((s.1 <<< 1) ||| (Glorious.read_bit enc s.2 L).1) % U32 + 1
          ≤ 2 * s.1 + 2 := by
        rw [shiftLeft_one, two_mul_or_bit _ _ he]
        have := Nat.mod_le (2 * s.1 + (Glorious.read_bit enc s.2 L).1) U32
        omega
      calc (Glorious.prime_loop enc L n
              (((s.1 <<< 1) ||| (Glorious.read_bit enc s.2 L).1) % U32,
                (Glorious.read_bit enc s.2 L).2)).1 + 1
          ≤ 2 ^ n * (((s.1 <<< 1) ||| (Glorious.read_bit enc s.2 L).1) % U32 + 1) := h1
        _ ≤ 2 ^ n * (2 * s.1 + 2) := Nat.mul_le_mul_left _ h2
        _ = 2 ^ (n + 1) * (s.1 + 1) := by ring

/-- The primed `value` fits in `PRECISION` bits. -/
theorem prime_value_lt (enc : List Nat) (L : Nat) :
    (Glorious.prime_loop enc L PRECISION (0, 0)).1 < TOTAL_FREQUENCY := by
  have h := prime_loop_bound enc L PRECISION (0, 0)
  rw [PRECISION_eq] at h ⊢
  rw [TOTAL_FREQUENCY_eq]
  have h2 : 2 ^ 31 * ((0:Nat) + 1) = 2147483648 := by norm_num
  rw [h2] at h
  omega

/-- Unfolding one step of the glorious decoder's main loop. -/
theorem g_decode_fold_succ (pred : Nat → Nat → Nat) (K : Nat) (enc : List Nat)
    (L : Nat) (s0 : Coder × (Nat → Nat) × Nat) (n : Nat) :
    (List.range (n + 1)).foldl (Glorious.decode_step pred K enc L) s0 =
      Glorious.decode_step pred K enc L
        ((List.range n).foldl (Glorious.decode_step pred K enc L) s0) n := by
  rw [List.range_succ, List.foldl_append]
  rfl

/-- Every entry state of the glorious decoder's main loop (started from the
initial coder with the primed value) is in range, renormalized, and has
`low ≤ value ≤ high`. -/
theorem g_decode_entry_inv (pred : Nat → Nat → Nat) (hp : ConformingG pred)
    (enc : List Nat) (L : Nat) (dec0 : Nat → Nat) (K : Nat) :
    ∀ n, RangeInv ((List.range n).foldl (Glorious.decode_step pred K enc L)
          ({ Glorious.init_coder K with
              value := (Glorious.prime_loop enc L PRECISION (0, 0)).1 },
            dec0, (Glorious.prime_loop enc L PRECISION (0, 0)).2)).1 ∧
        RenormDone ((List.range n).foldl (Glorious.decode_step pred K enc L)
          ({ Glorious.init_coder K with
              value := (Glorious.prime_loop enc L PRECISION (0, 0)).1 },
            dec0, (Glorious.prime_loop enc L PRECISION (0, 0)).2)).1 ∧
        ValueInv ((List.range n).foldl (Glorious.decode_step pred K enc L)
          ({ Glorious.init_coder K with
              value := (Glorious.prime_loop enc L PRECISION (0, 0)).1 },
            dec0, (Glorious.prime_loop enc L PRECISION (0, 0)).2)).1 := by
  intro n
  induction n with
  | zero =>
      simp only [List.range_zero, List.foldl_nil]
      obtain ⟨⟨hr1, hr2⟩, hd⟩ := g_init_inv K
      have hpv := prime_value_lt enc L
      refine ⟨⟨?_, ?_⟩, ⟨?_, ?_, ?_⟩, ⟨?_, ?_⟩⟩ <;>
        simp only [Glorious.init_coder, TOTAL_FREQUENCY_eq, HALF_eq, QUARTER_eq,
          THREE_QUARTER_eq] at * <;>
        omega
  | succ n ih =>
      rw [g_decode_fold_succ]
      exact g_decode_step_inv pred hp K enc L _ n ih.1 ih.2.1 ih.2.2

/-- **C3** (interval invariant): for every conforming predictor, (1) the
initial coder has `low ≤ high`; (2) every entry state of the glorious
encoder's main loop has `low ≤ high` (`< 2^PRECISION`); (3) every interval
narrowing from a renormalized in-range state with an in-range probability
preserves `low ≤ high`, whichever bit is coded; (4) every encoder
renormalization iteration preserves `low ≤ high`; (5) the decoder's
narrowing by its own decision bit preserves `low ≤ value ≤ high`; (6) every
decoder renormalization iteration preserves `low ≤ high` and
`low ≤ value ≤ high`; (7) every entry state of the glorious decoder's main
loop (the initial coder primed with the first `PRECISION` input bits, as in
`arithmetic_decode`) has `low ≤ high` and `low ≤ value ≤ high`. -/
theorem c3_interval_invariant (pred : Nat → Nat → Nat) (hp : ConformingG pred) :
    (∀ K, RangeInv (Glorious.init_coder K)) ∧
    (∀ seq K n, RangeInv (Glorious.encode_loop seq n K pred)) ∧
    (∀ c p1 bit, RangeInv c → RenormDone c → 1 ≤ p1 → p1 ≤ FIXED_SCALE - 1 →
        RangeInv (narrow_interval c p1 bit)) ∧
    (∀ c, RangeInv c → RangeInv (Glorious.encode_renorm_iter c)) ∧
    (∀ c p1, RangeInv c → RenormDone c → ValueInv c → 1 ≤ p1 → p1 ≤ FIXED_SCALE - 1 →
        ValueInv (narrow_interval c p1 (decision_bit c p1))) ∧
    (∀ enc L c idx, RangeInv c → ValueInv c →
        RangeInv (Glorious.decode_renorm_iter enc L c idx).1 ∧
        ValueInv (Glorious.decode_renorm_iter enc L c idx).1) ∧
    (∀ enc L dec0 K n,
        RangeInv ((List.range n).foldl (Glorious.decode_step pred K enc L)
            ({ Glorious.init_coder K with
                value := (Glorious.prime_loop enc L PRECISION (0, 0)).1 },
              dec0, (Glorious.prime_loop enc L PRECISION (0, 0)).2)).1 ∧
        ValueInv ((List.range n).foldl (Glorious.decode_step pred K enc L)
            ({ Glorious.init_coder K with
                value := (Glorious.prime_loop enc L PRECISION (0, 0)).1 },
              dec0, (Glorious.prime_loop enc L PRECISION (0, 0)).2)).1) := by
  refine ⟨fun K => (g_init_inv K).1,
    fun seq K n => (g_encode_loop_inv pred hp seq K n).1,
    fun c p1 bit hr hd h1 h2 => narrow_RangeInv c p1 bit hr hd h1 h2,
    fun c hr => encode_renorm_iter_RangeInv c hr,
    fun c p1 hr hd hv h1 h2 => narrow_decision_ValueInv c p1 hr hd hv h1 h2,
    fun enc L c idx hr hv => decode_renorm_iter_inv enc L c idx hr hv,
    fun enc L dec0 K n => ?_⟩
  obtain ⟨h1, _, h3⟩ := g_decode_entry_inv pred hp enc L dec0 K n
  exact ⟨h1, h3⟩

/-- C3 witness: the theorem applied to the constant conforming predictor
`fun _ _ => 1`. -/
theorem c3_interval_invariant_witness :
    ConformingG (fun _ _ => 1) ∧
    ((∀ K, RangeInv (Glorious.init_coder K)) ∧
    (∀ seq K n, RangeInv (Glorious.encode_loop seq n K (fun _ _ => 1))) ∧
    (∀ c p1 bit, RangeInv c → RenormDone c → 1 ≤ p1 → p1 ≤ FIXED_SCALE - 1 →
        RangeInv (narrow_interval c p1 bit)) ∧
    (∀ c, RangeInv c → RangeInv (Glorious.encode_renorm_iter c)) ∧
    (∀ c p1, RangeInv c → RenormDone c → ValueInv c → 1 ≤ p1 → p1 ≤ FIXED_SCALE - 1 →
        ValueInv (narrow_interval c p1 (decision_bit c p1))) ∧
    (∀ enc L c idx, RangeInv c → ValueInv c →
        RangeInv (Glorious.decode_renorm_iter enc L c idx).1 ∧
        ValueInv (Glorious.decode_renorm_iter enc L c idx).1) ∧
    (∀ enc L dec0 K n,
        RangeInv ((List.range n).foldl (Glorious.decode_step (fun _ _ => 1) K enc L)
            ({ Glorious.init_coder K with
                value := (Glorious.prime_loop enc L PRECISION (0, 0)).1 },
              dec0, (Glorious.prime_loop enc L PRECISION (0, 0)).2)).1 ∧
        ValueInv ((List.range n).foldl (Glorious.decode_step (fun _ _ => 1) K enc L)
            ({ Glorious.init_coder K with
                value := (Glorious.prime_loop enc L PRECISION (0, 0)).1 },
              dec0, (Glorious.prime_loop enc L PRECISION (0, 0)).2)).1)) := by
  have hc : ConformingG (fun _ _ => 1) := by
    intro ones K
    refine ⟨Nat.le_refl 1, ?_⟩
    show (1 : Nat) ≤ FIXED_SCALE - 1
    decide
  exact ⟨hc, c3_interval_invariant (fun _ _ => 1) hc⟩

/-! ## Variant-equivalence infrastructure -/

/-- `x &&& 1` is a bit. -/
theorem and_one_le_one (x : Nat) : x &&& 1 ≤ 1 := by
  rw [Nat.and_one_is_mod]; omega

/-- Reading back the bit just placed by the clear-then-set byte write. -/
theorem masked_write_read (x p b : Nat) (hp : p < 8) (hb : b ≤ 1) :
    ((((x &&& ((U32 - 1) ^^^ (1 <<< p))) ||| ((b &&& 1) <<< p)) % U8) >>> p) &&& 1
      = b := by
  have h256 : U8 = 2 ^ 8 := by rw [U8_eq]; norm_num
  have h32 : U32 - 1 = 2 ^ 32 - 1 := by rw [U32_eq]; norm_num
  have hsh : (1 : Nat) <<< p = 2 ^ p := Nat.one_shiftLeft p
  have hmp : ((U32 - 1) ^^^ (1 <<< p)).testBit p = false := by
    rw [hsh, h32, Nat.testBit_xor, Nat.testBit_two_pow_sub_one, Nat.testBit_two_pow_self]
    simp
    omega
  rcases Nat.le_one_iff_eq_zero_or_eq_one.mp hb with rfl | rfl
  · have hz : ((0 : Nat) &&& 1) <<< p = 0 := by simp
    rw [hz, Nat.or_zero, shift_and_one_eq_testBit, h256, Nat.testBit_mod_two_pow]
    simp [hp, Nat.testBit_and, hmp]
  · have ho : ((1 : Nat) &&& 1) <<< p = 2 ^ p := by
      rw [show (1:Nat) &&& 1 = 1 from rfl, hsh]
    rw [ho, shift_and_one_eq_testBit, h256, Nat.testBit_mod_two_pow]
    simp [hp, Nat.testBit_or, Nat.testBit_two_pow_self]

/-- The clear-then-set byte write leaves every other bit position alone. -/
theorem masked_write_preserves (x p q b : Nat) (hq : q < 8) (hne : p ≠ q) (hb : b ≤ 1) :
    ((((x &&& ((U32 - 1) ^^^ (1 <<< p))) ||| ((b &&& 1) <<< p)) % U8) >>> q) &&& 1
      = (x >>> q) &&& 1 := by
  have h256 : U8 = 2 ^ 8 := by rw [U8_eq]; norm_num
  have h32 : U32 - 1 = 2 ^ 32 - 1 := by rw [U32_eq]; norm_num
  have hsh : (1 : Nat) <<< p = 2 ^ p := Nat.one_shiftLeft p
  have hmq : ((U32 - 1) ^^^ (1 <<< p)).testBit q = true := by
    rw [hsh, h32, Nat.testBit_xor, Nat.testBit_two_pow_sub_one,
      Nat.testBit_two_pow_of_ne hne]
    simp
    omega
  rcases Nat.le_one_iff_eq_zero_or_eq_one.mp hb with rfl | rfl
  · have hz : ((0 : Nat) &&& 1) <<< p = 0 := by simp
    rw [hz, Nat.or_zero, shift_and_one_eq_testBit, shift_and_one_eq_testBit, h256,
      Nat.testBit_mod_two_pow]
    simp [hq, Nat.testBit_and, hmq]
  · have ho : ((1 : Nat) &&& 1) <<< p = 2 ^ p := by
      rw [show (1:Nat) &&& 1 = 1 from rfl, hsh]
    rw [ho, shift_and_one_eq_testBit, shift_and_one_eq_testBit, h256,
      Nat.testBit_mod_two_pow]
    simp [hq, Nat.testBit_or, Nat.testBit_and, hmq, Nat.testBit_two_pow_of_ne hne]

/-- An or-write of a bit into a byte position reads back as that bit when the
position was clear. -/
theorem or_write_read (x p b : Nat) (hp : p < 8) (hb : b ≤ 1)
    (hx : (x >>> p) &&& 1 = 0) :
    (((x ||| (b <<< p)) % U8) >>> p) &&& 1 = b := by
  have h256 : U8 = 2 ^ 8 := by rw [U8_eq]; norm_num
  have hxb : x.testBit p = false := by
    rw [shift_and_one_eq_testBit] at hx
    by_cases h : x.testBit p
    · rw [if_pos h] at hx; omega
    · exact Bool.eq_false_iff.mpr h
  rcases Nat.le_one_iff_eq_zero_or_eq_one.mp hb with rfl | rfl
  · rw [Nat.zero_shiftLeft, Nat.or_zero, shift_and_one_eq_testBit, h256,
      Nat.testBit_mod_two_pow]
    simp [hp, hxb]
  · rw [Nat.one_shiftLeft, shift_and_one_eq_testBit, h256, Nat.testBit_mod_two_pow]
    simp [hp, Nat.testBit_or, hxb, Nat.testBit_two_pow_self]

/-- An or-write of a bit into a byte position leaves other positions alone. -/
theorem or_write_preserves (x p q b : Nat) (hq : q < 8) (hne : p ≠ q) (hb : b ≤ 1) :
    (((x ||| (b <<< p)) % U8) >>> q) &&& 1 = (x >>> q) &&& 1 := by
  have h256 : U8 = 2 ^ 8 := by rw [U8_eq]; norm_num
  rcases Nat.le_one_iff_eq_zero_or_eq_one.mp hb with rfl | rfl
  · rw [Nat.zero_shiftLeft, Nat.or_zero, shift_and_one_eq_testBit,
      shift_and_one_eq_testBit, h256, Nat.testBit_mod_two_pow]
    simp [hq]
  · rw [Nat.one_shiftLeft, shift_and_one_eq_testBit, shift_and_one_eq_testBit, h256,
      Nat.testBit_mod_two_pow]
    simp [hq, Nat.testBit_or, Nat.testBit_two_pow_of_ne hne]

/-- The compression clamp is the identity on in-range probabilities. -/
theorem c_clamp_id (p : Nat) (h1 : 1 ≤ p) (h2 : p ≤ FIXED_SCALE - 1) :
    Compression.clamp_probability_fixed p = p := by
  unfold Compression.clamp_probability_fixed
  rw [if_neg (by omega), if_neg (by rw [FIXED_SCALE_eq] at h2 ⊢; omega)]

/-- The two `read_bit`s agree. -/
theorem read_bit_agree (enc : List Nat) (i L : Nat) :
    Compression.read_bit enc i L = Glorious.read_bit enc i L := by
  unfold Compression.read_bit Glorious.read_bit
  simp only [shiftRight_three, and_seven]

/-- `output_bit` commutes with overwriting `countOnes`. -/
theorem output_bit_set_co (c : Coder) (b v : Nat) :
    output_bit { c with countOnes := v } b = { output_bit c b with countOnes := v } := by
  by_cases h8 : c.bitCount + 1 = 8 <;> simp [output_bit, h8]

/-- `emit_list` commutes with overwriting `countOnes`. -/
theorem emit_list_set_co (bits : List Nat) : ∀ (c : Coder) (v : Nat),
    emit_list { c with countOnes := v } bits
      = { emit_list c bits with countOnes := v } := by
  induction bits with
  | nil => intro c v; rfl
  | cons b t ih =>
      intro c v
      rw [emit_list_cons, output_bit_set_co, ih, emit_list_cons]

/-- `flush_output` commutes with overwriting `countOnes`. -/
theorem flush_output_set_co (c : Coder) (v : Nat) :
    flush_output { c with countOnes := v } = { flush_output c with countOnes := v } := by
  unfold flush_output
  by_cases h : 0 < c.bitCount <;> simp [h]

/-- The compression `output_following_bits` on a state with its `countOnes`
overwritten is the glorious one with `countOnes` overwritten afterwards. -/
theorem ofb_sim (c : Coder) (bit v : Nat) (h : BufInv c) :
    Compression.output_following_bits { c with countOnes := v } bit
      = { Glorious.output_following_bits c bit with countOnes := v } := by
  unfold Compression.output_following_bits
  rw [show ({ c with countOnes := v } : Coder).bitsToFollow = c.bitsToFollow from rfl,
    c_ofb_go_eq bit c.bitsToFollow { c with countOnes := v } (Nat.le_refl _)]
  rw [show ({ c with countOnes := v } : Coder).bitsToFollow = c.bitsToFollow from rfl,
    emit_list_set_co, g_ofb_eq c bit h]

/-- The bit of the all-zero byte map is zero. -/
theorem bitOfMap_zero (i : Nat) : bitOfMap (fun _ => 0) i = 0 := by
  unfold bitOfMap
  simp

/-- `ctx_ones` of the all-zero byte map is zero. -/
theorem ctx_ones_zero (K : Nat) : ctx_ones (fun _ => 0) K = 0 := by
  unfold ctx_ones
  simp [bitOfMap_zero]

/-- Each tracked bit is at most one. -/
theorem bitOfMap_le_one (m : Nat → Nat) (i : Nat) : bitOfMap m i ≤ 1 :=
  and_one_le_one _

/-- The context popcount is bounded by the context length. -/
theorem ctx_ones_le (buf : Nat → Nat) (K : Nat) : ctx_ones buf K ≤ K := by
  unfold ctx_ones
  calc ∑ i ∈ Finset.range K, bitOfMap buf i ≤ ∑ i ∈ Finset.range K, 1 :=
        Finset.sum_le_sum (fun i _ => bitOfMap_le_one buf i)
    _ = K := by simp

/-- The combined clear-then-set byte write equals the compression variant's
branching or/and write. -/
theorem ctx_write_eq (x pos b : Nat) (hb : b ≤ 1) :
    ((x &&& ((U32 - 1) ^^^ (1 <<< pos))) ||| ((b &&& 1) <<< pos)) % U8
      = if b ≠ 0 then (x ||| (1 <<< pos)) % U8
        else (x &&& ((U32 - 1) ^^^ (1 <<< pos))) % U8 := by
  have h256 : U8 = 2 ^ 8 := by rw [U8_eq]; norm_num
  have h32 : U32 - 1 = 2 ^ 32 - 1 := by rw [U32_eq]; norm_num
  rcases Nat.le_one_iff_eq_zero_or_eq_one.mp hb with rfl | rfl
  · rw [if_neg (by omega), show (0:Nat) &&& 1 = 0 from rfl, Nat.zero_shiftLeft,
      Nat.or_zero]
  · rw [if_pos one_ne_zero, show (1:Nat) &&& 1 = 1 from rfl]
    apply Nat.eq_of_testBit_eq
    intro i
    rw [h256, Nat.testBit_mod_two_pow, Nat.testBit_mod_two_pow]
    by_cases hi8 : i < 8
    · have hkey : ((x &&& ((U32 - 1) ^^^ (1 <<< pos))) ||| (1 <<< pos)).testBit i
          = (x ||| (1 <<< pos)).testBit i := by
        rw [Nat.one_shiftLeft, Nat.testBit_or, Nat.testBit_or, Nat.testBit_and]
        by_cases hip : i = pos
        · subst hip
          simp [Nat.testBit_two_pow_self]
        · have hm : ((U32 - 1) ^^^ 2 ^ pos).testBit i = true := by
            rw [h32, Nat.testBit_xor, Nat.testBit_two_pow_sub_one,
              Nat.testBit_two_pow_of_ne (fun h => hip h.symm)]
            simp
            omega
          rw [hm, Nat.testBit_two_pow_of_ne (fun h => hip h.symm)]
          simp
      rw [hkey]
    · simp [hi8]

/-- The glorious ring-index advance equals the compression `% capacity`. -/
theorem idx_advance_eq (idx K : Nat) (hidx : idx < K) :
    (if idx + 1 ≥ K then idx + 1 - K else idx + 1) = (idx + 1) % K := by
  by_cases h : idx + 1 = K
  · rw [if_pos (by omega), h]
    simp [Nat.mod_self]
  · have hlt : idx + 1 < K := by omega
    rw [if_neg (by omega), Nat.mod_eq_of_lt hlt]

/-- Applying a one-point byte-map update. -/
theorem map_update_apply (buf : Nat → Nat) (bp nb j : Nat) :
    (fun k => if k = bp then nb else buf k) j = if j = bp then nb else buf j := rfl

/-- Writing bit `b` at ring position `idx` changes exactly that tracked bit. -/
theorem write_map_bit (buf : Nat → Nat) (idx b : Nat) (hb : b ≤ 1) (i : Nat) :
    bitOfMap (fun j => if j = idx / 8 then
        (((buf (idx / 8)) &&& ((U32 - 1) ^^^ (1 <<< (7 - idx % 8)))) |||
          ((b &&& 1) <<< (7 - idx % 8))) % U8
      else buf j) i
    = if i = idx then b else bitOfMap buf i := by
  unfold bitOfMap
  rw [map_update_apply]
  by_cases hi : i = idx
  · subst hi
    rw [if_pos rfl, if_pos rfl]
    exact masked_write_read _ _ _ (by omega) hb
  · rw [if_neg hi]
    by_cases hbyte : i / 8 = idx / 8
    · rw [if_pos hbyte]
      have hne : 7 - idx % 8 ≠ 7 - i % 8 := by
        intro hcontra
        exact hi (by omega)
      rw [masked_write_preserves _ _ _ _ (by omega) hne hb, hbyte]
    · rw [if_neg hbyte]

/-- Effect of one ring write on the context popcount. -/
theorem ctx_ones_write (buf : Nat → Nat) (K idx b : Nat) (hidx : idx < K) (hb : b ≤ 1) :
    ctx_ones (fun j => if j = idx / 8 then
        (((buf (idx / 8)) &&& ((U32 - 1) ^^^ (1 <<< (7 - idx % 8)))) |||
          ((b &&& 1) <<< (7 - idx % 8))) % U8
      else buf j) K
      = ctx_ones buf K + b - bitOfMap buf idx ∧
    bitOfMap buf idx ≤ ctx_ones buf K := by
  have hmem : idx ∈ Finset.range K := Finset.mem_range.mpr hidx
  have hold := Finset.add_sum_erase (Finset.range K) (bitOfMap buf) hmem
  have hnew : ctx_ones (fun j => if j = idx / 8 then
        (((buf (idx / 8)) &&& ((U32 - 1) ^^^ (1 <<< (7 - idx % 8)))) |||
          ((b &&& 1) <<< (7 - idx % 8))) % U8
      else buf j) K
      = b + ∑ i ∈ (Finset.range K).erase idx, bitOfMap buf i := by
    unfold ctx_ones
    rw [← Finset.add_sum_erase (Finset.range K) _ hmem]
    congr 1
    · rw [show (bitOfMap (fun j => if j = idx / 8 then
          (((buf (idx / 8)) &&& ((U32 - 1) ^^^ (1 <<< (7 - idx % 8)))) |||
            ((b &&& 1) <<< (7 - idx % 8))) % U8
        else buf j) idx) = _ from write_map_bit buf idx b hb idx, if_pos rfl]
    · apply Finset.sum_congr rfl
      intro i hi
      rw [show (bitOfMap (fun j => if j = idx / 8 then
          (((buf (idx / 8)) &&& ((U32 - 1) ^^^ (1 <<< (7 - idx % 8)))) |||
            ((b &&& 1) <<< (7 - idx % 8))) % U8
        else buf j) i) = _ from write_map_bit buf idx b hb i,
        if_neg (Finset.ne_of_mem_erase hi)]
  have hctx : ctx_ones buf K = bitOfMap buf idx
      + ∑ i ∈ (Finset.range K).erase idx, bitOfMap buf i := by
    unfold ctx_ones
    omega
  constructor
  · omega
  · omega

/-- `update_context_ring_buffer` (glorious) leaves the output accumulator and
pending-bit bookkeeping unchanged. -/
theorem g_update_ctx_out (c : Coder) (b : Nat) :
    (Glorious.update_context_ring_buffer c b).output = c.output ∧
    (Glorious.update_context_ring_buffer c b).bitsToFollow = c.bitsToFollow ∧
    (Glorious.update_context_ring_buffer c b).bitBuffer = c.bitBuffer ∧
    (Glorious.update_context_ring_buffer c b).bitCount = c.bitCount ∧
    (Glorious.update_context_ring_buffer c b).contextCapacity = c.contextCapacity := by
  unfold Glorious.update_context_ring_buffer
  split <;> exact ⟨rfl, rfl, rfl, rfl, rfl⟩

/-- The `countOnes` written by the glorious ring update, in `/ 8`, `% 8`
form. -/
theorem g_update_ctx_co (c : Coder) (b : Nat) (hcap : 0 < c.contextCapacity) :
    (Glorious.update_context_ring_buffer c b).countOnes
      = (c.countOnes + ((b % U32) + (U32 -
          (((c.contextBuffer (c.contextIndex / 8)) >>> (7 - c.contextIndex % 8)) &&& 1)))
            % U32) % U64 := by
  unfold Glorious.update_context_ring_buffer
  rw [if_pos hcap]
  dsimp only
  simp only [shiftRight_three, and_seven]

/-- The context buffer written by the glorious ring update, in `/ 8`, `% 8`
form. -/
theorem g_update_ctx_buf (c : Coder) (b : Nat) (hcap : 0 < c.contextCapacity) :
    (Glorious.update_context_ring_buffer c b).contextBuffer
      = fun j => if j = c.contextIndex / 8 then
          (((c.contextBuffer (c.contextIndex / 8)) &&&
              ((U32 - 1) ^^^ (1 <<< (7 - c.contextIndex % 8)))) |||
            ((b &&& 1) <<< (7 - c.contextIndex % 8))) % U8
        else c.contextBuffer j := by
  unfold Glorious.update_context_ring_buffer
  rw [if_pos hcap]
  dsimp only
  simp only [shiftRight_three, and_seven]

/-- The context index written by the glorious ring update. -/
theorem g_update_ctx_idx (c : Coder) (b : Nat) (hcap : 0 < c.contextCapacity) :
    (Glorious.update_context_ring_buffer c b).contextIndex
      = if c.contextIndex + 1 ≥ c.contextCapacity
        then c.contextIndex + 1 - c.contextCapacity else c.contextIndex + 1 := by
  unfold Glorious.update_context_ring_buffer
  rw [if_pos hcap]

/-- One glorious ring update against its compression counterpart: equal
states modulo the `countOnes` field, with the popcount relation, the index
bound and the capacity re-established. -/
theorem update_ctx_sim (c : Coder) (K b : Nat) (hb : b ≤ 1)
    (hcap : c.contextCapacity = K)
    (hidx : 0 < K → c.contextIndex < K)
    (hidx0 : K = 0 → c.contextIndex = 0)
    (hco : c.countOnes % U32 = ctx_ones c.contextBuffer K)
    (hK : K ≤ 2048000) :
    Compression.update_context_ring_buffer { c with countOnes := 0 } b
      = { Glorious.update_context_ring_buffer c b with countOnes := 0 } ∧
    (Glorious.update_context_ring_buffer c b).countOnes % U32
      = ctx_ones (Glorious.update_context_ring_buffer c b).contextBuffer K ∧
    (0 < K → (Glorious.update_context_ring_buffer c b).contextIndex < K) ∧
    (K = 0 → (Glorious.update_context_ring_buffer c b).contextIndex = 0) ∧
    (Glorious.update_context_ring_buffer c b).contextCapacity = K := by
  by_cases hK0 : K = 0
  · subst hK0
    have hcap0 : c.contextCapacity = 0 := hcap
    have hupdG : Glorious.update_context_ring_buffer c b = c := by
      unfold Glorious.update_context_ring_buffer
      rw [if_neg (show ¬ 0 < c.contextCapacity by omega)]
    have hupdC : Compression.update_context_ring_buffer { c with countOnes := 0 } b
        = { c with countOnes := 0 } := by
      unfold Compression.update_context_ring_buffer
      rw [if_pos (show ({ c with countOnes := 0 } : Coder).contextCapacity = 0 from hcap0)]
    rw [hupdG, hupdC]
    exact ⟨rfl, hco, fun h => absurd h (by omega), fun _ => hidx0 rfl, hcap⟩
  · have hKpos : 0 < K := by omega
    have hidx' : c.contextIndex < K := hidx hKpos
    have hcappos : 0 < c.contextCapacity := by rw [hcap]; omega
    have hold_le := and_one_le_one ((c.contextBuffer (c.contextIndex / 8))
      >>> (7 - c.contextIndex % 8))
    obtain ⟨hw1, hw2⟩ := ctx_ones_write c.contextBuffer K c.contextIndex b hidx' hb
    have hS := ctx_ones_le c.contextBuffer K
    refine ⟨?_, ?_, ?_, fun h => absurd h hK0, ?_⟩
    · unfold Glorious.update_context_ring_buffer Compression.update_context_ring_buffer
      rw [if_pos hcappos, if_neg (show ¬ c.contextCapacity = 0 by omega)]
      dsimp only
      simp only [shiftRight_three, and_seven]
      rw [ctx_write_eq (c.contextBuffer (c.contextIndex / 8)) (7 - c.contextIndex % 8) b hb]
      rw [idx_advance_eq c.contextIndex c.contextCapacity (by rw [hcap]; exact hidx')]
    · rw [g_update_ctx_co c b hcappos, g_update_ctx_buf c b hcappos, hw1]
      have hdvd : U32 ∣ U64 := ⟨4294967296, by rw [U32_eq, U64_eq]⟩
      rw [Nat.mod_mod_of_dvd _ hdvd]
      unfold bitOfMap at hw2 ⊢
      rw [U32_eq, U64_eq] at *
      omega
    · intro h
      rw [g_update_ctx_idx c b hcappos, hcap]
      split <;> omega
    · exact (g_update_ctx_out c b).2.2.2.2.trans hcap

/-- Rotating the index set does not change a cyclic sum. -/
theorem sum_rotate (f : Nat → Nat) (K idx : Nat) (hidx : idx < K) :
    ∑ i ∈ Finset.range K, f ((idx + i) % K) = ∑ i ∈ Finset.range K, f i := by
  have hsplit : ∑ i ∈ Finset.range K, f ((idx + i) % K)
      = ∑ i ∈ Finset.Ico 0 (K - idx), f ((idx + i) % K)
        + ∑ i ∈ Finset.Ico (K - idx) K, f ((idx + i) % K) := by
    rw [Finset.sum_Ico_consecutive _ (Nat.zero_le _) (by omega), ← Finset.range_eq_Ico]
  have h1 : ∑ i ∈ Finset.Ico 0 (K - idx), f ((idx + i) % K)
      = ∑ j ∈ Finset.Ico idx K, f j := by
    rw [← Finset.range_eq_Ico, Finset.sum_Ico_eq_sum_range]
    apply Finset.sum_congr rfl
    intro i hi
    have hlt : idx + i < K := by have := Finset.mem_range.mp hi; omega
    rw [Nat.mod_eq_of_lt hlt]
  have h2 : ∑ i ∈ Finset.Ico (K - idx) K, f ((idx + i) % K)
      = ∑ j ∈ Finset.Ico 0 idx, f j := by
    rw [Finset.sum_Ico_eq_sum_range, ← Finset.range_eq_Ico]
    have hkk : K - (K - idx) = idx := by omega
    rw [hkk]
    apply Finset.sum_congr rfl
    intro i hi
    have hi' : i < idx := Finset.mem_range.mp hi
    have harg : (idx + (K - idx + i)) % K = i := by
      have he : idx + (K - idx + i) = K + i := by omega
      rw [he, Nat.add_mod_left, Nat.mod_eq_of_lt (by omega)]
    rw [harg]
  rw [hsplit, h1, h2, Nat.add_comm,
    Finset.sum_Ico_consecutive f (Nat.zero_le idx) hidx.le, ← Finset.range_eq_Ico]

/-- `get_current_context_buffer` with its locals substituted (the same
function up to definitional unfolding), with a nonempty context. -/
theorem gccb_eq (c : Coder) (K : Nat) (hK0 : K ≠ 0) :
    Compression.get_current_context_buffer c K
      = (List.range K).foldl
          (fun buffer i j =>
            if j = i / 8 then
              ((buffer (i / 8)) |||
                ((((c.contextBuffer (((c.contextIndex + i) % K) / 8))
                    >>> (7 - ((c.contextIndex + i) % K) % 8)) &&& 1) <<< (7 - i % 8))) % U8
            else buffer j)
          (fun _ => 0) := by
  unfold Compression.get_current_context_buffer
  rw [if_neg hK0]

/-- Bits of the partial unpacked context buffer: position `j` holds the ring
bit `(context_index + j) % K` once written, and zero before. -/
theorem gccb_fold_bits (c : Coder) (K : Nat) : ∀ (n : Nat) (j : Nat),
    bitOfMap ((List.range n).foldl
      (fun buffer i j =>
        if j = i / 8 then
          ((buffer (i / 8)) |||
            ((((c.contextBuffer (((c.contextIndex + i) % K) / 8))
                >>> (7 - ((c.contextIndex + i) % K) % 8)) &&& 1) <<< (7 - i % 8))) % U8
        else buffer j)
      (fun _ => 0)) j
    = if j < n then bitOfMap c.contextBuffer ((c.contextIndex + j) % K) else 0 := by
  intro n
  induction n with
  | zero =>
      intro j
      simp [bitOfMap_zero]
  | succ n ih =>
      intro j
      have h8 : 7 - j % 8 < 8 := by omega
      rw [List.range_succ, List.foldl_append, List.foldl_cons, List.foldl_nil]
      unfold bitOfMap
      dsimp only
      by_cases hj : j = n
      · subst hj
        have ihj := ih j
        unfold bitOfMap at ihj
        rw [if_neg (Nat.lt_irrefl j)] at ihj
        rw [if_pos (rfl : j / 8 = j / 8), if_pos (Nat.lt_succ_self j)]
        rw [or_write_read _ _ _ h8 (and_one_le_one _) ihj]
      · by_cases hjb : j / 8 = n / 8
        · have hne : 7 - n % 8 ≠ 7 - j % 8 := by
            intro hcontra
            exact hj (by omega)
          by_cases hlt : j < n
          · have hlt1 : j < n + 1 := by omega
            have ihj := ih j
            unfold bitOfMap at ihj
            rw [if_pos hjb, or_write_preserves _ _ _ _ h8 hne (and_one_le_one _), ← hjb,
              ihj, if_pos hlt, if_pos hlt1]
          · have hlt1 : ¬ j < n + 1 := by omega
            have ihj := ih j
            unfold bitOfMap at ihj
            rw [if_pos hjb, or_write_preserves _ _ _ _ h8 hne (and_one_le_one _), ← hjb,
              ihj, if_neg hlt, if_neg hlt1]
        · by_cases hlt : j < n
          · have hlt1 : j < n + 1 := by omega
            have ihj := ih j
            unfold bitOfMap at ihj
            rw [if_neg hjb, ihj, if_pos hlt, if_pos hlt1]
          · have hlt1 : ¬ j < n + 1 := by omega
            have ihj := ih j
            unfold bitOfMap at ihj
            rw [if_neg hjb, ihj, if_neg hlt, if_neg hlt1]

/-- Bit `j < K` of the unpacked context buffer is the ring bit at the rotated
position. -/
theorem gccb_bit (c : Coder) (K : Nat) (hK0 : K ≠ 0) (j : Nat) (hj : j < K) :
    bitOfMap (Compression.get_current_context_buffer c K) j
      = bitOfMap c.contextBuffer ((c.contextIndex + j) % K) := by
  rw [gccb_eq c K hK0, gccb_fold_bits, if_pos hj]

/-- Unpacking the ring preserves the context popcount. -/
theorem ctx_ones_gccb (c : Coder) (K : Nat) (hidx : 0 < K → c.contextIndex < K) :
    ctx_ones (Compression.get_current_context_buffer c K) K
      = ctx_ones c.contextBuffer K := by
  by_cases hK0 : K = 0
  · subst hK0
    rfl
  · unfold ctx_ones
    rw [Finset.sum_congr rfl (fun j hj => gccb_bit c K hK0 j (Finset.mem_range.mp hj))]
    exact sum_rotate (bitOfMap c.contextBuffer) K c.contextIndex (hidx (by omega))

/-- The glorious `output_bit`-then-`output_following_bits` combination keeps
the accumulator invariant and every non-output field. -/
theorem g_emit2_props (c : Coder) (x y : Nat) (h : BufInv c) :
    BufInv (Glorious.output_following_bits (output_bit c x) y) ∧
    (Glorious.output_following_bits (output_bit c x) y).low = c.low ∧
    (Glorious.output_following_bits (output_bit c x) y).high = c.high ∧
    (Glorious.output_following_bits (output_bit c x) y).value = c.value ∧
    (Glorious.output_following_bits (output_bit c x) y).contextBuffer
      = c.contextBuffer ∧
    (Glorious.output_following_bits (output_bit c x) y).contextIndex
      = c.contextIndex ∧
    (Glorious.output_following_bits (output_bit c x) y).contextCapacity
      = c.contextCapacity ∧
    (Glorious.output_following_bits (output_bit c x) y).countOnes = c.countOnes := by
  have hY := (output_bit_emit c x h).2
  rw [g_ofb_eq (output_bit c x) y hY]
  obtain ⟨-, hB, hl, hh, hv, -, hcb, hcc, hci, hco⟩ :=
    emit_list_emit (List.replicate (output_bit c x).bitsToFollow y) (output_bit c x) hY
  exact ⟨⟨hB.1, hB.2⟩,
    hl.trans (output_bit_low c x),
    hh.trans (output_bit_high c x),
    hv.trans (output_bit_value c x),
    hcb.trans (output_bit_contextBuffer c x),
    hci.trans (output_bit_contextIndex c x),
    hcc.trans (output_bit_contextCapacity c x),
    hco.trans (output_bit_countOnes c x)⟩

set_option maxRecDepth 2000 in
/-- The two encoder renormalization loops simulate each other: on states
equal up to `countOnes` they produce states equal up to `countOnes`, and the
glorious loop keeps the accumulator invariant and the context fields. -/
theorem encode_renorm_go_sim : ∀ (fuel : Nat) (c : Coder) (v : Nat), BufInv c →
    Compression.encode_renorm_go fuel { c with countOnes := v }
      = { Glorious.encode_renorm_go fuel c with countOnes := v } ∧
    BufInv (Glorious.encode_renorm_go fuel c) ∧
    (Glorious.encode_renorm_go fuel c).contextBuffer = c.contextBuffer ∧
    (Glorious.encode_renorm_go fuel c).contextIndex = c.contextIndex ∧
    (Glorious.encode_renorm_go fuel c).contextCapacity = c.contextCapacity ∧
    (Glorious.encode_renorm_go fuel c).countOnes = c.countOnes := by
  intro fuel
  induction fuel with
  | zero =>
      intro c v h
      exact ⟨rfl, h, rfl, rfl, rfl, rfl⟩
  | succ fuel ih =>
      intro c v h
      simp only [Glorious.encode_renorm_go, Compression.encode_renorm_go]
      by_cases h1 : c.high < HALF
      · rw [if_pos h1, if_pos h1]
        rw [output_bit_set_co, ofb_sim (output_bit c 0) 1 v (output_bit_emit c 0 h).2]
        obtain ⟨hB, hl, hh, hv, hcb, hci, hcc, hco⟩ := g_emit2_props c 0 1 h
        obtain ⟨e1, e2, e3, e4, e5, e6⟩ := ih
          { Glorious.output_following_bits (output_bit c 0) 1 with
              low := (c.low <<< 1) % U32, high := ((c.high <<< 1) ||| 1) % U32 } v hB
        exact ⟨e1, e2, e3.trans hcb, e4.trans hci, e5.trans hcc, e6.trans hco⟩
      · rw [if_neg h1, if_neg h1]
        by_cases h2 : HALF ≤ c.low
        · rw [if_pos h2, if_pos h2]
          rw [output_bit_set_co, ofb_sim (output_bit c 1) 0 v (output_bit_emit c 1 h).2]
          obtain ⟨hB, hl, hh, hv, hcb, hci, hcc, hco⟩ := g_emit2_props c 1 0 h
          have hB' : BufInv { Glorious.output_following_bits (output_bit c 1) 0 with
              low := ((c.low - HALF) <<< 1) % U32,
              high := (((c.high - HALF) <<< 1) ||| 1) % U32 } := ⟨hB.1, hB.2⟩
          obtain ⟨e1, e2, e3, e4, e5, e6⟩ := ih
            { Glorious.output_following_bits (output_bit c 1) 0 with
                low := ((c.low - HALF) <<< 1) % U32,
                high := (((c.high - HALF) <<< 1) ||| 1) % U32 } v hB'
          exact ⟨e1, e2, e3.trans hcb, e4.trans hci, e5.trans hcc, e6.trans hco⟩
        · rw [if_neg h2, if_neg h2]
          by_cases h3 : QUARTER ≤ c.low ∧ c.high < THREE_QUARTER
          · rw [if_pos h3, if_pos h3]
            have hB' : BufInv
                { c with bitsToFollow := c.bitsToFollow + 1,
                         low := ((c.low - QUARTER) <<< 1) % U32,
                         high := (((c.high - QUARTER) <<< 1) ||| 1) % U32 } := ⟨h.1, h.2⟩
            obtain ⟨e1, e2, e3, e4, e5, e6⟩ := ih
              { c with bitsToFollow := c.bitsToFollow + 1,
                       low := ((c.low - QUARTER) <<< 1) % U32,
                       high := (((c.high - QUARTER) <<< 1) ||| 1) % U32 } v hB'
            exact ⟨e1, e2, e3, e4, e5, e6⟩
          · rw [if_neg h3, if_neg h3]
            exact ⟨rfl, h, rfl, rfl, rfl, rfl⟩

/-- The compression clamp always lands in `[1, FIXED_SCALE - 1]`. -/
theorem c_clamp_bounds (p : Nat) :
    1 ≤ Compression.clamp_probability_fixed p ∧
    Compression.clamp_probability_fixed p ≤ FIXED_SCALE - 1 := by
  unfold Compression.clamp_probability_fixed
  rw [FIXED_SCALE_eq]
  split
  · omega
  · split <;> omega

/-- `narrow_interval` commutes with overwriting `countOnes`. -/
theorem narrow_set_co (c : Coder) (p1 bit v : Nat) :
    narrow_interval { c with countOnes := v } p1 bit
      = { narrow_interval c p1 bit with countOnes := v } := by
  unfold narrow_interval
  by_cases hb : bit = 0
  · rw [if_pos hb, if_pos hb]
  · rw [if_neg hb, if_neg hb]

/-- The compression encoder step factors through `narrow_interval`, the
renormalization loop and the ring update. -/
theorem c_encode_step_decomp (predC : (Nat → Nat) → Nat → Nat) (K : Nat)
    (seq : List Nat) (c : Coder) (i : Nat) :
    Compression.encode_step predC K seq c i =
      Compression.update_context_ring_buffer
        (Compression.encode_renorm
          (narrow_interval c
            (Compression.clamp_probability_fixed
              ((predC (Compression.get_current_context_buffer c K) K) % U32))
            ((seq.getD (i / 8) 0 >>> (7 - i % 8)) &&& 1)))
        ((seq.getD (i / 8) 0 >>> (7 - i % 8)) &&& 1) := by
  have hlt : Compression.clamp_probability_fixed
      ((predC (Compression.get_current_context_buffer c K) K) % U32) % U32
      = Compression.clamp_probability_fixed
          ((predC (Compression.get_current_context_buffer c K) K) % U32) := by
    apply Nat.mod_eq_of_lt
    have h1 := (c_clamp_bounds
      ((predC (Compression.get_current_context_buffer c K) K) % U32)).2
    rw [FIXED_SCALE_eq] at h1
    exact lt_of_le_of_lt h1 (by rw [U32_eq]; norm_num)
  unfold Compression.encode_step narrow_interval
  dsimp only
  rw [hlt]

/-- `narrow_interval` only writes `low` and `high`. -/
theorem narrow_fields (c : Coder) (p1 bit : Nat) :
    (narrow_interval c p1 bit).value = c.value ∧
    (narrow_interval c p1 bit).output = c.output ∧
    (narrow_interval c p1 bit).bitsToFollow = c.bitsToFollow ∧
    (narrow_interval c p1 bit).bitBuffer = c.bitBuffer ∧
    (narrow_interval c p1 bit).bitCount = c.bitCount ∧
    (narrow_interval c p1 bit).contextBuffer = c.contextBuffer ∧
    (narrow_interval c p1 bit).contextCapacity = c.contextCapacity ∧
    (narrow_interval c p1 bit).contextIndex = c.contextIndex ∧
    (narrow_interval c p1 bit).countOnes = c.countOnes := by
  unfold narrow_interval
  dsimp only
  split <;> exact ⟨rfl, rfl, rfl, rfl, rfl, rfl, rfl, rfl, rfl⟩

/-- `encode_renorm` simulation, packaged at the loop entry point. -/
theorem encode_renorm_sim (c : Coder) (v : Nat) (h : BufInv c) :
    Compression.encode_renorm { c with countOnes := v }
      = { Glorious.encode_renorm c with countOnes := v } ∧
    BufInv (Glorious.encode_renorm c) ∧
    (Glorious.encode_renorm c).contextBuffer = c.contextBuffer ∧
    (Glorious.encode_renorm c).contextIndex = c.contextIndex ∧
    (Glorious.encode_renorm c).contextCapacity = c.contextCapacity ∧
    (Glorious.encode_renorm c).countOnes = c.countOnes := by
  unfold Glorious.encode_renorm Compression.encode_renorm
  exact encode_renorm_go_sim TOTAL_FREQUENCY c v h

/-- One compression encoder step against one glorious encoder step: with
matched predictors the states stay equal up to `countOnes`, and the glorious
invariants (accumulator, index bound, popcount relation) are maintained. -/
theorem g_c_encode_step_sim (g : Nat → Nat → Nat) (predC : (Nat → Nat) → Nat → Nat)
    (hg : ConformingG g) (hpredC : ∀ buf K, predC buf K = g (ctx_ones buf K) K)
    (K : Nat) (hK : K ≤ 8 * MAX_CONTEXT_BYTES) (seq : List Nat) (cG : Coder) (i : Nat)
    (hbuf : BufInv cG) (hcap : cG.contextCapacity = K)
    (hidx : 0 < K → cG.contextIndex < K) (hidx0 : K = 0 → cG.contextIndex = 0)
    (hco : cG.countOnes % U32 = ctx_ones cG.contextBuffer K) :
    Compression.encode_step predC K seq { cG with countOnes := 0 } i
      = { Glorious.encode_step g K seq cG i with countOnes := 0 } ∧
    BufInv (Glorious.encode_step g K seq cG i) ∧
    (Glorious.encode_step g K seq cG i).contextCapacity = K ∧
    (0 < K → (Glorious.encode_step g K seq cG i).contextIndex < K) ∧
    (K = 0 → (Glorious.encode_step g K seq cG i).contextIndex = 0) ∧
    (Glorious.encode_step g K seq cG i).countOnes % U32
      = ctx_ones (Glorious.encode_step g K seq cG i).contextBuffer K := by
  have hKle : K ≤ 2048000 := by
    have hM : MAX_CONTEXT_BYTES = 256000 := rfl
    omega
  obtain ⟨hg1, hg2⟩ := hg (cG.countOnes % U32) K
  have hpred_eq : Compression.clamp_probability_fixed
      ((predC (Compression.get_current_context_buffer { cG with countOnes := 0 } K) K)
        % U32)
      = g (cG.countOnes % U32) K := by
    rw [hpredC]
    have hrot : ctx_ones
        (Compression.get_current_context_buffer { cG with countOnes := 0 } K) K
        = ctx_ones cG.contextBuffer K := ctx_ones_gccb { cG with countOnes := 0 } K hidx
    rw [hrot, ← hco]
    rw [Nat.mod_eq_of_lt (show g (cG.countOnes % U32) K < U32 by
      rw [FIXED_SCALE_eq] at hg2
      exact lt_of_le_of_lt hg2 (by rw [U32_eq]; norm_num))]
    exact c_clamp_id _ hg1 hg2
  have hbit : ((seq.getD (i / 8) 0 >>> (7 - i % 8)) &&& 1) ≤ 1 := and_one_le_one _
  obtain ⟨nfv, nfo, nfb, nfbb, nfbc, nfcb, nfcc, nfci, nfco⟩ :=
    narrow_fields cG (g (cG.countOnes % U32) K)
      ((seq.getD (i / 8) 0 >>> (7 - i % 8)) &&& 1)
  have hbufX : BufInv (narrow_interval cG (g (cG.countOnes % U32) K)
      ((seq.getD (i / 8) 0 >>> (7 - i % 8)) &&& 1)) :=
    ⟨by rw [nfbc]; exact hbuf.1, by rw [nfbb, nfbc]; exact hbuf.2⟩
  obtain ⟨hren_eq, hren_buf, hren_cb, hren_ci, hren_cc, hren_co⟩ :=
    encode_renorm_sim
      (narrow_interval cG (g (cG.countOnes % U32) K)
        ((seq.getD (i / 8) 0 >>> (7 - i % 8)) &&& 1)) 0 hbufX
  rw [c_encode_step_decomp, g_encode_step_decomp]
  simp only [shiftRight_three, and_seven]
  rw [hpred_eq, narrow_set_co, hren_eq]
  obtain ⟨hupd_eq, hupd_co, hupd_idx, hupd_idx0, hupd_cap⟩ :=
    update_ctx_sim
      (Glorious.encode_renorm
        (narrow_interval cG (g (cG.countOnes % U32) K)
          ((seq.getD (i / 8) 0 >>> (7 - i % 8)) &&& 1)))
      K ((seq.getD (i / 8) 0 >>> (7 - i % 8)) &&& 1) hbit
      (hren_cc.trans (nfcc.trans hcap))
      (fun h => by rw [hren_ci, nfci]; exact hidx h)
      (fun h => by rw [hren_ci, nfci]; exact hidx0 h)
      (by rw [hren_co, nfco, hren_cb, nfcb]; exact hco)
      hKle
  refine ⟨hupd_eq, ?_, hupd_cap, hupd_idx, hupd_idx0, hupd_co⟩
  obtain ⟨-, -, hbb, hbc, -⟩ := g_update_ctx_out
    (Glorious.encode_renorm
      (narrow_interval cG (g (cG.countOnes % U32) K)
        ((seq.getD (i / 8) 0 >>> (7 - i % 8)) &&& 1)))
    ((seq.getD (i / 8) 0 >>> (7 - i % 8)) &&& 1)
  exact ⟨by rw [hbc]; exact hren_buf.1, by rw [hbb, hbc]; exact hren_buf.2⟩

/-- Unfolding one step of the compression encoder's main loop. -/
theorem c_encode_loop_succ (seq : List Nat) (n K : Nat)
    (predC : (Nat → Nat) → Nat → Nat) :
    Compression.encode_loop seq (n + 1) K predC =
      Compression.encode_step predC K seq (Compression.encode_loop seq n K predC) n := by
  unfold Compression.encode_loop
  rw [List.range_succ, List.foldl_append]
  rfl

/-- The two encoder main loops simulate each other from the initial state. -/
theorem g_c_encode_loop_sim (g : Nat → Nat → Nat) (predC : (Nat → Nat) → Nat → Nat)
    (hg : ConformingG g) (hpredC : ∀ buf K, predC buf K = g (ctx_ones buf K) K)
    (K : Nat) (hK : K ≤ 8 * MAX_CONTEXT_BYTES) (seq : List Nat) :
    ∀ n, Compression.encode_loop seq n K predC
          = { Glorious.encode_loop seq n K g with countOnes := 0 } ∧
        BufInv (Glorious.encode_loop seq n K g) ∧
        (Glorious.encode_loop seq n K g).contextCapacity = K ∧
        (0 < K → (Glorious.encode_loop seq n K g).contextIndex < K) ∧
        (K = 0 → (Glorious.encode_loop seq n K g).contextIndex = 0) ∧
        (Glorious.encode_loop seq n K g).countOnes % U32
          = ctx_ones (Glorious.encode_loop seq n K g).contextBuffer K := by
  intro n
  induction n with
  | zero =>
      refine ⟨rfl, ⟨?_, ?_⟩, rfl, fun h => h, fun _ => rfl, ?_⟩
      · show (0 : Nat) ≤ 7
        omega
      · show (0 : Nat) < 2 ^ 0
        omega
      · show (0 : Nat) % U32 = ctx_ones (fun _ => 0) K
        rw [ctx_ones_zero, U32_eq]
  | succ n ih =>
      obtain ⟨ih_eq, ih_buf, ih_cap, ih_idx, ih_idx0, ih_co⟩ := ih
      rw [c_encode_loop_succ, g_encode_loop_succ, ih_eq]
      exact g_c_encode_step_sim g predC hg hpredC K hK seq
        (Glorious.encode_loop seq n K g) n ih_buf ih_cap ih_idx ih_idx0 ih_co

/-- Record bookkeeping: overwriting `countOnes` commutes with bumping
`bitsToFollow`. -/
theorem set_co_btf_swap (c : Coder) (v w : Nat) :
    ({ { c with countOnes := v } with bitsToFollow := w } : Coder)
      = { { c with bitsToFollow := w } with countOnes := v } := rfl

/-- The two final-bits blocks simulate each other. -/
theorem encode_finish_sim (c : Coder) (h : BufInv c) :
    Compression.encode_finish { c with countOnes := 0 }
      = { Glorious.encode_finish c with countOnes := 0 } := by
  have hBufX : BufInv { c with bitsToFollow := c.bitsToFollow + 1 } := ⟨h.1, h.2⟩
  unfold Compression.encode_finish Glorious.encode_finish
  dsimp only
  rw [set_co_btf_swap]
  by_cases hl : c.low < QUARTER
  · rw [if_pos hl, if_pos hl]
    rw [output_bit_set_co { c with bitsToFollow := c.bitsToFollow + 1 } 0 0,
      ofb_sim (output_bit { c with bitsToFollow := c.bitsToFollow + 1 } 0) 1 0
        (output_bit_emit { c with bitsToFollow := c.bitsToFollow + 1 } 0 hBufX).2,
      flush_output_set_co]
  · rw [if_neg hl, if_neg hl]
    rw [output_bit_set_co { c with bitsToFollow := c.bitsToFollow + 1 } 1 0,
      ofb_sim (output_bit { c with bitsToFollow := c.bitsToFollow + 1 } 1) 0 0
        (output_bit_emit { c with bitsToFollow := c.bitsToFollow + 1 } 1 hBufX).2,
      flush_output_set_co]

/-- The two value-priming loops agree (they differ only in `read_bit`). -/
theorem prime_loop_agree (enc : List Nat) (L : Nat) :
    ∀ (n : Nat) (s : Nat × Nat),
      Compression.prime_loop enc L n s = Glorious.prime_loop enc L n s := by
  intro n
  induction n with
  | zero => intro s; rfl
  | succ n ih =>
      intro s
      show Compression.prime_loop enc L n _ = Glorious.prime_loop enc L n _
      rw [read_bit_agree, ih]

/-- The glorious ring update commutes with overwriting `high`. -/
theorem g_update_set_high (c : Coder) (b v : Nat) :
    Glorious.update_context_ring_buffer { c with high := v } b
      = { Glorious.update_context_ring_buffer c b with high := v } := by
  unfold Glorious.update_context_ring_buffer
  by_cases hcap : 0 < c.contextCapacity
  · rw [if_pos hcap, if_pos hcap]
  · rw [if_neg hcap, if_neg hcap]

/-- The glorious ring update commutes with overwriting `low`. -/
theorem g_update_set_low (c : Coder) (b v : Nat) :
    Glorious.update_context_ring_buffer { c with low := v } b
      = { Glorious.update_context_ring_buffer c b with low := v } := by
  unfold Glorious.update_context_ring_buffer
  by_cases hcap : 0 < c.contextCapacity
  · rw [if_pos hcap, if_pos hcap]
  · rw [if_neg hcap, if_neg hcap]

/-- The ring update and the interval narrowing touch disjoint fields. -/
theorem g_update_narrow_comm (c : Coder) (b p1 bit : Nat) :
    Glorious.update_context_ring_buffer (narrow_interval c p1 bit) b
      = narrow_interval (Glorious.update_context_ring_buffer c b) p1 bit := by
  unfold narrow_interval
  dsimp only
  by_cases hb : bit = 0
  · rw [if_pos hb, if_pos hb]
    unfold Glorious.update_context_ring_buffer
    dsimp only
    by_cases hcap : 0 < c.contextCapacity
    · rw [if_pos hcap, if_pos hcap]
    · rw [if_neg hcap, if_neg hcap]
  · rw [if_neg hb, if_neg hb]
    unfold Glorious.update_context_ring_buffer
    dsimp only
    by_cases hcap : 0 < c.contextCapacity
    · rw [if_pos hcap, if_pos hcap]
    · rw [if_neg hcap, if_neg hcap]

/-- On a renormalized in-range state with a valid window, the `uint64`
scaled value fits in 32 bits, so the two decision computations agree. -/
theorem decision_bit_c_eq (c : Coder) (p1 : Nat) (hr : RangeInv c)
    (hd : RenormDone c) (hv : ValueInv c) :
    decision_bit_c c p1 = decision_bit c p1 := by
  obtain ⟨hlh, hhi⟩ := hr
  obtain ⟨hlv, hvh⟩ := hv
  have hTF : 0 < TOTAL_FREQUENCY := by rw [TOTAL_FREQUENCY_eq]; norm_num
  have hrange : ((c.high + (U32 - c.low)) % U32 + 1) % U32 = c.high - c.low + 1 :=
    range_clean c.low c.high hlh hhi
  have htemp1 : ((c.value + (U32 - c.low)) % U32 + 1) % U32 = c.value - c.low + 1 := by
    rw [U32_eq]
    rw [TOTAL_FREQUENCY_eq] at hhi
    omega
  have htemp2 : ((c.value - c.low + 1) * TOTAL_FREQUENCY + (U64 - 1)) % U64
      = (c.value - c.low + 1) * TOTAL_FREQUENCY - 1 := by
    have e1 : 0 < (c.value - c.low + 1) * TOTAL_FREQUENCY := Nat.mul_pos (by omega) hTF
    have e2 : (c.value - c.low + 1) * TOTAL_FREQUENCY
        ≤ TOTAL_FREQUENCY * TOTAL_FREQUENCY :=
      Nat.mul_le_mul_right _ (by rw [TOTAL_FREQUENCY_eq] at hhi ⊢; omega)
    have e3 : TOTAL_FREQUENCY * TOTAL_FREQUENCY < U64 := by
      rw [TOTAL_FREQUENCY_eq, U64_eq]; norm_num
    generalize (c.value - c.low + 1) * TOTAL_FREQUENCY = X at e1 e2
    rw [U64_eq] at e3 ⊢
    omega
  have hr0 : 0 < c.high - c.low + 1 := by omega
  have hsv_lt : ((c.value - c.low + 1) * TOTAL_FREQUENCY - 1) / (c.high - c.low + 1)
      < U32 := by
    have e1 : 0 < (c.value - c.low + 1) * TOTAL_FREQUENCY :=
      Nat.mul_pos (by omega) hTF
    have e3 : (c.value - c.low + 1) * TOTAL_FREQUENCY
        ≤ (c.high - c.low + 1) * TOTAL_FREQUENCY :=
      Nat.mul_le_mul_right _ (by omega)
    have e4 : ((c.value - c.low + 1) * TOTAL_FREQUENCY - 1) / (c.high - c.low + 1)
        < TOTAL_FREQUENCY := by
      rw [Nat.div_lt_iff_lt_mul hr0]
      have e5 : (c.high - c.low + 1) * TOTAL_FREQUENCY
          = TOTAL_FREQUENCY * (c.high - c.low + 1) := Nat.mul_comm _ _
      omega
    have e6 : TOTAL_FREQUENCY < U32 := by rw [TOTAL_FREQUENCY_eq, U32_eq]; norm_num
    omega
  unfold decision_bit_c decision_bit
  dsimp only
  rw [hrange, htemp1, htemp2, Nat.mod_eq_of_lt hsv_lt]

/-- The two decoder renormalization loops simulate each other (they share the
interval logic and differ only in `read_bit`), and the glorious one preserves
the context fields. -/
theorem decode_renorm_go_sim (enc : List Nat) (L : Nat) :
    ∀ (fuel : Nat) (c : Coder) (v idx : Nat),
    Compression.decode_renorm_go enc L fuel { c with countOnes := v } idx
      = ({ (Glorious.decode_renorm_go enc L fuel c idx).1 with countOnes := v },
         (Glorious.decode_renorm_go enc L fuel c idx).2) ∧
    (Glorious.decode_renorm_go enc L fuel c idx).1.contextBuffer = c.contextBuffer ∧
    (Glorious.decode_renorm_go enc L fuel c idx).1.contextIndex = c.contextIndex ∧
    (Glorious.decode_renorm_go enc L fuel c idx).1.contextCapacity
      = c.contextCapacity ∧
    (Glorious.decode_renorm_go enc L fuel c idx).1.countOnes = c.countOnes := by
  intro fuel
  induction fuel with
  | zero =>
      intro c v idx
      exact ⟨rfl, rfl, rfl, rfl, rfl⟩
  | succ fuel ih =>
      intro c v idx
      simp only [Glorious.decode_renorm_go, Compression.decode_renorm_go]
      rw [read_bit_agree]
      by_cases h1 : c.high < HALF
      · rw [if_pos h1, if_pos h1]
        exact ih
          { c with low := (c.low <<< 1) % U32, high := ((c.high <<< 1) ||| 1) % U32,
                   value := ((c.value <<< 1) ||| (Glorious.read_bit enc idx L).1) % U32 }
          v (Glorious.read_bit enc idx L).2
      · rw [if_neg h1, if_neg h1]
        by_cases h2 : HALF ≤ c.low
        · rw [if_pos h2, if_pos h2]
          exact ih
            { c with low := ((c.low - HALF) <<< 1) % U32,
                     high := (((c.high - HALF) <<< 1) ||| 1) % U32,
                     value := ((((c.value + (U32 - HALF)) % U32) <<< 1)
                        ||| (Glorious.read_bit enc idx L).1) % U32 }
            v (Glorious.read_bit enc idx L).2
        · rw [if_neg h2, if_neg h2]
          by_cases h3 : QUARTER ≤ c.low ∧ c.high < THREE_QUARTER
          · rw [if_pos h3, if_pos h3]
            exact ih
              { c with low := ((c.low - QUARTER) <<< 1) % U32,
                       high := (((c.high - QUARTER) <<< 1) ||| 1) % U32,
                       value := ((((c.value + (U32 - QUARTER)) % U32) <<< 1)
                          ||| (Glorious.read_bit enc idx L).1) % U32 }
              v (Glorious.read_bit enc idx L).2
          · rw [if_neg h3, if_neg h3]
            exact ⟨rfl, rfl, rfl, rfl, rfl⟩

/-- `decode_renorm` simulation at the entry point. -/
theorem decode_renorm_sim (enc : List Nat) (L : Nat) (c : Coder) (v idx : Nat) :
    Compression.decode_renorm enc L { c with countOnes := v } idx
      = ({ (Glorious.decode_renorm enc L c idx).1 with countOnes := v },
         (Glorious.decode_renorm enc L c idx).2) ∧
    (Glorious.decode_renorm enc L c idx).1.contextBuffer = c.contextBuffer ∧
    (Glorious.decode_renorm enc L c idx).1.contextIndex = c.contextIndex ∧
    (Glorious.decode_renorm enc L c idx).1.contextCapacity = c.contextCapacity ∧
    (Glorious.decode_renorm enc L c idx).1.countOnes = c.countOnes := by
  unfold Glorious.decode_renorm Compression.decode_renorm
  exact decode_renorm_go_sim enc L TOTAL_FREQUENCY c v idx

/-- With matched predictors, the clamped compression prediction on the
stripped state equals the raw glorious prediction on the snapshot. -/
theorem pred_match (g : Nat → Nat → Nat) (predC : (Nat → Nat) → Nat → Nat)
    (hg : ConformingG g) (hpredC : ∀ buf K, predC buf K = g (ctx_ones buf K) K)
    (c : Coder) (K : Nat) (hidx : 0 < K → c.contextIndex < K)
    (hco : c.countOnes % U32 = ctx_ones c.contextBuffer K) :
    Compression.clamp_probability_fixed
      ((predC (Compression.get_current_context_buffer { c with countOnes := 0 } K) K)
        % U32)
      = g (c.countOnes % U32) K := by
  obtain ⟨hg1, hg2⟩ := hg (c.countOnes % U32) K
  rw [hpredC]
  have hrot : ctx_ones
      (Compression.get_current_context_buffer { c with countOnes := 0 } K) K
      = ctx_ones c.contextBuffer K := ctx_ones_gccb { c with countOnes := 0 } K hidx
  rw [hrot, ← hco]
  rw [Nat.mod_eq_of_lt (show g (c.countOnes % U32) K < U32 by
    rw [FIXED_SCALE_eq] at hg2
    exact lt_of_le_of_lt hg2 (by rw [U32_eq]; norm_num))]
  exact c_clamp_id _ hg1 hg2

/-- `decision_bit_c` ignores `countOnes`. -/
theorem decision_bit_c_set_co (c : Coder) (p1 v : Nat) :
    decision_bit_c { c with countOnes := v } p1 = decision_bit_c c p1 := rfl

/-- The glorious decoder step in full: coder via context update, narrowing by
the decision bit and renormalization; decoded buffer written at bit `i`;
cursor from the renormalization loop. -/
theorem g_decode_step_full (pred : Nat → Nat → Nat) (K : Nat) (enc : List Nat)
    (L : Nat) (s : Coder × (Nat → Nat) × Nat) (i : Nat) :
    Glorious.decode_step pred K enc L s i
      = ((Glorious.decode_renorm enc L
            (narrow_interval
              (Glorious.update_context_ring_buffer s.1
                (decision_bit s.1 (pred (s.1.countOnes % U32) K)))
              (pred (s.1.countOnes % U32) K)
              (decision_bit s.1 (pred (s.1.countOnes % U32) K))) s.2.2).1,
         (fun j => if j = i / 8 then
            (if decision_bit s.1 (pred (s.1.countOnes % U32) K) = 1 then
              ((s.2.1 (i / 8)) ||| (1 <<< (7 - i % 8))) % U8
            else ((s.2.1 (i / 8)) &&& ((U32 - 1) ^^^ (1 <<< (7 - i % 8)))) % U8)
          else s.2.1 j),
         (Glorious.decode_renorm enc L
            (narrow_interval
              (Glorious.update_context_ring_buffer s.1
                (decision_bit s.1 (pred (s.1.countOnes % U32) K)))
              (pred (s.1.countOnes % U32) K)
              (decision_bit s.1 (pred (s.1.countOnes % U32) K))) s.2.2).2) := by
  unfold Glorious.decode_step decision_bit narrow_interval
  dsimp only
  simp only [g_update_ctx_low, g_update_ctx_high, shiftRight_three, and_seven]

/-- The compression decoder step in full: narrowing by its decision bit,
context update, renormalization; decoded buffer written at bit `i`. -/
theorem c_decode_step_full (predC : (Nat → Nat) → Nat → Nat) (K : Nat)
    (enc : List Nat) (L : Nat) (s : Coder × (Nat → Nat) × Nat) (i : Nat) :
    Compression.decode_step predC K enc L s i
      = ((Compression.decode_renorm enc L
            (Compression.update_context_ring_buffer
              (narrow_interval s.1
                (Compression.clamp_probability_fixed
                  ((predC (Compression.get_current_context_buffer s.1 K) K) % U32))
                (decision_bit_c s.1
                  (Compression.clamp_probability_fixed
                    ((predC (Compression.get_current_context_buffer s.1 K) K) % U32))))
              (decision_bit_c s.1
                (Compression.clamp_probability_fixed
                  ((predC (Compression.get_current_context_buffer s.1 K) K) % U32))))
            s.2.2).1,
         (fun j => if j = i / 8 then
            (if decision_bit_c s.1
                (Compression.clamp_probability_fixed
                  ((predC (Compression.get_current_context_buffer s.1 K) K) % U32)) = 1
             then ((s.2.1 (i / 8)) ||| (1 <<< (7 - i % 8))) % U8
             else ((s.2.1 (i / 8)) &&& ((U32 - 1) ^^^ (1 <<< (7 - i % 8)))) % U8)
          else s.2.1 j),
         (Compression.decode_renorm enc L
            (Compression.update_context_ring_buffer
              (narrow_interval s.1
                (Compression.clamp_probability_fixed
                  ((predC (Compression.get_current_context_buffer s.1 K) K) % U32))
                (decision_bit_c s.1
                  (Compression.clamp_probability_fixed
                    ((predC (Compression.get_current_context_buffer s.1 K) K) % U32))))
              (decision_bit_c s.1
                (Compression.clamp_probability_fixed
                  ((predC (Compression.get_current_context_buffer s.1 K) K) % U32))))
            s.2.2).2) := by
  have hlt : Compression.clamp_probability_fixed
      ((predC (Compression.get_current_context_buffer s.1 K) K) % U32) % U32
      = Compression.clamp_probability_fixed
          ((predC (Compression.get_current_context_buffer s.1 K) K) % U32) := by
    apply Nat.mod_eq_of_lt
    have h1 := (c_clamp_bounds
      ((predC (Compression.get_current_context_buffer s.1 K) K) % U32)).2
    rw [FIXED_SCALE_eq] at h1
    exact lt_of_le_of_lt h1 (by rw [U32_eq]; norm_num)
  unfold Compression.decode_step decision_bit_c narrow_interval
  dsimp only
  rw [hlt]
  by_cases hsv : ((((s.1.value + (U32 - s.1.low)) % U32 + 1) % U32) * TOTAL_FREQUENCY
        + (U64 - 1)) % U64
      / (((s.1.high + (U32 - s.1.low)) % U32 + 1) % U32)
    < (if ((FIXED_SCALE + (U32 - Compression.clamp_probability_fixed
            ((predC (Compression.get_current_context_buffer s.1 K) K) % U32))) % U32)
          * TOTAL_FREQUENCY / FIXED_SCALE % U32 ≥ TOTAL_FREQUENCY
       then TOTAL_FREQUENCY - 1
       else ((FIXED_SCALE + (U32 - Compression.clamp_probability_fixed
            ((predC (Compression.get_current_context_buffer s.1 K) K) % U32))) % U32)
          * TOTAL_FREQUENCY / FIXED_SCALE % U32)
  · simp only [if_pos hsv]
    simp
  · simp only [if_neg hsv]
    simp

/-- One compression decoder step against one glorious decoder step: with
matched predictors and the glorious coder invariants, the full loop states
(coder up to `countOnes`, decoded buffer, cursor) stay equal, and the context
invariants are maintained. -/
theorem g_c_decode_step_sim (g : Nat → Nat → Nat) (predC : (Nat → Nat) → Nat → Nat)
    (hg : ConformingG g) (hpredC : ∀ buf K, predC buf K = g (ctx_ones buf K) K)
    (K : Nat) (hK : K ≤ 8 * MAX_CONTEXT_BYTES) (enc : List Nat) (L : Nat)
    (s : Coder × (Nat → Nat) × Nat) (i : Nat)
    (hcap : s.1.contextCapacity = K)
    (hidx : 0 < K → s.1.contextIndex < K) (hidx0 : K = 0 → s.1.contextIndex = 0)
    (hco : s.1.countOnes % U32 = ctx_ones s.1.contextBuffer K)
    (hr : RangeInv s.1) (hd : RenormDone s.1) (hv : ValueInv s.1) :
    Compression.decode_step predC K enc L ({ s.1 with countOnes := 0 }, s.2.1, s.2.2) i
      = ({ (Glorious.decode_step g K enc L s i).1 with countOnes := 0 },
         (Glorious.decode_step g K enc L s i).2.1,
         (Glorious.decode_step g K enc L s i).2.2) ∧
    (Glorious.decode_step g K enc L s i).1.contextCapacity = K ∧
    (0 < K → (Glorious.decode_step g K enc L s i).1.contextIndex < K) ∧
    (K = 0 → (Glorious.decode_step g K enc L s i).1.contextIndex = 0) ∧
    (Glorious.decode_step g K enc L s i).1.countOnes % U32
      = ctx_ones (Glorious.decode_step g K enc L s i).1.contextBuffer K := by
  have hKle : K ≤ 2048000 := by
    have hM : MAX_CONTEXT_BYTES = 256000 := rfl
    omega
  have hpred_eq := pred_match g predC hg hpredC s.1 K hidx hco
  have hdec_eq : decision_bit_c s.1 (g (s.1.countOnes % U32) K)
      = decision_bit s.1 (g (s.1.countOnes % U32) K) :=
    decision_bit_c_eq s.1 _ hr hd hv
  have hbit : decision_bit s.1 (g (s.1.countOnes % U32) K) ≤ 1 := by
    unfold decision_bit
    dsimp only
    split <;> split <;> omega
  obtain ⟨nfv, nfo, nfb, nfbb, nfbc, nfcb, nfcc, nfci, nfco⟩ :=
    narrow_fields s.1 (g (s.1.countOnes % U32) K)
      (decision_bit s.1 (g (s.1.countOnes % U32) K))
  obtain ⟨hupd_eq, hupd_co, hupd_idx, hupd_idx0, hupd_cap⟩ :=
    update_ctx_sim
      (narrow_interval s.1 (g (s.1.countOnes % U32) K)
        (decision_bit s.1 (g (s.1.countOnes % U32) K)))
      K (decision_bit s.1 (g (s.1.countOnes % U32) K)) hbit
      (nfcc.trans hcap)
      (fun h => by rw [nfci]; exact hidx h)
      (fun h => by rw [nfci]; exact hidx0 h)
      (by rw [nfco, nfcb]; exact hco)
      hKle
  obtain ⟨hren_eq, hren_cb, hren_ci, hren_cc, hren_co⟩ :=
    decode_renorm_sim enc L
      (Glorious.update_context_ring_buffer
        (narrow_interval s.1 (g (s.1.countOnes % U32) K)
          (decision_bit s.1 (g (s.1.countOnes % U32) K)))
        (decision_bit s.1 (g (s.1.countOnes % U32) K)))
      0 s.2.2
  have hcomm := g_update_narrow_comm s.1
    (decision_bit s.1 (g (s.1.countOnes % U32) K))
    (g (s.1.countOnes % U32) K)
    (decision_bit s.1 (g (s.1.countOnes % U32) K))
  rw [c_decode_step_full, g_decode_step_full]
  dsimp only
  rw [show Compression.get_current_context_buffer ({ s.1 with countOnes := 0 } : Coder) K
      = Compression.get_current_context_buffer { s.1 with countOnes := 0 } K from rfl]
  rw [hpred_eq, decision_bit_c_set_co, hdec_eq, narrow_set_co, hupd_eq, hren_eq]
  rw [hcomm]
  refine ⟨rfl, ?_, ?_, ?_, ?_⟩
  · rw [← hcomm, hren_cc, hupd_cap]
  · intro h
    rw [← hcomm, hren_ci]
    exact hupd_idx h
  · intro h
    rw [← hcomm, hren_ci]
    exact hupd_idx0 h
  · rw [← hcomm, hren_co, hren_cb]
    exact hupd_co

/-- Unfolding one step of the compression decoder's fold. -/
theorem c_decode_fold_succ (predC : (Nat → Nat) → Nat → Nat) (K : Nat)
    (enc : List Nat) (L : Nat) (s0 : Coder × (Nat → Nat) × Nat) (n : Nat) :
    (List.range (n + 1)).foldl (Compression.decode_step predC K enc L) s0 =
      Compression.decode_step predC K enc L
        ((List.range n).foldl (Compression.decode_step predC K enc L) s0) n := by
  rw [List.range_succ, List.foldl_append]
  rfl

/-- The whole compression decoder fold tracks the glorious one: at every loop
entry the states agree except that the glorious `count_ones` accumulator is
replaced by zero, and the glorious state keeps its context invariants. -/
theorem g_c_decode_fold_sim (g : Nat → Nat → Nat) (predC : (Nat → Nat) → Nat → Nat)
    (hg : ConformingG g) (hpredC : ∀ buf K, predC buf K = g (ctx_ones buf K) K)
    (K : Nat) (hK : K ≤ 8 * MAX_CONTEXT_BYTES) (enc : List Nat) (L : Nat)
    (dec0 : Nat → Nat) :
    ∀ n,
      (List.range n).foldl (Compression.decode_step predC K enc L)
        ({ Glorious.init_coder K with
            value := (Glorious.prime_loop enc L PRECISION (0, 0)).1 },
          dec0, (Glorious.prime_loop enc L PRECISION (0, 0)).2)
      = ({ ((List.range n).foldl (Glorious.decode_step g K enc L)
            ({ Glorious.init_coder K with
                value := (Glorious.prime_loop enc L PRECISION (0, 0)).1 },
              dec0, (Glorious.prime_loop enc L PRECISION (0, 0)).2)).1
            with countOnes := 0 },
         ((List.range n).foldl (Glorious.decode_step g K enc L)
            ({ Glorious.init_coder K with
                value := (Glorious.prime_loop enc L PRECISION (0, 0)).1 },
              dec0, (Glorious.prime_loop enc L PRECISION (0, 0)).2)).2.1,
         ((List.range n).foldl (Glorious.decode_step g K enc L)
            ({ Glorious.init_coder K with
                value := (Glorious.prime_loop enc L PRECISION (0, 0)).1 },
              dec0, (Glorious.prime_loop enc L PRECISION (0, 0)).2)).2.2) ∧
      ((List.range n).foldl (Glorious.decode_step g K enc L)
        ({ Glorious.init_coder K with
            value := (Glorious.prime_loop enc L PRECISION (0, 0)).1 },
          dec0, (Glorious.prime_loop enc L PRECISION (0, 0)).2)).1.contextCapacity
        = K ∧
      (0 < K → ((List.range n).foldl (Glorious.decode_step g K enc L)
        ({ Glorious.init_coder K with
            value := (Glorious.prime_loop enc L PRECISION (0, 0)).1 },
          dec0, (Glorious.prime_loop enc L PRECISION (0, 0)).2)).1.contextIndex < K) ∧
      (K = 0 → ((List.range n).foldl (Glorious.decode_step g K enc L)
        ({ Glorious.init_coder K with
            value := (Glorious.prime_loop enc L PRECISION (0, 0)).1 },
          dec0, (Glorious.prime_loop enc L PRECISION (0, 0)).2)).1.contextIndex = 0) ∧
      ((List.range n).foldl (Glorious.decode_step g K enc L)
        ({ Glorious.init_coder K with
            value := (Glorious.prime_loop enc L PRECISION (0, 0)).1 },
          dec0, (Glorious.prime_loop enc L PRECISION (0, 0)).2)).1.countOnes % U32
        = ctx_ones ((List.range n).foldl (Glorious.decode_step g K enc L)
            ({ Glorious.init_coder K with
                value := (Glorious.prime_loop enc L PRECISION (0, 0)).1 },
              dec0, (Glorious.prime_loop enc L PRECISION (0, 0)).2)).1.contextBuffer
            K := by
  intro n
  induction n with
  | zero =>
      simp only [List.range_zero, List.foldl_nil]
      refine ⟨rfl, rfl, fun h => h, fun _ => rfl, ?_⟩
      show (0 : Nat) % U32 = ctx_ones (fun _ => 0) K
      rw [ctx_ones_zero, Nat.zero_mod]
  | succ n ih =>
      obtain ⟨hEq, hCap, hIdx, hIdx0, hCo⟩ := ih
      obtain ⟨hR, hD, hV⟩ := g_decode_entry_inv g hg enc L dec0 K n
      rw [c_decode_fold_succ, g_decode_fold_succ, hEq]
      exact g_c_decode_step_sim g predC hg hpredC K hK enc L _ n hCap hIdx hIdx0
        hCo hR hD hV

/-- **C5** (variant equivalence): for every input sequence, bit length, and
context length `K` within the context buffer's capacity (`K ≤ 8 *
MAX_CONTEXT_BYTES`), if the glorious coder is driven by a conforming
predictor `g` of (popcount of the context, `K`) and the compression coder by
a buffer predictor computing the same function of the number of ones in its
unpacked context buffer, then the glorious ring-buffer/running-popcount
`arithmetic_encode` and the compression unpack-and-scan `arithmetic_encode`
produce identical encoded byte output, and the two `arithmetic_decode`
functions produce identical decoded buffers. -/
theorem c5_variant_equivalence (g : Nat → Nat → Nat)
    (predC : (Nat → Nat) → Nat → Nat) (hg : ConformingG g)
    (hpredC : ∀ buf K, predC buf K = g (ctx_ones buf K) K)
    (K : Nat) (hK : K ≤ 8 * MAX_CONTEXT_BYTES)
    (seq : List Nat) (N : Nat) (enc : List Nat) (L : Nat) (dec0 : Nat → Nat)
    (M : Nat) :
    Compression.arithmetic_encode seq N K predC
      = Glorious.arithmetic_encode seq N K g ∧
    Compression.arithmetic_decode enc L dec0 M K predC
      = Glorious.arithmetic_decode enc L dec0 M K g := by
  constructor
  · obtain ⟨hEq, hBuf, _, _, _, _⟩ := g_c_encode_loop_sim g predC hg hpredC K hK seq N
    unfold Compression.arithmetic_encode Glorious.arithmetic_encode
    rw [hEq, encode_finish_sim _ hBuf]
  · unfold Compression.arithmetic_decode Glorious.arithmetic_decode
    dsimp only
    rw [prime_loop_agree]
    rw [(g_c_decode_fold_sim g predC hg hpredC K hK enc L dec0 M).1]

/-- Concrete instance of the variant equivalence: the constant predictor 1 on
the byte `0xCA` with a two-bit context. -/
theorem c5_variant_equivalence_witness :
    Compression.arithmetic_encode [0xCA] 8 2 (fun _ _ => 1)
      = Glorious.arithmetic_encode [0xCA] 8 2 (fun _ _ => 1) ∧
    Compression.arithmetic_decode [0xCA] 1 (fun _ => 0) 4 2 (fun _ _ => 1)
      = Glorious.arithmetic_decode [0xCA] 1 (fun _ => 0) 4 2 (fun _ _ => 1) := by
  have hc : ConformingG (fun _ _ => 1) := by
    intro ones K
    refine ⟨Nat.le_refl 1, ?_⟩
    show (1 : Nat) ≤ FIXED_SCALE - 1
    decide
  exact c5_variant_equivalence (fun _ _ => 1) (fun _ _ => 1) hc
    (fun _ _ => rfl) 2 (by decide) [0xCA] 8 [0xCA] 1 (fun _ => 0) 4

/-! ## C1: round trip.  Stream and bit-list values -/

theorem bitsVal_from (l : List Nat) : ∀ a : Nat,
    l.foldl (fun x b => 2 * x + b) a = a * 2 ^ l.length + bitsVal l := by
  induction l with
  | nil => intro a; simp [bitsVal]
  | cons b t ih =>
      intro a
      have hb : bitsVal (b :: t) = b * 2 ^ t.length + bitsVal t := by
        show t.foldl (fun x c => 2 * x + c) (2 * 0 + b) = _
        rw [ih (2 * 0 + b)]
        norm_num
      show t.foldl (fun x c => 2 * x + c) (2 * a + b)
          = a * 2 ^ (b :: t).length + bitsVal (b :: t)
      rw [ih (2 * a + b), hb, List.length_cons]
      ring

theorem bitsVal_nil : bitsVal [] = 0 := rfl

theorem bitsVal_append (l1 l2 : List Nat) :
    bitsVal (l1 ++ l2) = bitsVal l1 * 2 ^ l2.length + bitsVal l2 := by
  unfold bitsVal
  rw [List.foldl_append, bitsVal_from l2 (List.foldl (fun x b => 2 * x + b) 0 l1)]
  rfl

theorem bitsVal_singleton (b : Nat) : bitsVal [b] = b := by
  unfold bitsVal
  simp

theorem bitsVal_replicate_zero (n : Nat) : bitsVal (List.replicate n 0) = 0 := by
  induction n with
  | zero => rfl
  | succ n ih =>
      rw [List.replicate_succ, show (0 : Nat) :: List.replicate n 0
          = [0] ++ List.replicate n 0 from rfl, bitsVal_append, ih, bitsVal_singleton]
      simp

theorem bitsVal_replicate_one (n : Nat) : bitsVal (List.replicate n 1) = 2 ^ n - 1 := by
  induction n with
  | zero => rfl
  | succ n ih =>
      rw [List.replicate_succ, show (1 : Nat) :: List.replicate n 1
          = [1] ++ List.replicate n 1 from rfl, bitsVal_append, ih, bitsVal_singleton,
        List.length_replicate]
      have h1 : (1 : Nat) ≤ 2 ^ n := Nat.one_le_two_pow
      have h2 : (2 : Nat) ^ (n + 1) = 2 * 2 ^ n := by rw [Nat.pow_succ]; ring
      omega

theorem bytesToBits_length (bs : List Nat) :
    (bytesToBits bs).length = 8 * bs.length := by
  induction bs with
  | nil => rfl
  | cons b t ih =>
      show (byteToBits b ++ bytesToBits t).length = _
      rw [List.length_append, ih]
      show 8 + 8 * t.length = 8 * (t.length + 1)
      ring

theorem bufBits_length (buf cnt : Nat) : (bufBits buf cnt).length = cnt := by
  unfold bufBits
  simp

theorem emit_bits_length (c : Coder) : (emit_bits c).length = emitLen c := by
  unfold emit_bits emitLen
  rw [List.length_append, bytesToBits_length, bufBits_length]

theorem stream_val_succ (σ : List Nat) (n : Nat) :
    stream_val σ (n + 1) = 2 * stream_val σ n + σ.getD n 0 := rfl

theorem stream_val_take (σ : List Nat) : ∀ n, n ≤ σ.length →
    stream_val σ n = bitsVal (σ.take n) := by
  intro n
  induction n with
  | zero => intro h; rfl
  | succ n ih =>
      intro h
      have hn : n < σ.length := by omega
      rw [stream_val_succ, ih (by omega), List.take_succ]
      have hget : σ[n]?.toList = [σ.getD n 0] := by
        rw [List.getElem?_eq_getElem hn]
        simp [List.getD, List.getElem?_eq_getElem hn]
      rw [hget, bitsVal_append, bitsVal_singleton]
      simp
      ring

theorem stream_val_full (σ : List Nat) : stream_val σ σ.length = bitsVal σ := by
  rw [stream_val_take σ σ.length (Nat.le_refl _), List.take_length]

theorem stream_val_past (σ : List Nat) : ∀ k,
    stream_val σ (σ.length + k) = bitsVal σ * 2 ^ k := by
  intro k
  induction k with
  | zero => simpa using stream_val_full σ
  | succ k ih =>
      rw [show σ.length + (k + 1) = (σ.length + k) + 1 from rfl, stream_val_succ, ih]
      have hget : σ.getD (σ.length + k) 0 = 0 :=
        List.getD_eq_default σ 0 (by omega)
      rw [hget, Nat.pow_succ]
      ring

theorem stream_val_lt (σ : List Nat) (hσ : ∀ j, σ.getD j 0 ≤ 1) :
    ∀ n, stream_val σ n < 2 ^ n := by
  intro n
  induction n with
  | zero => simp [stream_val]
  | succ n ih =>
      rw [stream_val_succ]
      have := hσ n
      have h2 : (2 : Nat) ^ (n + 1) = 2 * 2 ^ n := by rw [Nat.pow_succ]; ring
      omega

theorem byteToBits_getD (b j : Nat) (hj : j < 8) :
    (byteToBits b).getD j 0 = (b >>> (7 - j)) &&& 1 := by
  unfold byteToBits
  rw [List.getD_eq_getElem _ _ (by simpa using hj)]
  simp

theorem bytesToBits_getD (bs : List Nat) : ∀ j,
    (bytesToBits bs).getD j 0 = bitOfBytes bs j := by
  induction bs with
  | nil =>
      intro j
      show ([] : List Nat).getD j 0 = _
      unfold bitOfBytes
      simp
  | cons b t ih =>
      intro j
      show (byteToBits b ++ bytesToBits t).getD j 0 = _
      by_cases hj : j < 8
      · rw [List.getD_append _ _ _ _ (by simp [byteToBits]; omega)]
        rw [byteToBits_getD b j hj]
        unfold bitOfBytes
        have h1 : j / 8 = 0 := Nat.div_eq_of_lt hj
        have h2 : j % 8 = j := Nat.mod_eq_of_lt hj
        rw [h1, h2]
        rfl
      · rw [List.getD_append_right _ _ _ _ (by simp [byteToBits]; omega)]
        have hlen : (byteToBits b).length = 8 := by simp [byteToBits]
        rw [hlen, ih (j - 8)]
        unfold bitOfBytes
        have h1 : j / 8 = (j - 8) / 8 + 1 := by omega
        have h2 : j % 8 = (j - 8) % 8 := by omega
        rw [h1, h2]
        rfl

theorem bytes_stream_le_one (bs : List Nat) (j : Nat) :
    (bytesToBits bs).getD j 0 ≤ 1 := by
  rw [bytesToBits_getD]
  unfold bitOfBytes
  exact and_one_le_one _

theorem read_bit_min (out : List Nat) (n : Nat) :
    Glorious.read_bit out (min n (8 * out.length)) out.length
      = ((bytesToBits out).getD n 0, min (n + 1) (8 * out.length)) := by
  unfold Glorious.read_bit
  dsimp only
  by_cases h : n < 8 * out.length
  · have hmin : min n (8 * out.length) = n := by omega
    have hpos : ¬ (n >>> 3 ≥ out.length) := by
      rw [shiftRight_three]
      omega
    rw [hmin, if_neg hpos, bytesToBits_getD]
    unfold bitOfBytes
    rw [shiftRight_three, and_seven]
    have hmin2 : min (n + 1) (8 * out.length) = n + 1 := by omega
    rw [hmin2]
  · have hmin : min n (8 * out.length) = 8 * out.length := by omega
    have hpos : (8 * out.length) >>> 3 = out.length := by
      rw [shiftRight_three]
      omega
    rw [hmin, hpos, if_pos (Nat.le_refl _)]
    have hget : (bytesToBits out).getD n 0 = 0 :=
      List.getD_eq_default _ 0 (by rw [bytesToBits_length]; omega)
    have hmin2 : min (n + 1) (8 * out.length) = 8 * out.length := by omega
    rw [hget, hmin2]

theorem prime_loop_stream (out : List Nat) :
    ∀ (n j : Nat), j + n ≤ 31 →
      Glorious.prime_loop out out.length n
          (stream_val (bytesToBits out) j, min j (8 * out.length))
        = (stream_val (bytesToBits out) (j + n), min (j + n) (8 * out.length)) := by
  intro n
  induction n with
  | zero => intro j h; rfl
  | succ n ih =>
      intro j h
      show Glorious.prime_loop out out.length n _ = _
      rw [read_bit_min out j]
      have hval : ((stream_val (bytesToBits out) j <<< 1) |||
          (bytesToBits out).getD j 0) % U32 = stream_val (bytesToBits out) (j + 1) := by
        rw [shiftLeft_one, two_mul_or_bit _ _ (bytes_stream_le_one out j)]
        rw [show 2 * stream_val (bytesToBits out) j + (bytesToBits out).getD j 0
            = stream_val (bytesToBits out) (j + 1) from (stream_val_succ _ j).symm]
        have hlt : stream_val (bytesToBits out) (j + 1) < 2 ^ (j + 1) :=
          stream_val_lt _ (bytes_stream_le_one out) (j + 1)
        have h31 : (2 : Nat) ^ (j + 1) ≤ 2 ^ 31 :=
          Nat.pow_le_pow_right (by norm_num) (by omega)
        rw [U32_eq]
        have : (2 : Nat) ^ 31 = 2147483648 := by norm_num
        omega
      rw [hval, ih (j + 1) (by omega)]
      have : j + 1 + n = j + (n + 1) := by omega
      rw [this]

theorem prime_init (out : List Nat) :
    Glorious.prime_loop out out.length PRECISION (0, 0)
      = (stream_val (bytesToBits out) 31, min 31 (8 * out.length)) := by
  have h := prime_loop_stream out 31 0 (by omega)
  rw [PRECISION_eq]
  have h0 : stream_val (bytesToBits out) 0 = 0 := rfl
  have hm : min 0 (8 * out.length) = 0 := by omega
  rw [h0, hm] at h
  simpa using h

theorem bitsVal_cons (b : Nat) (l : List Nat) :
    bitsVal (b :: l) = b * 2 ^ l.length + bitsVal l := by
  rw [show b :: l = [b] ++ l from rfl, bitsVal_append, bitsVal_singleton]

/-- `bstate` and `shiftCount` only read the output accumulator and the
pending-bit counter. -/
theorem bstate_congr (c d : Coder) (ho : d.output = c.output)
    (hbb : d.bitBuffer = c.bitBuffer) (hbc : d.bitCount = c.bitCount)
    (hbtf : d.bitsToFollow = c.bitsToFollow) :
    bstate d = bstate c ∧ shiftCount d = shiftCount c := by
  unfold bstate shiftCount emitLen emit_bits
  rw [ho, hbb, hbc, hbtf]
  exact ⟨rfl, rfl⟩

/-- The emitting renormalization cases (`output_bit` then
`output_following_bits` with the complement): one new bit `b` followed by the
pending complements lands on the stream; interval, value and context fields
are untouched. -/
theorem emit_caseAB (c : Coder) (b : Nat) (hb1 : b ≤ 1) (h : BufInv c) :
    emit_bits (Glorious.output_following_bits (output_bit c b) (1 - b))
      = emit_bits c ++ b :: List.replicate c.bitsToFollow (1 - b) ∧
    (Glorious.output_following_bits (output_bit c b) (1 - b)).bitsToFollow = 0 ∧
    BufInv (Glorious.output_following_bits (output_bit c b) (1 - b)) ∧
    (Glorious.output_following_bits (output_bit c b) (1 - b)).value = c.value ∧
    (Glorious.output_following_bits (output_bit c b) (1 - b)).contextBuffer
      = c.contextBuffer ∧
    (Glorious.output_following_bits (output_bit c b) (1 - b)).contextIndex
      = c.contextIndex ∧
    (Glorious.output_following_bits (output_bit c b) (1 - b)).countOnes
      = c.countOnes ∧
    (Glorious.output_following_bits (output_bit c b) (1 - b)).contextCapacity
      = c.contextCapacity := by
  obtain ⟨he, hb'⟩ := output_bit_emit c b h
  have hband : b &&& 1 = b := by rw [Nat.and_one_is_mod]; omega
  have hcband : (1 - b) &&& 1 = 1 - b := by rw [Nat.and_one_is_mod]; omega
  rw [g_ofb_eq _ _ hb']
  obtain ⟨hE, hB, hlow, hhigh, hval, hbtf2, hcb, hcc, hci, hco⟩ :=
    emit_list_emit (List.replicate (output_bit c b).bitsToFollow (1 - b))
      (output_bit c b) hb'
  refine ⟨?_, rfl, ⟨hB.1, hB.2⟩, ?_, ?_, ?_, ?_, ?_⟩
  · show emit_bits (emit_list (output_bit c b)
        (List.replicate (output_bit c b).bitsToFollow (1 - b))) = _
    rw [hE, he]
    simp only [List.map_replicate]
    rw [hcband, output_bit_bitsToFollow, hband, List.append_assoc]
    rfl
  · show (emit_list (output_bit c b)
        (List.replicate (output_bit c b).bitsToFollow (1 - b))).value = _
    rw [hval, output_bit_value]
  · show (emit_list (output_bit c b)
        (List.replicate (output_bit c b).bitsToFollow (1 - b))).contextBuffer = _
    rw [hcb, output_bit_contextBuffer]
  · show (emit_list (output_bit c b)
        (List.replicate (output_bit c b).bitsToFollow (1 - b))).contextIndex = _
    rw [hci, output_bit_contextIndex]
  · show (emit_list (output_bit c b)
        (List.replicate (output_bit c b).bitsToFollow (1 - b))).countOnes = _
    rw [hco, output_bit_countOnes]
  · show (emit_list (output_bit c b)
        (List.replicate (output_bit c b).bitsToFollow (1 - b))).contextCapacity = _
    rw [hcc, output_bit_contextCapacity]

/-- Scaling-offset recurrence for the emitting renormalization cases:
emitting bit `b` (plus pending complements) doubles the offset and adds
`b * TOTAL_FREQUENCY`; the shift count grows by one. -/
theorem bstate_caseAB (c : Coder) (b : Nat) (hb1 : b ≤ 1) (h : BufInv c) :
    bstate (Glorious.output_following_bits (output_bit c b) (1 - b))
      = 2 * bstate c + b * TOTAL_FREQUENCY ∧
    shiftCount (Glorious.output_following_bits (output_bit c b) (1 - b))
      = shiftCount c + 1 := by
  obtain ⟨hE, hbtf, hB, _⟩ := emit_caseAB c b hb1 h
  constructor
  · unfold bstate
    rw [hE, hbtf, bitsVal_append, bitsVal_cons, List.length_cons,
      List.length_replicate]
    have hy : ∃ y, (2:Nat) ^ c.bitsToFollow = y + 1 :=
      ⟨2 ^ c.bitsToFollow - 1, by
        have h1 : (1:Nat) ≤ 2 ^ c.bitsToFollow := Nat.one_le_two_pow
        omega⟩
    obtain ⟨y, hy⟩ := hy
    have hpow : (2:Nat) ^ (c.bitsToFollow + 1) = 2 * (y + 1) := by
      rw [Nat.pow_succ, hy]; ring
    have hb01 : b = 0 ∨ b = 1 := by omega
    rcases hb01 with rfl | rfl
    · rw [bitsVal_replicate_one, hy, hpow, TOTAL_FREQUENCY_eq, HALF_eq]
      simp only [Nat.add_sub_cancel, pow_zero, Nat.sub_self]
      ring
    · rw [bitsVal_replicate_zero, hy, hpow, TOTAL_FREQUENCY_eq, HALF_eq]
      simp only [Nat.add_sub_cancel, pow_zero, Nat.sub_self]
      ring
  · have h1 : emitLen (Glorious.output_following_bits (output_bit c b) (1 - b))
        = (emit_bits (Glorious.output_following_bits (output_bit c b) (1 - b))).length :=
      (emit_bits_length _).symm
    have h2 : emitLen c = (emit_bits c).length := (emit_bits_length c).symm
    unfold shiftCount
    rw [h1, h2, hE, hbtf, List.length_append, List.length_cons,
      List.length_replicate]
    omega

/-- Scaling-offset recurrence for the pending (`bits_to_follow++`) case:
the offset doubles and gains `HALF`; the shift count grows by one. -/
theorem bstate_caseC (c : Coder) (lo hi : Nat) :
    bstate { c with bitsToFollow := c.bitsToFollow + 1, low := lo, high := hi }
      = 2 * bstate c + HALF ∧
    shiftCount { c with bitsToFollow := c.bitsToFollow + 1, low := lo, high := hi }
      = shiftCount c + 1 := by
  have hEB : emit_bits
      { c with bitsToFollow := c.bitsToFollow + 1, low := lo, high := hi }
      = emit_bits c := rfl
  constructor
  · unfold bstate
    rw [hEB]
    show TOTAL_FREQUENCY * bitsVal (emit_bits c) * 2 ^ (c.bitsToFollow + 1)
        + HALF * (2 ^ (c.bitsToFollow + 1) - 1) = _
    have hy : ∃ y, (2:Nat) ^ c.bitsToFollow = y + 1 :=
      ⟨2 ^ c.bitsToFollow - 1, by
        have h1 : (1:Nat) ≤ 2 ^ c.bitsToFollow := Nat.one_le_two_pow
        omega⟩
    obtain ⟨y, hy⟩ := hy
    have hpow : (2:Nat) ^ (c.bitsToFollow + 1) = 2 * (y + 1) := by
      rw [Nat.pow_succ, hy]; ring
    rw [hy, hpow, TOTAL_FREQUENCY_eq, HALF_eq]
    have hsub : 2 * (y + 1) - 1 = 2 * y + 1 := by omega
    rw [hsub, Nat.add_sub_cancel]
    ring
  · unfold shiftCount emitLen
    show 8 * c.output.length + c.bitCount + (c.bitsToFollow + 1) = _
    omega

theorem shift_clean0 (x : Nat) (hx : x < TOTAL_FREQUENCY) :
    (x <<< 1) % U32 = 2 * x := by
  rw [shiftLeft_one, U32_eq]
  rw [TOTAL_FREQUENCY_eq] at hx
  omega

theorem shift_clean1 (x e : Nat) (hx : x < TOTAL_FREQUENCY) (he : e ≤ 1) :
    ((x <<< 1) ||| e) % U32 = 2 * x + e := by
  rw [shiftLeft_one, two_mul_or_bit x e he, U32_eq]
  rw [TOTAL_FREQUENCY_eq] at hx
  omega

/-- Emitting-case facts specialized to bit 0 (the `high < HALF` case). -/
theorem case0_facts (c : Coder) (h : BufInv c) :
    bstate (Glorious.output_following_bits (output_bit c 0) 1) = 2 * bstate c ∧
    shiftCount (Glorious.output_following_bits (output_bit c 0) 1)
      = shiftCount c + 1 ∧
    BufInv (Glorious.output_following_bits (output_bit c 0) 1) ∧
    (Glorious.output_following_bits (output_bit c 0) 1).value = c.value ∧
    (Glorious.output_following_bits (output_bit c 0) 1).contextBuffer
      = c.contextBuffer ∧
    (Glorious.output_following_bits (output_bit c 0) 1).contextIndex
      = c.contextIndex ∧
    (Glorious.output_following_bits (output_bit c 0) 1).countOnes = c.countOnes ∧
    (Glorious.output_following_bits (output_bit c 0) 1).contextCapacity
      = c.contextCapacity := by
  obtain ⟨h1, h2⟩ := bstate_caseAB c 0 (by omega) h
  obtain ⟨hE, hbtf, hB, hv, hcb, hci, hco, hcc⟩ := emit_caseAB c 0 (by omega) h
  exact ⟨h1, h2, hB, hv, hcb, hci, hco, hcc⟩

/-- Emitting-case facts specialized to bit 1 (the `low ≥ HALF` case). -/
theorem case1_facts (c : Coder) (h : BufInv c) :
    bstate (Glorious.output_following_bits (output_bit c 1) 0)
      = 2 * bstate c + TOTAL_FREQUENCY ∧
    shiftCount (Glorious.output_following_bits (output_bit c 1) 0)
      = shiftCount c + 1 ∧
    BufInv (Glorious.output_following_bits (output_bit c 1) 0) ∧
    (Glorious.output_following_bits (output_bit c 1) 0).value = c.value ∧
    (Glorious.output_following_bits (output_bit c 1) 0).contextBuffer
      = c.contextBuffer ∧
    (Glorious.output_following_bits (output_bit c 1) 0).contextIndex
      = c.contextIndex ∧
    (Glorious.output_following_bits (output_bit c 1) 0).countOnes = c.countOnes ∧
    (Glorious.output_following_bits (output_bit c 1) 0).contextCapacity
      = c.contextCapacity := by
  obtain ⟨h1, h2⟩ := bstate_caseAB c 1 (by omega) h
  obtain ⟨hE, hbtf, hB, hv, hcb, hci, hco, hcc⟩ := emit_caseAB c 1 (by omega) h
  refine ⟨?_, h2, hB, hv, hcb, hci, hco, hcc⟩
  rw [h1]
  ring

/-- One renormalization shift, seen backwards: if the streamed number lies in
the shifted state's window, it lies in the original state's window. -/
theorem stream_bound_back_shift (σ : List Nat) (hσ : ∀ j, σ.getD j 0 ≤ 1)
    (c c' : Coder) (d : Nat)
    (hB : bstate c' = 2 * bstate c + 2 * d)
    (hs : shiftCount c' = shiftCount c + 1)
    (hl : c'.low = 2 * (c.low - d)) (hh : c'.high = 2 * (c.high - d) + 1)
    (hdl : d ≤ c.low) (hdh : d ≤ c.high)
    (hbound : StreamBound σ c') : StreamBound σ c := by
  obtain ⟨h1, h2⟩ := hbound
  rw [hs, hB, hl] at h1
  rw [hs, hB, hh] at h2
  have hsucc : stream_val σ (shiftCount c + 1 + 31)
      = 2 * stream_val σ (shiftCount c + 31) + σ.getD (shiftCount c + 31) 0 := by
    rw [show shiftCount c + 1 + 31 = (shiftCount c + 31) + 1 by omega, stream_val_succ]
  have hβ := hσ (shiftCount c + 31)
  rw [hsucc] at h1 h2
  constructor
  · omega
  · omega

/-- The whole renormalization loop, seen backwards: a stream landing in the
fully renormalized window also lands in the pre-renormalization window. -/
theorem renorm_bound_back (σ : List Nat) (hσ : ∀ j, σ.getD j 0 ≤ 1) :
    ∀ (fuel : Nat) (c : Coder), BufInv c → RangeInv c →
      StreamBound σ (Glorious.encode_renorm_go fuel c) → StreamBound σ c := by
  intro fuel
  induction fuel with
  | zero =>
      intro c hb hr h
      simpa only [Glorious.encode_renorm_go] using h
  | succ fuel ih =>
      intro c hb hr h
      obtain ⟨hlh, hhi⟩ := hr
      rw [TOTAL_FREQUENCY_eq] at hhi
      simp only [Glorious.encode_renorm_go] at h
      by_cases h1 : c.high < HALF
      · rw [if_pos h1] at h
        rw [HALF_eq] at h1
        obtain ⟨hb0, hs0, hB0, _⟩ := case0_facts c hb
        have hcl : (c.low <<< 1) % U32 = 2 * c.low :=
          shift_clean0 c.low (by rw [TOTAL_FREQUENCY_eq]; omega)
        have hch : ((c.high <<< 1) ||| 1) % U32 = 2 * c.high + 1 :=
          shift_clean1 c.high 1 (by rw [TOTAL_FREQUENCY_eq]; omega) (by omega)
        have hrec : RangeInv { Glorious.output_following_bits (output_bit c 0) 1 with
            low := (c.low <<< 1) % U32, high := ((c.high <<< 1) ||| 1) % U32 } := by
          refine ⟨?_, ?_⟩
          · show (c.low <<< 1) % U32 ≤ ((c.high <<< 1) ||| 1) % U32
            rw [hcl, hch]
            omega
          · show ((c.high <<< 1) ||| 1) % U32 < TOTAL_FREQUENCY
            rw [hch, TOTAL_FREQUENCY_eq]
            omega
        have hbuf : BufInv { Glorious.output_following_bits (output_bit c 0) 1 with
            low := (c.low <<< 1) % U32, high := ((c.high <<< 1) ||| 1) % U32 } :=
          ⟨hB0.1, hB0.2⟩
        have hA := ih _ hbuf hrec h
        obtain ⟨hbc, hsc⟩ := bstate_congr (Glorious.output_following_bits (output_bit c 0) 1)
          { Glorious.output_following_bits (output_bit c 0) 1 with
            low := (c.low <<< 1) % U32, high := ((c.high <<< 1) ||| 1) % U32 } rfl rfl rfl rfl
        refine stream_bound_back_shift σ hσ c _ 0 ?_ ?_ ?_ ?_ (by omega) (by omega) hA
        · rw [hbc, hb0]
          omega
        · rw [hsc, hs0]
        · show (c.low <<< 1) % U32 = 2 * (c.low - 0)
          rw [hcl]
          omega
        · show ((c.high <<< 1) ||| 1) % U32 = 2 * (c.high - 0) + 1
          rw [hch]
          omega
      · rw [if_neg h1] at h
        rw [HALF_eq] at h1
        by_cases h2 : HALF ≤ c.low
        · rw [if_pos h2] at h
          rw [HALF_eq] at h2
          obtain ⟨hb1, hs1, hB1, _⟩ := case1_facts c hb
          have hcl : ((c.low - HALF) <<< 1) % U32 = 2 * (c.low - HALF) :=
            shift_clean0 (c.low - HALF) (by rw [TOTAL_FREQUENCY_eq, HALF_eq]; omega)
          have hch : (((c.high - HALF) <<< 1) ||| 1) % U32 = 2 * (c.high - HALF) + 1 :=
            shift_clean1 (c.high - HALF) 1
              (by rw [TOTAL_FREQUENCY_eq, HALF_eq]; omega) (by omega)
          have hrec : RangeInv { Glorious.output_following_bits (output_bit c 1) 0 with
              low := ((c.low - HALF) <<< 1) % U32,
              high := (((c.high - HALF) <<< 1) ||| 1) % U32 } := by
            refine ⟨?_, ?_⟩
            · show ((c.low - HALF) <<< 1) % U32 ≤ (((c.high - HALF) <<< 1) ||| 1) % U32
              rw [hcl, hch, HALF_eq]
              omega
            · show (((c.high - HALF) <<< 1) ||| 1) % U32 < TOTAL_FREQUENCY
              rw [hch, TOTAL_FREQUENCY_eq, HALF_eq]
              omega
          have hbuf : BufInv { Glorious.output_following_bits (output_bit c 1) 0 with
              low := ((c.low - HALF) <<< 1) % U32,
              high := (((c.high - HALF) <<< 1) ||| 1) % U32 } :=
            ⟨hB1.1, hB1.2⟩
          have hA := ih _ hbuf hrec h
          obtain ⟨hbc, hsc⟩ := bstate_congr (Glorious.output_following_bits (output_bit c 1) 0)
            { Glorious.output_following_bits (output_bit c 1) 0 with
              low := ((c.low - HALF) <<< 1) % U32,
              high := (((c.high - HALF) <<< 1) ||| 1) % U32 } rfl rfl rfl rfl
          refine stream_bound_back_shift σ hσ c _ HALF ?_ ?_ ?_ ?_
            (by rw [HALF_eq]; omega) (by rw [HALF_eq]; omega) hA
          · rw [hbc, hb1, TOTAL_FREQUENCY_eq, HALF_eq]
          · rw [hsc, hs1]
          · show ((c.low - HALF) <<< 1) % U32 = 2 * (c.low - HALF)
            exact hcl
          · show (((c.high - HALF) <<< 1) ||| 1) % U32 = 2 * (c.high - HALF) + 1
            exact hch
        · rw [if_neg h2] at h
          rw [HALF_eq] at h2
          by_cases h3 : QUARTER ≤ c.low ∧ c.high < THREE_QUARTER
          · rw [if_pos h3] at h
            rw [QUARTER_eq, THREE_QUARTER_eq] at h3
            have hcl : ((c.low - QUARTER) <<< 1) % U32 = 2 * (c.low - QUARTER) :=
              shift_clean0 (c.low - QUARTER) (by rw [TOTAL_FREQUENCY_eq, QUARTER_eq]; omega)
            have hch : (((c.high - QUARTER) <<< 1) ||| 1) % U32
                = 2 * (c.high - QUARTER) + 1 :=
              shift_clean1 (c.high - QUARTER) 1
                (by rw [TOTAL_FREQUENCY_eq, QUARTER_eq]; omega) (by omega)
            obtain ⟨hbC, hsC⟩ := bstate_caseC c
              (((c.low - QUARTER) <<< 1) % U32) ((((c.high - QUARTER) <<< 1) ||| 1) % U32)
            have hrec : RangeInv
                { c with
                    bitsToFollow := c.bitsToFollow + 1,
                    low := ((c.low - QUARTER) <<< 1) % U32,
                    high := (((c.high - QUARTER) <<< 1) ||| 1) % U32 } := by
              refine ⟨?_, ?_⟩
              · show ((c.low - QUARTER) <<< 1) % U32 ≤ (((c.high - QUARTER) <<< 1) ||| 1) % U32
                rw [hcl, hch, QUARTER_eq]
                omega
              · show (((c.high - QUARTER) <<< 1) ||| 1) % U32 < TOTAL_FREQUENCY
                rw [hch, TOTAL_FREQUENCY_eq, QUARTER_eq]
                omega
            have hbuf : BufInv
                { c with
                    bitsToFollow := c.bitsToFollow + 1,
                    low := ((c.low - QUARTER) <<< 1) % U32,
                    high := (((c.high - QUARTER) <<< 1) ||| 1) % U32 } :=
              ⟨hb.1, hb.2⟩
            have hA := ih _ hbuf hrec h
            refine stream_bound_back_shift σ hσ c _ QUARTER ?_ ?_ ?_ ?_
              (by rw [QUARTER_eq]; omega) (by rw [QUARTER_eq]; omega) hA
            · rw [hbC, QUARTER_eq, HALF_eq]
            · exact hsC
            · show ((c.low - QUARTER) <<< 1) % U32 = 2 * (c.low - QUARTER)
              exact hcl
            · show (((c.high - QUARTER) <<< 1) ||| 1) % U32 = 2 * (c.high - QUARTER) + 1
              exact hch
          · rw [if_neg h3] at h
            exact h

/-- Narrowing, seen backwards: the narrowed window is inside the original
one. -/
theorem narrow_bound_back (σ : List Nat) (c : Coder) (p1 bit : Nat)
    (hr : RangeInv c) (hd : RenormDone c) (h1 : 1 ≤ p1) (h2 : p1 ≤ 65535)
    (hbound : StreamBound σ (narrow_interval c p1 bit)) : StreamBound σ c := by
  have hq := renorm_done_range c hr hd
  have hrTF : c.high - c.low + 1 ≤ TOTAL_FREQUENCY := by
    have := hr.2
    rw [TOTAL_FREQUENCY_eq] at this ⊢
    omega
  obtain ⟨hf1, hf2⟩ := narrow_f_bounds (c.high - c.low + 1) p1 hq hrTF h1 h2
  rw [narrow_clean c p1 bit hr hd h1 h2] at hbound
  by_cases hbit : bit = 0
  · rw [if_pos hbit] at hbound
    obtain ⟨hb1, hb2⟩ := hbound
    have hb1' : bstate c + c.low ≤ stream_val σ (shiftCount c + 31) := hb1
    have hb2' : stream_val σ (shiftCount c + 31)
        ≤ bstate c + (c.low
            + (c.high - c.low + 1) * ((65536 - p1) * 32768) / TOTAL_FREQUENCY - 1) := hb2
    exact ⟨hb1', by omega⟩
  · rw [if_neg hbit] at hbound
    obtain ⟨hb1, hb2⟩ := hbound
    have hb1' : bstate c + (c.low
        + (c.high - c.low + 1) * ((65536 - p1) * 32768) / TOTAL_FREQUENCY)
        ≤ stream_val σ (shiftCount c + 31) := hb1
    have hb2' : stream_val σ (shiftCount c + 31) ≤ bstate c + c.high := hb2
    exact ⟨by omega, hb2'⟩

/-- The ring-buffer update does not move the stream window. -/
theorem update_bound_transfer (σ : List Nat) (c : Coder) (b : Nat)
    (h : StreamBound σ (Glorious.update_context_ring_buffer c b)) :
    StreamBound σ c := by
  obtain ⟨ho, hbtf, hbb, hbc, hcc⟩ := g_update_ctx_out c b
  obtain ⟨hbs, hsc⟩ := bstate_congr c (Glorious.update_context_ring_buffer c b)
    ho hbb hbc hbtf
  obtain ⟨h1, h2⟩ := h
  rw [hbs, hsc] at h1 h2
  rw [g_update_ctx_low] at h1
  rw [g_update_ctx_high] at h2
  exact ⟨h1, h2⟩

theorem finish_calc0 (V x : Nat) (hx : 1 ≤ x) :
    (V * (4 * x) + (2 * x - 1)) * 2 ^ 29
      = 2147483648 * V * x + 1073741824 * (x - 1) + 536870912 := by
  obtain ⟨y, rfl⟩ : ∃ y, x = y + 1 := ⟨x - 1, by omega⟩
  have hsub : 2 * (y + 1) - 1 = 2 * y + 1 := by omega
  rw [hsub, Nat.add_sub_cancel]
  ring

theorem finish_calc1 (V x : Nat) (hx : 1 ≤ x) :
    (V * (4 * x) + 2 * x) * 2 ^ 29
      = 2147483648 * V * x + 1073741824 * (x - 1) + 1073741824 := by
  obtain ⟨y, rfl⟩ : ∃ y, x = y + 1 := ⟨x - 1, by omega⟩
  rw [Nat.add_sub_cancel]
  ring

/-- Base case of the stream bound: after the final-bits block, the number the
emitted stream encodes (virtual zeros appended) is exactly
`bstate c + QUARTER` (when the closing bit is 0) or `bstate c + HALF` (when
it is 1), both inside the final renormalized window. -/
theorem finish_bound (c : Coder) (hb : BufInv c) (hr : RangeInv c)
    (hd : RenormDone c) :
    StreamBound (bytesToBits (Glorious.encode_finish c).output) c := by
  obtain ⟨hfin, _, _⟩ := c7_final_flush c hb
  rw [hfin]
  have hbuf0 : BufInv { c with bitsToFollow := 0 } := ⟨hb.1, hb.2⟩
  obtain ⟨hd1, hd2, hd3⟩ := hd
  have hx1 : (1:Nat) ≤ 2 ^ c.bitsToFollow := Nat.one_le_two_pow
  have h2t2 : (2:Nat) ^ (c.bitsToFollow + 1 + 1) = 4 * 2 ^ c.bitsToFollow := by
    rw [pow_succ, pow_succ]
    ring
  have h2t1 : (2:Nat) ^ (c.bitsToFollow + 1) = 2 * 2 ^ c.bitsToFollow := by
    rw [pow_succ]
    ring
  by_cases hlow : c.low < QUARTER
  · rw [if_pos hlow, if_pos hlow]
    obtain ⟨hemitEq, hBe, _⟩ := emit_list_emit
      ((0 : Nat) :: List.replicate (c.bitsToFollow + 1) 1)
      { c with bitsToFollow := 0 } hbuf0
    have hmap : ((0 : Nat) :: List.replicate (c.bitsToFollow + 1) 1).map (· &&& 1)
        = (0 : Nat) :: List.replicate (c.bitsToFollow + 1) 1 := by
      simp
    rw [hmap] at hemitEq
    have hE0 : emit_bits { c with bitsToFollow := 0 } = emit_bits c := rfl
    rw [hE0] at hemitEq
    obtain ⟨hflush, _⟩ := flush_output_emit _ hBe
    rw [hflush, hemitEq]
    set e := emit_list { c with bitsToFollow := 0 }
      ((0 : Nat) :: List.replicate (c.bitsToFollow + 1) 1) with he
    set pad := (8 - e.bitCount) % 8 with hpad
    have hpad7 : pad < 8 := Nat.mod_lt _ (by norm_num)
    have hidx : shiftCount c + 31
        = (emit_bits c ++ (0 : Nat) :: List.replicate (c.bitsToFollow + 1) 1
            ++ List.replicate pad 0).length + (29 - pad) := by
      rw [List.length_append, List.length_append, List.length_cons,
        List.length_replicate, List.length_replicate, emit_bits_length]
      unfold shiftCount
      omega
    have hval : bitsVal (emit_bits c ++ (0 : Nat) :: List.replicate (c.bitsToFollow + 1) 1
          ++ List.replicate pad 0) * 2 ^ (29 - pad)
        = bstate c + QUARTER := by
      rw [bitsVal_append, bitsVal_append, bitsVal_cons, bitsVal_replicate_one,
        bitsVal_replicate_zero]
      simp only [List.length_replicate, List.length_cons]
      rw [h2t2, h2t1, Nat.zero_mul, Nat.zero_add, Nat.add_zero, Nat.mul_assoc,
        ← pow_add, show pad + (29 - pad) = 29 by omega]
      rw [finish_calc0 (bitsVal (emit_bits c)) (2 ^ c.bitsToFollow) hx1]
      unfold bstate
      rw [TOTAL_FREQUENCY_eq, HALF_eq, QUARTER_eq]
    constructor
    · rw [hidx, stream_val_past, hval]
      rw [QUARTER_eq] at hlow ⊢
      omega
    · rw [hidx, stream_val_past, hval]
      rw [QUARTER_eq, HALF_eq] at *
      omega
  · rw [if_neg hlow, if_neg hlow]
    obtain ⟨hemitEq, hBe, _⟩ := emit_list_emit
      ((1 : Nat) :: List.replicate (c.bitsToFollow + 1) 0)
      { c with bitsToFollow := 0 } hbuf0
    have hmap : ((1 : Nat) :: List.replicate (c.bitsToFollow + 1) 0).map (· &&& 1)
        = (1 : Nat) :: List.replicate (c.bitsToFollow + 1) 0 := by
      simp
    rw [hmap] at hemitEq
    have hE0 : emit_bits { c with bitsToFollow := 0 } = emit_bits c := rfl
    rw [hE0] at hemitEq
    obtain ⟨hflush, _⟩ := flush_output_emit _ hBe
    rw [hflush, hemitEq]
    set e := emit_list { c with bitsToFollow := 0 }
      ((1 : Nat) :: List.replicate (c.bitsToFollow + 1) 0) with he
    set pad := (8 - e.bitCount) % 8 with hpad
    have hpad7 : pad < 8 := Nat.mod_lt _ (by norm_num)
    have hidx : shiftCount c + 31
        = (emit_bits c ++ (1 : Nat) :: List.replicate (c.bitsToFollow + 1) 0
            ++ List.replicate pad 0).length + (29 - pad) := by
      rw [List.length_append, List.length_append, List.length_cons,
        List.length_replicate, List.length_replicate, emit_bits_length]
      unfold shiftCount
      omega
    have hval : bitsVal (emit_bits c ++ (1 : Nat) :: List.replicate (c.bitsToFollow + 1) 0
          ++ List.replicate pad 0) * 2 ^ (29 - pad)
        = bstate c + HALF := by
      rw [bitsVal_append, bitsVal_append, bitsVal_cons, bitsVal_replicate_zero,
        bitsVal_replicate_zero]
      simp only [List.length_replicate, List.length_cons]
      rw [h2t2, h2t1, Nat.one_mul, Nat.add_zero, Nat.add_zero, Nat.mul_assoc,
        ← pow_add, show pad + (29 - pad) = 29 by omega]
      rw [finish_calc1 (bitsVal (emit_bits c)) (2 ^ c.bitsToFollow) hx1]
      unfold bstate
      rw [TOTAL_FREQUENCY_eq, HALF_eq]
    constructor
    · rw [hidx, stream_val_past, hval]
      rw [HALF_eq] at *
      omega
    · rw [hidx, stream_val_past, hval]
      rw [HALF_eq] at *
      omega

/-- The encoder's output accumulator invariant holds at every loop entry. -/
theorem g_encode_loop_BufInv (g : Nat → Nat → Nat) (seq : List Nat) (K : Nat) :
    ∀ n, BufInv (Glorious.encode_loop seq n K g) := by
  intro n
  induction n with
  | zero =>
      refine ⟨?_, ?_⟩
      · show (0 : Nat) ≤ 7
        omega
      · show (0 : Nat) < 2 ^ 0
        omega
  | succ n ih =>
      rw [g_encode_loop_succ, g_encode_step_decomp]
      obtain ⟨_, _, _, hnbb, hnbc, _⟩ := narrow_fields (Glorious.encode_loop seq n K g)
        (g ((Glorious.encode_loop seq n K g).countOnes % U32) K)
        ((seq.getD (n >>> 3) 0 >>> (7 - (n &&& 7))) &&& 1)
      have hbN : BufInv (narrow_interval (Glorious.encode_loop seq n K g)
          (g ((Glorious.encode_loop seq n K g).countOnes % U32) K)
          ((seq.getD (n >>> 3) 0 >>> (7 - (n &&& 7))) &&& 1)) :=
        ⟨by rw [hnbc]; exact ih.1, by rw [hnbb, hnbc]; exact ih.2⟩
      have hren := (encode_renorm_sim _ 0 hbN).2.1
      obtain ⟨_, _, hubb, hubc, _⟩ := g_update_ctx_out
        (Glorious.encode_renorm (narrow_interval (Glorious.encode_loop seq n K g)
          (g ((Glorious.encode_loop seq n K g).countOnes % U32) K)
          ((seq.getD (n >>> 3) 0 >>> (7 - (n &&& 7))) &&& 1)))
        ((seq.getD (n >>> 3) 0 >>> (7 - (n &&& 7))) &&& 1)
      exact ⟨by rw [hubc]; exact hren.1, by rw [hubb, hubc]; exact hren.2⟩

/-- Backward induction over the remaining encoder steps: at every loop entry,
and after every narrowing, the number encoded by the final byte stream lies
in the current window. -/
theorem loop_bound_back (g : Nat → Nat → Nat) (hg : ConformingG g)
    (seq : List Nat) (N K : Nat) :
    ∀ r i, i + r = N →
      StreamBound (bytesToBits (Glorious.arithmetic_encode seq N K g))
        (Glorious.encode_loop seq i K g) ∧
      (i < N → StreamBound (bytesToBits (Glorious.arithmetic_encode seq N K g))
        (narrow_interval (Glorious.encode_loop seq i K g)
          (g ((Glorious.encode_loop seq i K g).countOnes % U32) K)
          ((seq.getD (i >>> 3) 0 >>> (7 - (i &&& 7))) &&& 1))) := by
  intro r
  induction r with
  | zero =>
      intro i hi
      have hiN : i = N := by omega
      subst hiN
      constructor
      · have hout : Glorious.arithmetic_encode seq i K g
            = (Glorious.encode_finish (Glorious.encode_loop seq i K g)).output := rfl
        rw [hout]
        obtain ⟨hrN, hdN⟩ := g_encode_loop_inv g hg seq K i
        exact finish_bound _ (g_encode_loop_BufInv g seq K i) hrN hdN
      · intro hfalse
        exact absurd hfalse (by omega)
  | succ r ih =>
      intro i hi
      obtain ⟨hbnd, _⟩ := ih (i + 1) (by omega)
      obtain ⟨hrX, hdX⟩ := g_encode_loop_inv g hg seq K i
      have hbufX := g_encode_loop_BufInv g seq K i
      obtain ⟨hp1, hp2⟩ := hg ((Glorious.encode_loop seq i K g).countOnes % U32) K
      have hp2' : g ((Glorious.encode_loop seq i K g).countOnes % U32) K ≤ 65535 := by
        rw [FIXED_SCALE_eq] at hp2
        omega
      rw [g_encode_loop_succ, g_encode_step_decomp] at hbnd
      have hbndR := update_bound_transfer _ _ _ hbnd
      obtain ⟨_, _, _, hnbb, hnbc, _⟩ := narrow_fields (Glorious.encode_loop seq i K g)
        (g ((Glorious.encode_loop seq i K g).countOnes % U32) K)
        ((seq.getD (i >>> 3) 0 >>> (7 - (i &&& 7))) &&& 1)
      have hbN : BufInv (narrow_interval (Glorious.encode_loop seq i K g)
          (g ((Glorious.encode_loop seq i K g).countOnes % U32) K)
          ((seq.getD (i >>> 3) 0 >>> (7 - (i &&& 7))) &&& 1)) :=
        ⟨by rw [hnbc]; exact hbufX.1, by rw [hnbb, hnbc]; exact hbufX.2⟩
      have hrN := narrow_RangeInv (Glorious.encode_loop seq i K g)
        (g ((Glorious.encode_loop seq i K g).countOnes % U32) K)
        ((seq.getD (i >>> 3) 0 >>> (7 - (i &&& 7))) &&& 1) hrX hdX hp1 hp2'
      have hbndN := renorm_bound_back _
        (bytes_stream_le_one (Glorious.arithmetic_encode seq N K g))
        TOTAL_FREQUENCY _ hbN hrN hbndR
      refine ⟨?_, fun _ => hbndN⟩
      exact narrow_bound_back _ _ _ _ hrX hdX hp1 hp2' hbndN

/-- One renormalization shift, seen forwards: the stream stays inside the
shifted window. -/
theorem stream_bound_fwd_shift (σ : List Nat) (hσ : ∀ j, σ.getD j 0 ≤ 1)
    (c c' : Coder) (d : Nat)
    (hB : bstate c' = 2 * bstate c + 2 * d)
    (hs : shiftCount c' = shiftCount c + 1)
    (hl : c'.low = 2 * (c.low - d)) (hh : c'.high = 2 * (c.high - d) + 1)
    (hdl : d ≤ c.low) (hdh : d ≤ c.high)
    (hbound : StreamBound σ c) : StreamBound σ c' := by
  obtain ⟨h1, h2⟩ := hbound
  have hβ := hσ (shiftCount c + 31)
  have hsucc : stream_val σ (shiftCount c + 1 + 31)
      = 2 * stream_val σ (shiftCount c + 31) + σ.getD (shiftCount c + 31) 0 := by
    rw [show shiftCount c + 1 + 31 = (shiftCount c + 31) + 1 by omega, stream_val_succ]
  constructor
  · rw [hs, hB, hl, hsucc]
    omega
  · rw [hs, hB, hh, hsucc]
    omega

/-- Joint renormalization: driven by the same interval, the encoder's and the
decoder's renormalization loops make the same branch choices; the decoder
keeps shifting the next stream bit into `value`, staying synchronized, and
its context fields are untouched. -/
theorem renorm_sync (out : List Nat) :
    ∀ (fuel : Nat) (cE cD : Coder) (k : Nat), RenSync out cE cD k →
      RenSync out (Glorious.encode_renorm_go fuel cE)
        (Glorious.decode_renorm_go out out.length fuel cD k).1
        (Glorious.decode_renorm_go out out.length fuel cD k).2 ∧
      (Glorious.decode_renorm_go out out.length fuel cD k).1.contextBuffer
        = cD.contextBuffer ∧
      (Glorious.decode_renorm_go out out.length fuel cD k).1.contextIndex
        = cD.contextIndex ∧
      (Glorious.decode_renorm_go out out.length fuel cD k).1.countOnes
        = cD.countOnes ∧
      (Glorious.decode_renorm_go out out.length fuel cD k).1.contextCapacity
        = cD.contextCapacity ∧
      (Glorious.encode_renorm_go fuel cE).value = cE.value := by
  intro fuel
  induction fuel with
  | zero =>
      intro cE cD k h
      exact ⟨h, rfl, rfl, rfl, rfl, rfl⟩
  | succ fuel ih =>
      intro cE cD k h
      obtain ⟨hbuf, hr, hsb, hlo, hhi, hvr, hk⟩ := h
      obtain ⟨hlh, hhiTF⟩ := hr
      have hsb1 := hsb.1
      have hsb2 := hsb.2
      have hvlow : cE.low ≤ cD.value := by omega
      have hvhigh : cD.value ≤ cE.high := by omega
      have hσb := bytes_stream_le_one out (shiftCount cE + 31)
      have hP' : stream_val (bytesToBits out) (shiftCount cE + 1 + 31)
          = 2 * stream_val (bytesToBits out) (shiftCount cE + 31)
            + (bytesToBits out).getD (shiftCount cE + 31) 0 := by
        rw [show shiftCount cE + 1 + 31 = (shiftCount cE + 31) + 1 by omega,
          stream_val_succ]
      simp only [Glorious.encode_renorm_go, Glorious.decode_renorm_go]
      by_cases h1 : cE.high < HALF
      · have h1D : cD.high < HALF := by rw [hhi]; exact h1
        rw [if_pos h1, if_pos h1D, hk, read_bit_min out (shiftCount cE + 31)]
        obtain ⟨hb0, hs0, hB0, hval0, _⟩ := case0_facts cE hbuf
        have hclE : (cE.low <<< 1) % U32 = 2 * cE.low :=
          shift_clean0 cE.low (by omega)
        have hchE : ((cE.high <<< 1) ||| 1) % U32 = 2 * cE.high + 1 :=
          shift_clean1 cE.high 1 (by omega) (by omega)
        obtain ⟨hbcc, hscc⟩ := bstate_congr
          (Glorious.output_following_bits (output_bit cE 0) 1)
          { Glorious.output_following_bits (output_bit cE 0) 1 with
            low := (cE.low <<< 1) % U32, high := ((cE.high <<< 1) ||| 1) % U32 }
          rfl rfl rfl rfl
        have hbst : bstate { Glorious.output_following_bits (output_bit cE 0) 1 with
            low := (cE.low <<< 1) % U32, high := ((cE.high <<< 1) ||| 1) % U32 }
            = 2 * bstate cE := by
          rw [hbcc, hb0]
        have hsct : shiftCount { Glorious.output_following_bits (output_bit cE 0) 1 with
            low := (cE.low <<< 1) % U32, high := ((cE.high <<< 1) ||| 1) % U32 }
            = shiftCount cE + 1 := by
          rw [hscc, hs0]
        have hmod : (2 * cD.value + (bytesToBits out).getD (shiftCount cE + 31) 0) % U32
            = 2 * cD.value + (bytesToBits out).getD (shiftCount cE + 31) 0 := by
          apply Nat.mod_eq_of_lt
          rw [U32_eq]
          rw [HALF_eq] at h1
          omega
        have hnew : RenSync out
            { Glorious.output_following_bits (output_bit cE 0) 1 with
              low := (cE.low <<< 1) % U32, high := ((cE.high <<< 1) ||| 1) % U32 }
            { cD with
              low := (cD.low <<< 1) % U32,
              high := ((cD.high <<< 1) ||| 1) % U32,
              value := ((cD.value <<< 1) |||
                ((bytesToBits out).getD (shiftCount cE + 31) 0,
                  min (shiftCount cE + 31 + 1) (8 * out.length)).1) % U32 }
            (((bytesToBits out).getD (shiftCount cE + 31) 0,
              min (shiftCount cE + 31 + 1) (8 * out.length)).2) := by
          refine ⟨⟨hB0.1, hB0.2⟩, ⟨?_, ?_⟩, ?_, ?_, ?_, ?_, ?_⟩
          · show (cE.low <<< 1) % U32 ≤ ((cE.high <<< 1) ||| 1) % U32
            rw [hclE, hchE]
            omega
          · show ((cE.high <<< 1) ||| 1) % U32 < TOTAL_FREQUENCY
            rw [hchE, TOTAL_FREQUENCY_eq]
            rw [HALF_eq] at h1
            omega
          · refine stream_bound_fwd_shift _ (bytes_stream_le_one out) cE _ 0 ?_ ?_ ?_ ?_
              (by omega) (by omega) hsb
            · simp only [hbst]
              omega
            · exact hsct
            · show (cE.low <<< 1) % U32 = 2 * (cE.low - 0)
              rw [hclE]
              omega
            · show ((cE.high <<< 1) ||| 1) % U32 = 2 * (cE.high - 0) + 1
              rw [hchE]
              omega
          · show (cD.low <<< 1) % U32 = (cE.low <<< 1) % U32
            rw [hlo]
          · show ((cD.high <<< 1) ||| 1) % U32 = ((cE.high <<< 1) ||| 1) % U32
            rw [hhi]
          · show ((cD.value <<< 1) ||| (bytesToBits out).getD (shiftCount cE + 31) 0) % U32
                + bstate { Glorious.output_following_bits (output_bit cE 0) 1 with
                  low := (cE.low <<< 1) % U32, high := ((cE.high <<< 1) ||| 1) % U32 }
                = stream_val (bytesToBits out)
                    (shiftCount { Glorious.output_following_bits (output_bit cE 0) 1 with
                      low := (cE.low <<< 1) % U32,
                      high := ((cE.high <<< 1) ||| 1) % U32 } + 31)
            rw [hbst, hsct, hP', shiftLeft_one, two_mul_or_bit _ _ hσb, hmod]
            omega
          · show min (shiftCount cE + 31 + 1) (8 * out.length)
                = min (shiftCount { Glorious.output_following_bits (output_bit cE 0) 1 with
                    low := (cE.low <<< 1) % U32,
                    high := ((cE.high <<< 1) ||| 1) % U32 } + 31) (8 * out.length)
            rw [hsct, show shiftCount cE + 31 + 1 = shiftCount cE + 1 + 31 by omega]
        obtain ⟨hihSync, hihCB, hihCI, hihCO, hihCC, hihV⟩ := ih _ _ _ hnew
        exact ⟨hihSync, hihCB, hihCI, hihCO, hihCC, hihV.trans hval0⟩
      · have h1D : ¬ cD.high < HALF := by rw [hhi]; exact h1
        rw [if_neg h1, if_neg h1D]
        by_cases h2 : HALF ≤ cE.low
        · have h2D : HALF ≤ cD.low := by rw [hlo]; exact h2
          rw [if_pos h2, if_pos h2D, hk, read_bit_min out (shiftCount cE + 31)]
          obtain ⟨hb1f, hs1f, hB1f, hval1f, _⟩ := case1_facts cE hbuf
          have hclE : ((cE.low - HALF) <<< 1) % U32 = 2 * (cE.low - HALF) :=
            shift_clean0 (cE.low - HALF) (by omega)
          have hchE : (((cE.high - HALF) <<< 1) ||| 1) % U32 = 2 * (cE.high - HALF) + 1 :=
            shift_clean1 (cE.high - HALF) 1 (by omega) (by omega)
          obtain ⟨hbcc, hscc⟩ := bstate_congr
            (Glorious.output_following_bits (output_bit cE 1) 0)
            { Glorious.output_following_bits (output_bit cE 1) 0 with
              low := ((cE.low - HALF) <<< 1) % U32,
              high := (((cE.high - HALF) <<< 1) ||| 1) % U32 }
            rfl rfl rfl rfl
          have hbst : bstate { Glorious.output_following_bits (output_bit cE 1) 0 with
              low := ((cE.low - HALF) <<< 1) % U32,
              high := (((cE.high - HALF) <<< 1) ||| 1) % U32 }
              = 2 * bstate cE + TOTAL_FREQUENCY := by
            rw [hbcc, hb1f]
          have hsct : shiftCount { Glorious.output_following_bits (output_bit cE 1) 0 with
              low := ((cE.low - HALF) <<< 1) % U32,
              high := (((cE.high - HALF) <<< 1) ||| 1) % U32 }
              = shiftCount cE + 1 := by
            rw [hscc, hs1f]
          have hv1 : (cD.value + (U32 - HALF)) % U32 = cD.value - HALF := by
            rw [U32_eq, HALF_eq]
            rw [HALF_eq] at h2
            rw [TOTAL_FREQUENCY_eq] at hhiTF
            omega
          have hmod : (2 * (cD.value - HALF) + (bytesToBits out).getD (shiftCount cE + 31) 0) % U32
              = 2 * (cD.value - HALF) + (bytesToBits out).getD (shiftCount cE + 31) 0 := by
            apply Nat.mod_eq_of_lt
            rw [U32_eq]
            rw [HALF_eq] at h2
            rw [TOTAL_FREQUENCY_eq] at hhiTF
            omega
          have hnew : RenSync out
              { Glorious.output_following_bits (output_bit cE 1) 0 with
                low := ((cE.low - HALF) <<< 1) % U32,
                high := (((cE.high - HALF) <<< 1) ||| 1) % U32 }
              { cD with
                low := ((cD.low - HALF) <<< 1) % U32,
                high := (((cD.high - HALF) <<< 1) ||| 1) % U32,
                value := ((((cD.value + (U32 - HALF)) % U32) <<< 1) |||
                  ((bytesToBits out).getD (shiftCount cE + 31) 0,
                    min (shiftCount cE + 31 + 1) (8 * out.length)).1) % U32 }
              (((bytesToBits out).getD (shiftCount cE + 31) 0,
                min (shiftCount cE + 31 + 1) (8 * out.length)).2) := by
            refine ⟨⟨hB1f.1, hB1f.2⟩, ⟨?_, ?_⟩, ?_, ?_, ?_, ?_, ?_⟩
            · show ((cE.low - HALF) <<< 1) % U32 ≤ (((cE.high - HALF) <<< 1) ||| 1) % U32
              rw [hclE, hchE]
              omega
            · show (((cE.high - HALF) <<< 1) ||| 1) % U32 < TOTAL_FREQUENCY
              rw [hchE, TOTAL_FREQUENCY_eq, HALF_eq]
              rw [TOTAL_FREQUENCY_eq] at hhiTF
              omega
            · refine stream_bound_fwd_shift _ (bytes_stream_le_one out) cE _ HALF ?_ ?_ ?_ ?_
                h2 (by omega) hsb
              · rw [hbst, show TOTAL_FREQUENCY = 2 * HALF from rfl]
              · exact hsct
              · show ((cE.low - HALF) <<< 1) % U32 = 2 * (cE.low - HALF)
                exact hclE
              · show (((cE.high - HALF) <<< 1) ||| 1) % U32 = 2 * (cE.high - HALF) + 1
                exact hchE
            · show ((cD.low - HALF) <<< 1) % U32 = ((cE.low - HALF) <<< 1) % U32
              rw [hlo]
            · show (((cD.high - HALF) <<< 1) ||| 1) % U32 = (((cE.high - HALF) <<< 1) ||| 1) % U32
              rw [hhi]
            · show ((((cD.value + (U32 - HALF)) % U32) <<< 1) |||
                  (bytesToBits out).getD (shiftCount cE + 31) 0) % U32
                  + bstate { Glorious.output_following_bits (output_bit cE 1) 0 with
                    low := ((cE.low - HALF) <<< 1) % U32,
                    high := (((cE.high - HALF) <<< 1) ||| 1) % U32 }
                  = stream_val (bytesToBits out)
                      (shiftCount { Glorious.output_following_bits (output_bit cE 1) 0 with
                        low := ((cE.low - HALF) <<< 1) % U32,
                        high := (((cE.high - HALF) <<< 1) ||| 1) % U32 } + 31)
              rw [hbst, hsct, hP', hv1, shiftLeft_one, two_mul_or_bit _ _ hσb, hmod]
              rw [HALF_eq] at h2
              rw [TOTAL_FREQUENCY_eq, HALF_eq]
              omega
            · show min (shiftCount cE + 31 + 1) (8 * out.length)
                  = min (shiftCount { Glorious.output_following_bits (output_bit cE 1) 0 with
                      low := ((cE.low - HALF) <<< 1) % U32,
                      high := (((cE.high - HALF) <<< 1) ||| 1) % U32 } + 31) (8 * out.length)
              rw [hsct, show shiftCount cE + 31 + 1 = shiftCount cE + 1 + 31 by omega]
          obtain ⟨hihSync, hihCB, hihCI, hihCO, hihCC, hihV⟩ := ih _ _ _ hnew
          exact ⟨hihSync, hihCB, hihCI, hihCO, hihCC, hihV.trans hval1f⟩
        · have h2D : ¬ HALF ≤ cD.low := by rw [hlo]; exact h2
          rw [if_neg h2, if_neg h2D]
          by_cases h3 : QUARTER ≤ cE.low ∧ cE.high < THREE_QUARTER
          · have h3D : QUARTER ≤ cD.low ∧ cD.high < THREE_QUARTER := by
              rw [hlo, hhi]
              exact h3
            rw [if_pos h3, if_pos h3D, hk, read_bit_min out (shiftCount cE + 31)]
            have hclE : ((cE.low - QUARTER) <<< 1) % U32 = 2 * (cE.low - QUARTER) :=
              shift_clean0 (cE.low - QUARTER) (by omega)
            have hchE : (((cE.high - QUARTER) <<< 1) ||| 1) % U32
                = 2 * (cE.high - QUARTER) + 1 :=
              shift_clean1 (cE.high - QUARTER) 1 (by omega) (by omega)
            obtain ⟨hbst, hsct⟩ := bstate_caseC cE
              (((cE.low - QUARTER) <<< 1) % U32) ((((cE.high - QUARTER) <<< 1) ||| 1) % U32)
            have hv1 : (cD.value + (U32 - QUARTER)) % U32 = cD.value - QUARTER := by
              rw [U32_eq, QUARTER_eq]
              obtain ⟨h3a, h3b⟩ := h3
              rw [QUARTER_eq] at h3a
              rw [TOTAL_FREQUENCY_eq] at hhiTF
              omega
            have hmod : (2 * (cD.value - QUARTER)
                  + (bytesToBits out).getD (shiftCount cE + 31) 0) % U32
                = 2 * (cD.value - QUARTER)
                  + (bytesToBits out).getD (shiftCount cE + 31) 0 := by
              apply Nat.mod_eq_of_lt
              rw [U32_eq, QUARTER_eq]
              rw [TOTAL_FREQUENCY_eq] at hhiTF
              omega
            have hnew : RenSync out
                { cE with
                  bitsToFollow := cE.bitsToFollow + 1,
                  low := ((cE.low - QUARTER) <<< 1) % U32,
                  high := (((cE.high - QUARTER) <<< 1) ||| 1) % U32 }
                { cD with
                  low := ((cD.low - QUARTER) <<< 1) % U32,
                  high := (((cD.high - QUARTER) <<< 1) ||| 1) % U32,
                  value := ((((cD.value + (U32 - QUARTER)) % U32) <<< 1) |||
                    ((bytesToBits out).getD (shiftCount cE + 31) 0,
                      min (shiftCount cE + 31 + 1) (8 * out.length)).1) % U32 }
                (((bytesToBits out).getD (shiftCount cE + 31) 0,
                  min (shiftCount cE + 31 + 1) (8 * out.length)).2) := by
              refine ⟨⟨hbuf.1, hbuf.2⟩, ⟨?_, ?_⟩, ?_, ?_, ?_, ?_, ?_⟩
              · show ((cE.low - QUARTER) <<< 1) % U32 ≤ (((cE.high - QUARTER) <<< 1) ||| 1) % U32
                rw [hclE, hchE]
                omega
              · show (((cE.high - QUARTER) <<< 1) ||| 1) % U32 < TOTAL_FREQUENCY
                obtain ⟨h3a, h3b⟩ := h3
                rw [hchE, TOTAL_FREQUENCY_eq, QUARTER_eq]
                rw [THREE_QUARTER_eq] at h3b
                omega
              · refine stream_bound_fwd_shift _ (bytes_stream_le_one out) cE _ QUARTER ?_ ?_ ?_ ?_
                  h3.1 (by obtain ⟨h3a, _⟩ := h3; omega) hsb
                · rw [hbst, show (HALF : Nat) = 2 * QUARTER from rfl]
                · exact hsct
                · show ((cE.low - QUARTER) <<< 1) % U32 = 2 * (cE.low - QUARTER)
                  exact hclE
                · show (((cE.high - QUARTER) <<< 1) ||| 1) % U32 = 2 * (cE.high - QUARTER) + 1
                  exact hchE
              · show ((cD.low - QUARTER) <<< 1) % U32 = ((cE.low - QUARTER) <<< 1) % U32
                rw [hlo]
              · show (((cD.high - QUARTER) <<< 1) ||| 1) % U32
                    = (((cE.high - QUARTER) <<< 1) ||| 1) % U32
                rw [hhi]
              · show ((((cD.value + (U32 - QUARTER)) % U32) <<< 1) |||
                    (bytesToBits out).getD (shiftCount cE + 31) 0) % U32
                    + bstate { cE with
                      bitsToFollow := cE.bitsToFollow + 1,
                      low := ((cE.low - QUARTER) <<< 1) % U32,
                      high := (((cE.high - QUARTER) <<< 1) ||| 1) % U32 }
                    = stream_val (bytesToBits out)
                        (shiftCount { cE with
                          bitsToFollow := cE.bitsToFollow + 1,
                          low := ((cE.low - QUARTER) <<< 1) % U32,
                          high := (((cE.high - QUARTER) <<< 1) ||| 1) % U32 } + 31)
                rw [hbst, hsct, hP', hv1, shiftLeft_one, two_mul_or_bit _ _ hσb, hmod]
                obtain ⟨h3a, _⟩ := h3
                rw [QUARTER_eq] at h3a
                rw [QUARTER_eq, HALF_eq]
                omega
              · show min (shiftCount cE + 31 + 1) (8 * out.length)
                    = min (shiftCount { cE with
                        bitsToFollow := cE.bitsToFollow + 1,
                        low := ((cE.low - QUARTER) <<< 1) % U32,
                        high := (((cE.high - QUARTER) <<< 1) ||| 1) % U32 } + 31)
                        (8 * out.length)
                rw [hsct, show shiftCount cE + 31 + 1 = shiftCount cE + 1 + 31 by omega]
            obtain ⟨hihSync, hihCB, hihCI, hihCO, hihCC, hihV⟩ := ih _ _ _ hnew
            refine ⟨hihSync, hihCB, hihCI, hihCO, hihCC, ?_⟩
            exact hihV.trans rfl
          · have h3D : ¬ (QUARTER ≤ cD.low ∧ cD.high < THREE_QUARTER) := by
              rw [hlo, hhi]
              exact h3
            rw [if_neg h3, if_neg h3D]
            exact ⟨⟨hbuf, ⟨hlh, hhiTF⟩, hsb, hlo, hhi, hvr, hk⟩, rfl, rfl, rfl, rfl, rfl⟩

/-- `narrow_interval` computes the new bounds from `low` and `high` alone. -/
theorem narrow_lh_congr (c d : Coder) (p1 bit : Nat) (h1 : c.low = d.low)
    (h2 : c.high = d.high) :
    (narrow_interval c p1 bit).low = (narrow_interval d p1 bit).low ∧
    (narrow_interval c p1 bit).high = (narrow_interval d p1 bit).high := by
  unfold narrow_interval
  dsimp only
  rw [h1, h2]
  split <;> exact ⟨rfl, rfl⟩

/-- The ring update's context outputs are computed from the context fields
alone. -/
theorem update_ctx_congr (c d : Coder) (b : Nat)
    (hb : c.contextBuffer = d.contextBuffer) (hi : c.contextIndex = d.contextIndex)
    (ho : c.countOnes = d.countOnes) (hc : c.contextCapacity = d.contextCapacity) :
    (Glorious.update_context_ring_buffer c b).contextBuffer
      = (Glorious.update_context_ring_buffer d b).contextBuffer ∧
    (Glorious.update_context_ring_buffer c b).contextIndex
      = (Glorious.update_context_ring_buffer d b).contextIndex ∧
    (Glorious.update_context_ring_buffer c b).countOnes
      = (Glorious.update_context_ring_buffer d b).countOnes ∧
    (Glorious.update_context_ring_buffer c b).contextCapacity
      = (Glorious.update_context_ring_buffer d b).contextCapacity := by
  unfold Glorious.update_context_ring_buffer
  rw [hb, hi, ho, hc]
  split
  · exact ⟨rfl, rfl, rfl, rfl⟩
  · exact ⟨hb, hi, ho, hc⟩

/-- Reading back the bit just set by the decoder's `|=` write. -/
theorem dec_or_read (b pos : Nat) (hp : pos < 8) :
    (((b ||| (1 <<< pos)) % U8) >>> pos) &&& 1 = 1 := by
  have h256 : U8 = 2 ^ 8 := by rw [U8_eq]; norm_num
  have hsh : (1 : Nat) <<< pos = 2 ^ pos := Nat.one_shiftLeft pos
  rw [shift_and_one_eq_testBit]
  have ht : ((b ||| (1 <<< pos)) % U8).testBit pos = true := by
    rw [h256, Nat.testBit_mod_two_pow, hsh]
    simp [hp, Nat.testBit_or]
  rw [ht]
  rfl

/-- Reading back the bit just cleared by the decoder's `&= ~mask` write. -/
theorem dec_and_read (b pos : Nat) (hp : pos < 8) :
    (((b &&& ((U32 - 1) ^^^ (1 <<< pos))) % U8) >>> pos) &&& 1 = 0 := by
  have h256 : U8 = 2 ^ 8 := by rw [U8_eq]; norm_num
  have h32 : U32 - 1 = 2 ^ 32 - 1 := by rw [U32_eq]; norm_num
  have hsh : (1 : Nat) <<< pos = 2 ^ pos := Nat.one_shiftLeft pos
  rw [shift_and_one_eq_testBit]
  have hx : ((U32 - 1) ^^^ (1 <<< pos)).testBit pos = false := by
    rw [hsh, h32, Nat.testBit_xor, Nat.testBit_two_pow_sub_one]
    simp
    omega
  have ht : ((b &&& ((U32 - 1) ^^^ (1 <<< pos))) % U8).testBit pos = false := by
    rw [h256, Nat.testBit_mod_two_pow]
    simp [hp, Nat.testBit_and, hx]
  rw [ht]
  rfl

theorem g_decode_state_succ (g : Nat → Nat → Nat) (enc : List Nat) (L : Nat)
    (dec0 : Nat → Nat) (K i : Nat) :
    g_decode_state g enc L dec0 K (i + 1)
      = Glorious.decode_step g K enc L (g_decode_state g enc L dec0 K i) i := by
  unfold g_decode_state
  rw [List.range_succ, List.foldl_append]
  rfl

theorem g_arithmetic_decode_eq (g : Nat → Nat → Nat) (enc : List Nat) (L : Nat)
    (dec0 : Nat → Nat) (M K : Nat) :
    Glorious.arithmetic_decode enc L dec0 M K g
      = (g_decode_state g enc L dec0 K M).2.1 := rfl

theorem encode_renorm_as_go (c : Coder) :
    Glorious.encode_renorm c = Glorious.encode_renorm_go TOTAL_FREQUENCY c := rfl

theorem decode_renorm_as_go (enc : List Nat) (L : Nat) (c : Coder) (idx : Nat) :
    Glorious.decode_renorm enc L c idx
      = Glorious.decode_renorm_go enc L TOTAL_FREQUENCY c idx := rfl

/-- Forward simulation of the glorious decoder against the glorious encoder
on the encoder's own output: at every loop entry the decoder's interval and
context equal the encoder's, its `value` window is the streamed number minus
the encoder's offset, its cursor sits `PRECISION` bits ahead of the encoder's
shift count, and every bit already decoded equals the corresponding input
bit. -/
theorem g_round_sync (g : Nat → Nat → Nat) (hg : ConformingG g)
    (seq : List Nat) (N K : Nat) (dec0 : Nat → Nat) :
    ∀ i, i ≤ N →
      DSync (Glorious.arithmetic_encode seq N K g)
        (Glorious.encode_loop seq i K g)
        (g_decode_state g (Glorious.arithmetic_encode seq N K g)
          (Glorious.arithmetic_encode seq N K g).length dec0 K i).1
        (g_decode_state g (Glorious.arithmetic_encode seq N K g)
          (Glorious.arithmetic_encode seq N K g).length dec0 K i).2.2 ∧
      (g_decode_state g (Glorious.arithmetic_encode seq N K g)
          (Glorious.arithmetic_encode seq N K g).length dec0 K i).1.contextBuffer
        = (Glorious.encode_loop seq i K g).contextBuffer ∧
      (g_decode_state g (Glorious.arithmetic_encode seq N K g)
          (Glorious.arithmetic_encode seq N K g).length dec0 K i).1.contextIndex
        = (Glorious.encode_loop seq i K g).contextIndex ∧
      (g_decode_state g (Glorious.arithmetic_encode seq N K g)
          (Glorious.arithmetic_encode seq N K g).length dec0 K i).1.countOnes
        = (Glorious.encode_loop seq i K g).countOnes ∧
      (g_decode_state g (Glorious.arithmetic_encode seq N K g)
          (Glorious.arithmetic_encode seq N K g).length dec0 K i).1.contextCapacity
        = (Glorious.encode_loop seq i K g).contextCapacity ∧
      (∀ j, j < i →
        bitOfMap (g_decode_state g (Glorious.arithmetic_encode seq N K g)
          (Glorious.arithmetic_encode seq N K g).length dec0 K i).2.1 j
          = (seq.getD (j >>> 3) 0 >>> (7 - (j &&& 7))) &&& 1) := by
  intro i
  induction i with
  | zero =>
      intro _
      refine ⟨⟨rfl, rfl, ?_, ?_⟩, rfl, rfl, rfl, rfl, ?_⟩
      · have hb0 : bstate (Glorious.encode_loop seq 0 K g) = 0 := rfl
        have hs0 : shiftCount (Glorious.encode_loop seq 0 K g) = 0 := rfl
        rw [hb0, hs0]
        show (Glorious.prime_loop (Glorious.arithmetic_encode seq N K g)
            (Glorious.arithmetic_encode seq N K g).length PRECISION (0, 0)).1 + 0
          = stream_val (bytesToBits (Glorious.arithmetic_encode seq N K g)) (0 + 31)
        rw [prime_init]
        rfl
      · have hs0 : shiftCount (Glorious.encode_loop seq 0 K g) = 0 := rfl
        rw [hs0]
        show (Glorious.prime_loop (Glorious.arithmetic_encode seq N K g)
            (Glorious.arithmetic_encode seq N K g).length PRECISION (0, 0)).2
          = min (0 + 31) (8 * (Glorious.arithmetic_encode seq N K g).length)
        rw [prime_init]
      · intro j hj
        exact absurd hj (by omega)
  | succ i ih =>
      intro hiN
      obtain ⟨⟨hlo, hhi, hvr, hcur⟩, hcb, hci, hco, hcc, hdecd⟩ := ih (by omega)
      set OUT := Glorious.arithmetic_encode seq N K g with hOUT
      set X := Glorious.encode_loop seq i K g with hX
      set D := g_decode_state g OUT OUT.length dec0 K i with hD
      obtain ⟨hrX, hdX⟩ := g_encode_loop_inv g hg seq K i
      have hbufX := g_encode_loop_BufInv g seq K i
      rw [← hX] at hrX hdX hbufX
      obtain ⟨hp1, hp2⟩ := hg (X.countOnes % U32) K
      have hp2' : g (X.countOnes % U32) K ≤ 65535 := by
        rw [FIXED_SCALE_eq] at hp2
        omega
      set p := g (X.countOnes % U32) K with hpdef
      set bit := (seq.getD (i >>> 3) 0 >>> (7 - (i &&& 7))) &&& 1 with hbitdef
      obtain ⟨hsbX, hsbNf⟩ := loop_bound_back g hg seq N K (N - i) i (by omega)
      rw [← hOUT, ← hX] at hsbX hsbNf
      have hsbN := hsbNf (by omega)
      rw [← hpdef, ← hbitdef] at hsbN
      have hsb1 := hsbX.1
      have hsb2 := hsbX.2
      have hbit : bit ≤ 1 := and_one_le_one _
      have hvD : ValueInv D.1 := by
        constructor
        · rw [hlo]
          omega
        · rw [hhi]
          omega
      have hrD : RangeInv D.1 :=
        ⟨by rw [hlo, hhi]; exact hrX.1, by rw [hhi]; exact hrX.2⟩
      have hdD : RenormDone D.1 := by
        obtain ⟨hd1, hd2, hd3⟩ := hdX
        exact ⟨by rw [hhi]; exact hd1, by rw [hlo]; exact hd2,
          by rw [hlo, hhi]; exact hd3⟩
      have hparg : g (D.1.countOnes % U32) K = p := by
        rw [hco, hpdef]
      have hq := renorm_done_range X hrX hdX
      have hrTF : X.high - X.low + 1 ≤ TOTAL_FREQUENCY := by
        have := hrX.2
        rw [TOTAL_FREQUENCY_eq] at this ⊢
        omega
      obtain ⟨hf1, hf2⟩ := narrow_f_bounds (X.high - X.low + 1) p hq hrTF hp1 hp2'
      have hspec := decision_bit_spec D.1 p hrD hdD hvD hp1 hp2'
      rw [hlo, hhi] at hspec
      have hnc := narrow_clean X p bit hrX hdX hp1 hp2'
      have hdec : decision_bit D.1 p = bit := by
        rw [hspec]
        have hb01 : bit = 0 ∨ bit = 1 := by omega
        rcases hb01 with hb | hb
        · rw [hb] at hnc
          rw [if_pos rfl] at hnc
          rw [hb, hnc] at hsbN
          have h1' : bstate X + X.low
              ≤ stream_val (bytesToBits OUT) (shiftCount X + 31) := hsbN.1
          have h2' : stream_val (bytesToBits OUT) (shiftCount X + 31)
              ≤ bstate X + (X.low
                + (X.high - X.low + 1) * ((65536 - p) * 32768) / TOTAL_FREQUENCY - 1) :=
            hsbN.2
          rw [hb, if_pos (by omega)]
        · rw [hb] at hnc
          rw [if_neg one_ne_zero] at hnc
          rw [hb, hnc] at hsbN
          have h1' : bstate X + (X.low
              + (X.high - X.low + 1) * ((65536 - p) * 32768) / TOTAL_FREQUENCY)
              ≤ stream_val (bytesToBits OUT) (shiftCount X + 31) := hsbN.1
          rw [hb, if_neg (by omega)]
      rw [g_decode_state_succ g OUT OUT.length dec0 K i, ← hD, g_decode_step_full,
        hparg, hdec, g_encode_loop_succ, ← hX, g_encode_step_decomp, ← hpdef,
        ← hbitdef, encode_renorm_as_go, decode_renorm_as_go]
      obtain ⟨hnfv, hnfo, hnfb, hnfbb, hnfbc, hnfcb, hnfcc, hnfci, hnfco⟩ :=
        narrow_fields X p bit
      have hbufN : BufInv (narrow_interval X p bit) :=
        ⟨by rw [hnfbc]; exact hbufX.1, by rw [hnfbb, hnfbc]; exact hbufX.2⟩
      have hrN : RangeInv (narrow_interval X p bit) :=
        narrow_RangeInv X p bit hrX hdX hp1 hp2'
      obtain ⟨hbsN, hscN⟩ := bstate_congr X (narrow_interval X p bit)
        hnfo hnfbb hnfbc hnfb
      obtain ⟨hnfvD, hnfoD, hnfbD, hnfbbD, hnfbcD, hnfcbD, hnfccD, hnfciD, hnfcoD⟩ :=
        narrow_fields (Glorious.update_context_ring_buffer D.1 bit) p bit
      obtain ⟨hnlo, hnhi⟩ := narrow_lh_congr
        (Glorious.update_context_ring_buffer D.1 bit) X p bit
        (by rw [g_update_ctx_low, hlo]) (by rw [g_update_ctx_high, hhi])
      have hRS : RenSync OUT (narrow_interval X p bit)
          (narrow_interval (Glorious.update_context_ring_buffer D.1 bit) p bit)
          D.2.2 := by
        refine ⟨hbufN, hrN, hsbN, hnlo, hnhi, ?_, ?_⟩
        · rw [hnfvD, g_update_ctx_value, hbsN, hscN]
          exact hvr
        · rw [hscN]
          exact hcur
      obtain ⟨⟨hbufR, hrR, hsbR, hloR, hhiR, hvrR, hcurR⟩, hcbR, hciR, hcoR, hccR,
        hvalR⟩ := renorm_sync OUT TOTAL_FREQUENCY (narrow_interval X p bit)
          (narrow_interval (Glorious.update_context_ring_buffer D.1 bit) p bit)
          D.2.2 hRS
      obtain ⟨_, _, hREcb, hREci, hREcc, hREco⟩ :=
        encode_renorm_go_sim TOTAL_FREQUENCY (narrow_interval X p bit) 0 hbufN
      obtain ⟨hupo, hupbtf, hupbb, hupbc, hupcc⟩ := g_update_ctx_out
        (Glorious.encode_renorm_go TOTAL_FREQUENCY (narrow_interval X p bit)) bit
      obtain ⟨hbsU, hscU⟩ := bstate_congr
        (Glorious.encode_renorm_go TOTAL_FREQUENCY (narrow_interval X p bit))
        (Glorious.update_context_ring_buffer
          (Glorious.encode_renorm_go TOTAL_FREQUENCY (narrow_interval X p bit)) bit)
        hupo hupbb hupbc hupbtf
      obtain ⟨hUcb, hUci, hUco, hUcc⟩ := update_ctx_congr D.1
        (Glorious.encode_renorm_go TOTAL_FREQUENCY (narrow_interval X p bit)) bit
        (hcb.trans (hREcb.trans hnfcb).symm)
        (hci.trans (hREci.trans hnfci).symm)
        (hco.trans (hREco.trans hnfco).symm)
        (hcc.trans (hREcc.trans hnfcc).symm)
      refine ⟨⟨?_, ?_, ?_, ?_⟩, ?_, ?_, ?_, ?_, ?_⟩
      · rw [g_update_ctx_low]
        exact hloR
      · rw [g_update_ctx_high]
        exact hhiR
      · rw [hbsU, hscU]
        exact hvrR
      · rw [hscU]
        exact hcurR
      · exact (hcbR.trans hnfcbD).trans hUcb
      · exact (hciR.trans hnfciD).trans hUci
      · exact (hcoR.trans hnfcoD).trans hUco
      · exact (hccR.trans hnfccD).trans hUcc
      · intro j hj
        show ((if j / 8 = i / 8 then
            (if bit = 1 then ((D.2.1 (i / 8)) ||| (1 <<< (7 - i % 8))) % U8
             else ((D.2.1 (i / 8)) &&& ((U32 - 1) ^^^ (1 <<< (7 - i % 8)))) % U8)
          else D.2.1 (j / 8)) >>> (7 - j % 8)) &&& 1
          = (seq.getD (j >>> 3) 0 >>> (7 - (j &&& 7))) &&& 1
        by_cases hji : j = i
        · subst hji
          rw [if_pos rfl]
          have hb01 : bit = 0 ∨ bit = 1 := by omega
          rcases hb01 with hb | hb
          · rw [hb, if_neg (by omega), ← hbitdef, hb]
            exact dec_and_read _ _ (by omega)
          · rw [hb, if_pos rfl, ← hbitdef, hb]
            exact dec_or_read _ _ (by omega)
        · have hji' : j < i := by omega
          by_cases hbyte : j / 8 = i / 8
          · rw [if_pos hbyte]
            have hne : 7 - i % 8 ≠ 7 - j % 8 := by omega
            have hb01 : bit = 0 ∨ bit = 1 := by omega
            rcases hb01 with hb | hb
            · rw [hb, if_neg (by omega),
                (write_bit_preserves (D.2.1 (i / 8)) (7 - i % 8) (7 - j % 8) hne
                  (by omega)).2, ← hbyte]
              exact hdecd j hji'
            · rw [hb, if_pos rfl,
                (write_bit_preserves (D.2.1 (i / 8)) (7 - i % 8) (7 - j % 8) hne
                  (by omega)).1, ← hbyte]
              exact hdecd j hji'
          · rw [if_neg hbyte]
            exact hdecd j hji'

/-- **C1** (round trip): for every packed bit sequence, every bit length `N`
with `N ≤ 8·|sequence|`, every context length `K` within the context
buffer's capacity, and every conforming (pure, in-range) predictor, running
`arithmetic_decode` on the output of `arithmetic_encode(sequence, N, K)`
with the same `N`, `K`, and predictor reproduces the original sequence in
its first `N` bits: bit `i` of the decoded buffer equals bit `i` of the
input for every `i < N`. -/
theorem c1_round_trip (g : Nat → Nat → Nat) (hg : ConformingG g)
    (seq : List Nat) (N K : Nat) (dec0 : Nat → Nat) (i : Nat)
    (hN : N ≤ 8 * seq.length) (hK : K ≤ 8 * MAX_CONTEXT_BYTES) (hi : i < N) :
    bitOfMap (Glorious.arithmetic_decode (Glorious.arithmetic_encode seq N K g)
      (Glorious.arithmetic_encode seq N K g).length dec0 N K g) i
      = bitOfBytes seq i := by
  rw [g_arithmetic_decode_eq]
  have h := (g_round_sync g hg seq N K dec0 N (Nat.le_refl N)).2.2.2.2.2 i hi
  rw [h]
  unfold bitOfBytes
  rw [shiftRight_three, and_seven]

/-- Concrete instance of the round trip: bit 3 of the byte `0xCA` with a
two-bit context and the constant predictor 1. -/
theorem c1_round_trip_witness :
    ConformingG (fun _ _ => 1) ∧ 8 ≤ 8 * [0xCA].length ∧
    2 ≤ 8 * MAX_CONTEXT_BYTES ∧ 3 < 8 ∧
    bitOfMap (Glorious.arithmetic_decode
        (Glorious.arithmetic_encode [0xCA] 8 2 (fun _ _ => 1))
        (Glorious.arithmetic_encode [0xCA] 8 2 (fun _ _ => 1)).length
        (fun _ => 0) 8 2 (fun _ _ => 1)) 3
      = bitOfBytes [0xCA] 3 := by
  have hc : ConformingG (fun _ _ => 1) := by
    intro ones K
    refine ⟨Nat.le_refl 1, ?_⟩
    show (1 : Nat) ≤ FIXED_SCALE - 1
    decide
  exact ⟨hc, by decide, by decide, by decide,
    c1_round_trip (fun _ _ => 1) hc [0xCA] 8 2 (fun _ => 0) 3 (by decide) (by decide)
      (by decide)⟩
